import Mathlib

/-!
Verification of the PHAT boundary-matrix reduction engine specification
against a shallow embedding of the code.

The repository's own sources (`src/python/_phat.cpp`, `src/python/phatpy.cpp`)
are pybind11 binding glue; the engine they wrap (`phat/boundary_matrix.h`,
`phat/persistence_pairs.h`, `phat/algorithms/*.h`, `phat/representations/*.h`)
is not part of the provided sources, so the engine layer below is modelled
from the specification, while the binding-level functions (`fix_index`,
`set_dims`, the `__getitem__`/`__setitem__` lambdas) are translated from the
C++ source directly.
-/

namespace Phat

/-- A sparse GF(2) column: the set of row indices of its nonzero entries
(spec section 3, "Column").  Addition of columns is symmetric difference. -/
abbrev Col := Finset ℕ

/-- Modelled from the spec: the pivot ("low") of a column is its maximum
nonzero row index, undefined (`none`) for an empty column (spec section 3). -/
def low (c : Col) : Option ℕ :=
  if h : c.Nonempty then some (c.max' h) else none

theorem low_empty : low (∅ : Col) = none := by
  simp [low]

theorem low_eq_none_iff {c : Col} : low c = none ↔ c = ∅ := by
  unfold low
  split
  · next h => simpa using Finset.nonempty_iff_ne_empty.mp h
  · next h => simpa using Finset.not_nonempty_iff_eq_empty.mp h

theorem low_mem {c : Col} {p : ℕ} (h : low c = some p) : p ∈ c := by
  unfold low at h
  split at h
  · cases h; exact Finset.max'_mem _ _
  · cases h

theorem le_of_mem_of_low {c : Col} {p r : ℕ} (h : low c = some p) (hr : r ∈ c) : r ≤ p := by
  unfold low at h
  split at h
  · cases h; exact Finset.le_max' _ _ hr
  · cases h

theorem low_eq_some_of_mem_of_le {c : Col} {p : ℕ} (hp : p ∈ c)
    (hle : ∀ r ∈ c, r ≤ p) : low c = some p := by
  unfold low
  split
  · next hne =>
      congr 1
      exact le_antisymm (Finset.max'_le _ _ _ hle) (Finset.le_max' _ _ hp)
  · next hne => exact absurd ⟨p, hp⟩ hne

/-- Termination measure for the column-reduction loop: one plus the pivot. -/
def colMeasure (c : Col) : ℕ :=
  match low c with
  | none => 0
  | some p => p + 1

theorem colMeasure_empty : colMeasure (∅ : Col) = 0 := by
  simp [colMeasure, low_empty]

/-- The symmetric difference of two columns with the same pivot has a strictly
smaller measure: the common pivot cancels and no larger entry exists. -/
theorem colMeasure_symmDiff_lt {a b : Col} {p : ℕ}
    (ha : low a = some p) (hb : low b = some p) :
    colMeasure (symmDiff a b) < colMeasure a := by
  have hmem : ∀ r ∈ symmDiff a b, r < p := by
    intro r hr
    rcases Finset.mem_symmDiff.mp hr with ⟨hra, hrb⟩ | ⟨hrb, hra⟩
    · rcases lt_or_eq_of_le (le_of_mem_of_low ha hra) with h | h
      · exact h
      · exact absurd (h ▸ low_mem hb) hrb
    · rcases lt_or_eq_of_le (le_of_mem_of_low hb hrb) with h | h
      · exact h
      · exact absurd (h ▸ low_mem ha) hra
  have hma : colMeasure a = p + 1 := by simp [colMeasure, ha]
  rw [hma]
  unfold colMeasure
  cases hl : low (symmDiff a b) with
  | none => exact Nat.succ_pos p
  | some q => exact Nat.succ_lt_succ (hmem q (low_mem hl))

/-- When the pivots differ, the larger one survives the symmetric difference. -/
theorem low_symmDiff_of_lt {a b : Col} {p q : ℕ}
    (ha : low a = some p) (hb : low b = some q) (hlt : q < p) :
    low (symmDiff a b) = some p := by
  apply low_eq_some_of_mem_of_le
  · rw [Finset.mem_symmDiff]
    left
    refine ⟨low_mem ha, fun hbp => ?_⟩
    exact absurd (le_of_mem_of_low hb hbp) (not_le_of_lt hlt)
  · intro r hr
    rcases Finset.mem_symmDiff.mp hr with ⟨hra, _⟩ | ⟨hrb, _⟩
    · exact le_of_mem_of_low ha hra
    · exact le_trans (le_of_mem_of_low hb hrb) (le_of_lt hlt)

/-- Modelled from the spec: find an earlier column with the given pivot
(spec section 4.3, standard algorithm: "find any earlier column i with the
same pivot as j"; the engine headers are not in the provided source). -/
def findPivotIdx (prev : List Col) (p : ℕ) : Option ℕ :=
  prev.findIdx? (fun c => low c = some p)

theorem findPivotIdx_isSome {prev : List Col} {p i : ℕ}
    (h : findPivotIdx prev p = some i) :
    i < prev.length ∧ low (prev.getD i ∅) = some p := by
  unfold findPivotIdx at h
  have hlt : i < prev.length := List.findIdx?_eq_some_iff_findIdx_eq.mp h |>.1
  refine ⟨hlt, ?_⟩
  have := List.findIdx?_eq_some_iff_getElem.mp h
  rcases this with ⟨hlt', hp, _⟩
  have : (decide (low prev[i] = some p)) = true := hp
  rw [List.getD_eq_getElem _ _ hlt]
  exact of_decide_eq_true this

theorem findPivotIdx_eq_none {prev : List Col} {p : ℕ}
    (h : findPivotIdx prev p = none) :
    ∀ i < prev.length, low (prev.getD i ∅) ≠ some p := by
  intro i hi
  unfold findPivotIdx at h
  have := List.findIdx?_eq_none_iff.mp h
  have hx := this prev[i] (List.getElem_mem hi)
  rw [List.getD_eq_getElem _ _ hi]
  simpa using hx

/-- Modelled from the spec: the inner column-reduction loop of the standard
algorithm (spec section 4.3): repeatedly find an earlier column with the same
pivot and add it in, until the column is empty or its pivot is fresh.
Structured with explicit fuel; `colMeasure` strictly decreases each step, so
`colMeasure c` fuel always suffices (see `reduceOneAux_fuel_irrelevant`). -/
def reduceOneAux : ℕ → List Col → Col → Col
  | 0, _, c => c
  | Nat.succ fuel, prev, c =>
    match low c with
    | none => c
    | some p =>
      match findPivotIdx prev p with
      | none => c
      | some i => reduceOneAux fuel prev (symmDiff c (prev.getD i ∅))

/-- Modelled from the spec: reduce a single column against the earlier
columns `prev` (spec section 4.3). -/
def reduceOne (prev : List Col) (c : Col) : Col :=
  reduceOneAux (colMeasure c) prev c

theorem reduceOneAux_succ_none {fuel : ℕ} {prev : List Col} {c : Col}
    (hl : low c = none) : reduceOneAux (fuel + 1) prev c = c := by
  unfold reduceOneAux
  rw [hl]

theorem reduceOneAux_succ_stop {fuel : ℕ} {prev : List Col} {c : Col} {p : ℕ}
    (hl : low c = some p) (hf : findPivotIdx prev p = none) :
    reduceOneAux (fuel + 1) prev c = c := by
  unfold reduceOneAux
  simp only [hl, hf]

theorem reduceOneAux_succ_go {fuel : ℕ} {prev : List Col} {c : Col} {p i : ℕ}
    (hl : low c = some p) (hf : findPivotIdx prev p = some i) :
    reduceOneAux (fuel + 1) prev c = reduceOneAux fuel prev (symmDiff c (prev.getD i ∅)) := by
  conv_lhs => unfold reduceOneAux
  simp only [hl, hf]

theorem reduceOneAux_of_fuel {fuel : ℕ} {prev : List Col} {c : Col}
    (h : colMeasure c ≤ fuel) :
    reduceOneAux fuel prev c = reduceOne prev c := by
  unfold reduceOne
  induction fuel using Nat.strong_induction_on generalizing c with
  | _ fuel ih =>
    match fuel with
    | 0 =>
      have h0 : colMeasure c = 0 := Nat.le_zero.mp h
      rw [h0]
    | Nat.succ fuel =>
      cases hl : low c with
      | none =>
        have hm : colMeasure c = 0 := by simp [colMeasure, hl]
        rw [reduceOneAux_succ_none hl, hm]
        rfl
      | some p =>
        have hm : colMeasure c = p + 1 := by simp [colMeasure, hl]
        cases hf : findPivotIdx prev p with
        | none =>
          rw [reduceOneAux_succ_stop hl hf, hm, reduceOneAux_succ_stop hl hf]
        | some i =>
          have hlow : low (prev.getD i ∅) = some p := (findPivotIdx_isSome hf).2
          have hdec : colMeasure (symmDiff c (prev.getD i ∅)) < colMeasure c :=
            colMeasure_symmDiff_lt hl hlow
          rw [reduceOneAux_succ_go hl hf, hm, reduceOneAux_succ_go hl hf]
          rw [ih fuel (Nat.lt_succ_self fuel) (by omega)]
          rw [ih p (by omega) (by omega)]

/-- Unfolding equation for `reduceOne` at a nonempty, matched column. -/
theorem reduceOne_step {prev : List Col} {c : Col} {p i : ℕ}
    (hl : low c = some p) (hf : findPivotIdx prev p = some i) :
    reduceOne prev c = reduceOne prev (symmDiff c (prev.getD i ∅)) := by
  have hm : colMeasure c = p + 1 := by simp [colMeasure, hl]
  have hlow : low (prev.getD i ∅) = some p := (findPivotIdx_isSome hf).2
  have hdec : colMeasure (symmDiff c (prev.getD i ∅)) < colMeasure c :=
    colMeasure_symmDiff_lt hl hlow
  calc reduceOne prev c = reduceOneAux (p + 1) prev c := by rw [← hm]; rfl
    _ = reduceOneAux p prev (symmDiff c (prev.getD i ∅)) := reduceOneAux_succ_go hl hf
    _ = reduceOne prev (symmDiff c (prev.getD i ∅)) := reduceOneAux_of_fuel (by omega)

theorem reduceOne_of_low_none {prev : List Col} {c : Col}
    (hl : low c = none) : reduceOne prev c = c := by
  unfold reduceOne
  have hm : colMeasure c = 0 := by simp [colMeasure, hl]
  rw [hm]
  rfl

theorem reduceOne_of_none {prev : List Col} {c : Col} {p : ℕ}
    (hl : low c = some p) (hf : findPivotIdx prev p = none) :
    reduceOne prev c = c := by
  have hm : colMeasure c = p + 1 := by simp [colMeasure, hl]
  unfold reduceOne
  rw [hm]
  exact reduceOneAux_succ_stop hl hf

/-- The reduction loop stops only when the column is empty or its pivot
occurs in no earlier column: the final state is a fixpoint. -/
theorem reduceOne_fixpoint (prev : List Col) (c : Col) :
    low (reduceOne prev c) = none ∨
    (∃ p, low (reduceOne prev c) = some p ∧ findPivotIdx prev p = none) := by
  generalize hm : colMeasure c = m
  induction m using Nat.strong_induction_on generalizing c with
  | _ m ih =>
    cases hl : low c with
    | none => rw [reduceOne_of_low_none hl]; exact Or.inl hl
    | some p =>
      cases hf : findPivotIdx prev p with
      | none =>
        rw [reduceOne_of_none hl hf]
        exact Or.inr ⟨p, hl, hf⟩
      | some i =>
        rw [reduceOne_step hl hf]
        have hlow : low (prev.getD i ∅) = some p := (findPivotIdx_isSome hf).2
        have hdec : colMeasure (symmDiff c (prev.getD i ∅)) < colMeasure c :=
          colMeasure_symmDiff_lt hl hlow
        exact ih _ (hm ▸ hdec) _ rfl


/-- Modelled from the spec: one step of the standard algorithm's left-to-right
sweep: append the reduction of the next column against the already-reduced
prefix (spec section 4.3, "Standard"). -/
def stdStep (st : List Col) (c : Col) : List Col :=
  st ++ [reduceOne st c]

/-- Modelled from the spec: the standard reduction algorithm — process
columns left to right, reducing each against the already-reduced prefix
(spec section 4.3). -/
def stdReduce (M : List Col) : List Col :=
  M.foldl stdStep []

/-- Modelled from the spec: pair extraction from a reduced matrix — one pair
`(pivot row, column index)` per nonempty column (spec section 4.3 common
postcondition), listed in column order. -/
def pairsOfList (R : List Col) : List (ℕ × ℕ) :=
  (List.range R.length).filterMap (fun j => (low (R.getD j ∅)).map (fun p => (p, j)))

theorem stdReduce_append_single (M : List Col) (c : Col) :
    stdReduce (M ++ [c]) = stdReduce M ++ [reduceOne (stdReduce M) c] := by
  unfold stdReduce
  rw [List.foldl_append]
  rfl

theorem stdReduce_length (M : List Col) : (stdReduce M).length = M.length := by
  induction M using List.reverseRecOn with
  | nil => rfl
  | append_singleton M c ih =>
      rw [stdReduce_append_single]
      simp [ih]

theorem stdReduce_take (M : List Col) (j : ℕ) :
    stdReduce (M.take j) = (stdReduce M).take j := by
  induction M using List.reverseRecOn with
  | nil => simp [stdReduce]
  | append_singleton M c ih =>
      rw [stdReduce_append_single]
      rcases le_or_lt j M.length with h | h
      · rw [List.take_append_of_le_length h, ih,
          List.take_append_of_le_length (by rw [stdReduce_length]; exact h)]
      · have h1 : (M ++ [c]).take j = M ++ [c] := by
          apply List.take_of_length_le
          simp; omega
        have h2 : (stdReduce M ++ [reduceOne (stdReduce M) c]).take j =
            stdReduce M ++ [reduceOne (stdReduce M) c] := by
          apply List.take_of_length_le
          simp [stdReduce_length]; omega
        rw [h1, h2, stdReduce_append_single]

theorem stdReduce_getD (M : List Col) (j : ℕ) (h : j < M.length) :
    (stdReduce M).getD j ∅ = reduceOne (stdReduce (M.take j)) (M.getD j ∅) := by
  induction M using List.reverseRecOn with
  | nil => simp at h
  | append_singleton M c ih =>
      rw [stdReduce_append_single]
      rcases lt_or_ge j M.length with hj | hj
      · rw [List.getD_append _ _ _ _ (by rw [stdReduce_length]; exact hj), ih hj,
          List.take_append_of_le_length (le_of_lt hj),
          List.getD_append _ _ _ _ hj]
      · have hj' : j = M.length := by simp at h; omega
        subst hj'
        have e1 : (stdReduce M ++ [reduceOne (stdReduce M) c]).getD M.length ∅ =
            reduceOne (stdReduce M) c := by
          rw [List.getD_eq_getElem _ _ (by simp [stdReduce_length])]
          rw [List.getElem_append_right (by rw [stdReduce_length])]
          simp [stdReduce_length]
        rw [e1]
        have e2 : (M ++ [c]).take M.length = M := by
          rw [List.take_append_of_le_length le_rfl, List.take_length]
        have e3 : (M ++ [c]).getD M.length ∅ = c := by
          rw [List.getD_eq_getElem _ _ (by simp)]
          rw [List.getElem_append_right le_rfl]
          simp
        rw [e2, e3]

/-- Reduced column-echelon form (spec section 3 / glossary): no two nonempty
columns share a pivot. -/
def Reduced (R : List Col) : Prop :=
  ∀ i j p, i < j → j < R.length → low (R.getD i ∅) = some p → low (R.getD j ∅) ≠ some p

theorem getD_take {R : List Col} {i k : ℕ} (h : i < k) :
    (R.take k).getD i ∅ = R.getD i ∅ := by
  rcases lt_or_ge i R.length with hi | hi
  · rw [List.getD_eq_getElem _ _ (by simp; omega), List.getElem_take,
      List.getD_eq_getElem _ _ hi]
  · rw [List.getD_eq_default _ _ (by simp; omega), List.getD_eq_default _ _ hi]

theorem reduced_take {R : List Col} (h : Reduced R) (k : ℕ) : Reduced (R.take k) := by
  intro i j p hij hj hi
  have hjl : j < R.length := by simp at hj; omega
  have hjk : j < k := by simp at hj; omega
  rw [getD_take hjk] at *
  rw [getD_take (lt_trans hij hjk)] at hi
  exact h i j p hij hjl hi

/-- The standard algorithm leaves the matrix in reduced form. -/
theorem stdReduce_reduced (M : List Col) : Reduced (stdReduce M) := by
  intro i j p hij hj hi
  rw [stdReduce_length] at hj
  rw [stdReduce_getD M j hj]
  intro hlow
  rcases reduceOne_fixpoint (stdReduce (M.take j)) (M.getD j ∅) with hnone | ⟨q, hq, hfind⟩
  · rw [hlow] at hnone; cases hnone
  · rw [hlow] at hq
    cases hq
    have hlen : i < (stdReduce (M.take j)).length := by
      rw [stdReduce_length, List.length_take]
      exact lt_min hij (lt_of_lt_of_le hij (le_of_lt hj))
    refine (findPivotIdx_eq_none hfind i hlen) ?_
    rw [stdReduce_take, getD_take hij]
    exact hi


theorem symmDiff_empty_right (c : Col) : symmDiff c ∅ = c := symmDiff_bot c

theorem symmDiff_empty_left (c : Col) : symmDiff ∅ c = c := bot_symmDiff c

theorem symmDiff_self_empty (c : Col) : symmDiff c c = ∅ := symmDiff_self c

/-- Membership in the GF(2) span of a list of columns: a column is in the
span iff it is the symmetric difference of a subset of the list. -/
inductive InSpan : List Col → Col → Prop where
  | nil : InSpan [] ∅
  | skip {L : List Col} {v : Col} (c : Col) : InSpan L v → InSpan (c :: L) v
  | use {L : List Col} {v : Col} (c : Col) : InSpan L v → InSpan (c :: L) (symmDiff c v)

theorem inSpan_empty (L : List Col) : InSpan L ∅ := by
  induction L with
  | nil => exact InSpan.nil
  | cons c L ih => exact InSpan.skip c ih

theorem InSpan.symmDiff_closed {L : List Col} {u v : Col}
    (hu : InSpan L u) (hv : InSpan L v) : InSpan L (symmDiff u v) := by
  induction L generalizing u v with
  | nil =>
      cases hu
      cases hv
      rw [symmDiff_self_empty]
      exact InSpan.nil
  | cons c L ih =>
      cases hu with
      | skip _ hu0 =>
          cases hv with
          | skip _ hv0 => exact InSpan.skip c (ih hu0 hv0)
          | use _ hv0 =>
              rename_i v0
              have e : symmDiff u (symmDiff c v0) = symmDiff c (symmDiff u v0) := by
                rw [symmDiff_comm u, symmDiff_assoc, symmDiff_comm v0 u]
              rw [e]
              exact InSpan.use c (ih hu0 hv0)
      | use _ hu0 =>
          rename_i u0
          cases hv with
          | skip _ hv0 =>
              have e : symmDiff (symmDiff c u0) v = symmDiff c (symmDiff u0 v) :=
                symmDiff_assoc c u0 v
              rw [e]
              exact InSpan.use c (ih hu0 hv0)
          | use _ hv0 =>
              rename_i v0
              have e : symmDiff (symmDiff c u0) (symmDiff c v0) = symmDiff u0 v0 := by
                rw [symmDiff_assoc, symmDiff_comm u0 (symmDiff c v0), symmDiff_assoc,
                  ← symmDiff_assoc c c, symmDiff_self_empty, symmDiff_empty_left,
                  symmDiff_comm v0 u0]
              rw [e]
              exact InSpan.skip c (ih hu0 hv0)

theorem InSpan.append_right {L : List Col} {v : Col} (h : InSpan L v) (L' : List Col) :
    InSpan (L ++ L') v := by
  induction h with
  | nil => exact inSpan_empty L'
  | skip c _ ih => exact InSpan.skip c ih
  | use c _ ih => exact InSpan.use c ih

theorem inSpan_getD {L : List Col} {i : ℕ} (h : i < L.length) :
    InSpan L (L.getD i ∅) := by
  induction L generalizing i with
  | nil => simp at h
  | cons c L ih =>
      cases i with
      | zero =>
          have := InSpan.use c (inSpan_empty L)
          rwa [symmDiff_empty_right] at this
      | succ i => exact InSpan.skip c (ih (by simpa using h))

/-- `L2` spans at least everything `L1` spans. -/
def Subspan (L1 L2 : List Col) : Prop :=
  ∀ v, InSpan L1 v → InSpan L2 v

theorem subspan_of_pointwise {L1 L2 : List Col}
    (h : ∀ i < L1.length, InSpan L2 (L1.getD i ∅)) : Subspan L1 L2 := by
  intro v hv
  induction hv with
  | nil => exact inSpan_empty L2
  | skip c hv0 ih =>
      exact ih (fun i hi => by
        have := h (i + 1) (by simpa using hi)
        simpa using this)
  | use c hv0 ih =>
      refine InSpan.symmDiff_closed ?_ (ih (fun i hi => by
        have := h (i + 1) (by simpa using hi)
        simpa using this))
      simpa using h 0 (by simp)

theorem inSpan_take_mono {M : List Col} {v : Col} {i j : ℕ} (hij : i ≤ j)
    (h : InSpan (M.take i) v) : InSpan (M.take j) v := by
  have e1 : (M.take j).take i = M.take i := by
    rw [List.take_take, min_eq_left hij]
  have e2 := List.take_append_drop i (M.take j)
  rw [e1] at e2
  rw [← e2]
  exact h.append_right _

/-- `R` is obtained from `M` by adding strictly earlier columns into each
column — the only kind of column operation any of the reduction algorithms
performs. -/
def RedOf (M R : List Col) : Prop :=
  R.length = M.length ∧
  ∀ j < M.length, InSpan (M.take j) (symmDiff (R.getD j ∅) (M.getD j ∅))

theorem subspan_take_of_pointwise_red {M R : List Col} {j : ℕ}
    (h : ∀ i < j, InSpan (M.take i) (symmDiff (R.getD i ∅) (M.getD i ∅))) :
    Subspan (R.take j) (M.take j) := by
  apply subspan_of_pointwise
  intro i hi
  have hij : i < j := by simp at hi; omega
  have hiR : i < R.length := by simp at hi; omega
  rw [getD_take hij]
  have h1 : InSpan (M.take j) (symmDiff (R.getD i ∅) (M.getD i ∅)) :=
    inSpan_take_mono (le_of_lt hij) (h i hij)
  have h2 : InSpan (M.take j) (M.getD i ∅) := by
    rcases lt_or_ge i M.length with him | him
    · have e : (M.take j).getD i ∅ = M.getD i ∅ := getD_take hij
      rw [← e]
      exact inSpan_getD (by simp; omega)
    · rw [List.getD_eq_default _ _ him]
      exact inSpan_empty _
  have h3 := InSpan.symmDiff_closed h1 h2
  rwa [symmDiff_assoc, symmDiff_self_empty, symmDiff_empty_right] at h3

theorem RedOf.subspan_take {M R : List Col} (h : RedOf M R) (j : ℕ) :
    Subspan (R.take j) (M.take j) := by
  have hlen := h.1
  apply subspan_take_of_pointwise_red
  intro i hi
  rcases lt_or_ge i M.length with him | him
  · exact h.2 i him
  · rw [List.getD_eq_default _ _ (by omega), List.getD_eq_default _ _ him,
      symmDiff_self_empty]
    exact inSpan_empty _

theorem RedOf.subspan_take_rev {M R : List Col} (h : RedOf M R) (j : ℕ) :
    Subspan (M.take j) (R.take j) := by
  have hlen := h.1
  induction j using Nat.strong_induction_on with
  | _ j ih =>
    apply subspan_of_pointwise
    intro i hi
    have hij : i < j := by simp at hi; omega
    have hiM : i < M.length := by simp at hi; omega
    rw [getD_take hij]
    have hRi : InSpan (R.take j) (R.getD i ∅) := by
      have e : (R.take j).getD i ∅ = R.getD i ∅ := getD_take hij
      rw [← e]
      exact inSpan_getD (by simp; omega)
    have hdiff : InSpan (R.take i) (symmDiff (R.getD i ∅) (M.getD i ∅)) :=
      ih i hij _ (h.2 i hiM)
    have hdiff2 : InSpan (R.take j) (symmDiff (R.getD i ∅) (M.getD i ∅)) :=
      inSpan_take_mono (le_of_lt hij) hdiff
    have h3 := InSpan.symmDiff_closed hRi hdiff2
    rwa [← symmDiff_assoc, symmDiff_self_empty, symmDiff_empty_left] at h3

theorem RedOf.refl (M : List Col) : RedOf M M := by
  refine ⟨rfl, fun j _ => ?_⟩
  rw [symmDiff_self_empty]
  exact inSpan_empty _

theorem RedOf.trans {M C R : List Col} (h1 : RedOf M C) (h2 : RedOf C R) : RedOf M R := by
  have hc := h1.1
  refine ⟨h2.1.trans h1.1, fun j hj => ?_⟩
  have ha : InSpan (C.take j) (symmDiff (R.getD j ∅) (C.getD j ∅)) := h2.2 j (by omega)
  have hb : InSpan (M.take j) (symmDiff (C.getD j ∅) (M.getD j ∅)) := h1.2 j hj
  have ha2 : InSpan (M.take j) (symmDiff (R.getD j ∅) (C.getD j ∅)) :=
    h1.subspan_take j _ ha
  have h3 := InSpan.symmDiff_closed ha2 hb
  rwa [symmDiff_assoc, ← symmDiff_assoc (C.getD j ∅), symmDiff_self_empty,
    symmDiff_empty_left] at h3


/-- The reduction loop only ever adds columns of `prev` into the working
column: the total change lies in the span of `prev`. -/
theorem reduceOne_symmDiff_inSpan (prev : List Col) (c : Col) :
    InSpan prev (symmDiff (reduceOne prev c) c) := by
  generalize hm : colMeasure c = m
  induction m using Nat.strong_induction_on generalizing c with
  | _ m ih =>
    cases hl : low c with
    | none =>
        rw [reduceOne_of_low_none hl, symmDiff_self_empty]
        exact inSpan_empty _
    | some p =>
        cases hf : findPivotIdx prev p with
        | none =>
            rw [reduceOne_of_none hl hf, symmDiff_self_empty]
            exact inSpan_empty _
        | some i =>
            rw [reduceOne_step hl hf]
            have hlow : low (prev.getD i ∅) = some p := (findPivotIdx_isSome hf).2
            have hdec : colMeasure (symmDiff c (prev.getD i ∅)) < colMeasure c :=
              colMeasure_symmDiff_lt hl hlow
            have hrec := ih _ (hm ▸ hdec) (symmDiff c (prev.getD i ∅)) rfl
            have hmem : InSpan prev (prev.getD i ∅) :=
              inSpan_getD (findPivotIdx_isSome hf).1
            have h3 := InSpan.symmDiff_closed hrec hmem
            have e : symmDiff (symmDiff (reduceOne prev (symmDiff c (prev.getD i ∅)))
                (symmDiff c (prev.getD i ∅))) (prev.getD i ∅) =
                symmDiff (reduceOne prev (symmDiff c (prev.getD i ∅))) c := by
              rw [symmDiff_assoc, symmDiff_assoc, symmDiff_self_empty,
                symmDiff_empty_right]
            rwa [e] at h3

/-- Each column of the standard reduction differs from the original column
by a combination of strictly earlier original columns. -/
theorem stdReduce_pointwise (M : List Col) :
    ∀ j < M.length, InSpan (M.take j) (symmDiff ((stdReduce M).getD j ∅) (M.getD j ∅)) := by
  intro j
  induction j using Nat.strong_induction_on with
  | _ j ih =>
    intro hj
    have h1 : InSpan ((stdReduce M).take j)
        (symmDiff ((stdReduce M).getD j ∅) (M.getD j ∅)) := by
      rw [stdReduce_getD M j hj, ← stdReduce_take]
      exact reduceOne_symmDiff_inSpan _ _
    have hs : Subspan ((stdReduce M).take j) (M.take j) :=
      subspan_take_of_pointwise_red (fun i hij => ih i hij (lt_trans hij hj))
    exact hs _ h1

/-- The standard algorithm is a reduction by leftward column additions. -/
theorem stdReduce_redOf (M : List Col) : RedOf M (stdReduce M) :=
  ⟨stdReduce_length M, stdReduce_pointwise M⟩


theorem symmDiff_cancel_middle (a b m : Col) :
    symmDiff (symmDiff a m) (symmDiff b m) = symmDiff a b := by
  rw [symmDiff_comm a m, symmDiff_comm b m]
  rw [symmDiff_assoc, symmDiff_comm a (symmDiff m b), symmDiff_assoc,
    ← symmDiff_assoc m m, symmDiff_self_empty, symmDiff_empty_left, symmDiff_comm b a]

theorem symmDiff_eq_empty_iff {a b : Col} : symmDiff a b = ∅ ↔ a = b :=
  symmDiff_eq_bot

theorem low_ne_none {c : Col} (h : c ≠ ∅) : ∃ p, low c = some p := by
  cases hl : low c with
  | none => exact absurd (low_eq_none_iff.mp hl) h
  | some p => exact ⟨p, rfl⟩

theorem reduced_tail {c : Col} {L : List Col} (h : Reduced (c :: L)) : Reduced L := by
  intro i j p hij hj hi
  have := h (i + 1) (j + 1) p (by omega) (by simpa using hj)
  simpa using this hi

theorem reduced_head {c : Col} {L : List Col} (h : Reduced (c :: L)) :
    ∀ i < L.length, ∀ p, low c = some p → low (L.getD i ∅) ≠ some p := by
  intro i hi p hc
  have := h 0 (i + 1) p (by omega) (by simpa using hi)
  simpa using this hc

/-- Any nonzero element of the span of a reduced list of columns shares its
pivot with one of the columns (the largest participating pivot survives). -/
theorem low_of_inSpan_reduced {L : List Col} {v : Col} (hv : InSpan L v) :
    Reduced L → v ≠ ∅ → ∃ i < L.length, low v = low (L.getD i ∅) := by
  induction hv with
  | nil => exact fun _ hne => absurd rfl hne
  | skip c _ ih =>
      intro hred hne
      obtain ⟨i, hi, he⟩ := ih (reduced_tail hred) hne
      exact ⟨i + 1, by simpa using hi, by simpa using he⟩
  | use c hv0 ih =>
      intro hred hne
      rename_i L0 v0
      by_cases hv0e : v0 = ∅
      · subst hv0e
        refine ⟨0, by simp, ?_⟩
        rw [symmDiff_empty_right]
        simp
      · obtain ⟨i, hi, he⟩ := ih (reduced_tail hred) hv0e
        by_cases hce : c = ∅
        · subst hce
          rw [symmDiff_empty_left]
          exact ⟨i + 1, by simpa using hi, by simpa using he⟩
        · obtain ⟨pc, hpc⟩ := low_ne_none hce
          obtain ⟨pv, hpv⟩ := low_ne_none hv0e
          have hpcv : pc ≠ pv := by
            intro hcontra
            subst hcontra
            have := reduced_head hred i hi pc hpc
            rw [← he] at this
            exact this hpv
          rcases lt_or_gt_of_ne hpcv with hlt | hgt
          · have hlow : low (symmDiff c v0) = some pv := by
              rw [symmDiff_comm]
              exact low_symmDiff_of_lt hpv hpc hlt
            refine ⟨i + 1, by simpa using hi, ?_⟩
            rw [hlow, ← hpv]
            simpa using he
          · have hlow : low (symmDiff c v0) = some pc :=
              low_symmDiff_of_lt hpc hpv hgt
            refine ⟨0, by simp, ?_⟩
            rw [hlow]
            simp [hpc]

/-- Uniqueness of the pairing: any two reductions of the same matrix by
leftward column additions that both reach reduced form have the same pivot
in every column.  This is the engine's cross-algorithm correctness core. -/
theorem lows_eq_of_redOf {M R1 R2 : List Col}
    (h1 : RedOf M R1) (hr1 : Reduced R1) (h2 : RedOf M R2) (hr2 : Reduced R2) :
    ∀ j, low (R1.getD j ∅) = low (R2.getD j ∅) := by
  intro j
  have hl1 := h1.1
  have hl2 := h2.1
  rcases lt_or_ge j M.length with hj | hj
  · have hv : InSpan (M.take j) (symmDiff (R1.getD j ∅) (R2.getD j ∅)) := by
      have ha := h1.2 j hj
      have hb := h2.2 j hj
      have h3 := InSpan.symmDiff_closed ha hb
      rwa [symmDiff_cancel_middle] at h3
    by_cases hve : symmDiff (R1.getD j ∅) (R2.getD j ∅) = ∅
    · rw [symmDiff_eq_empty_iff.mp hve]
    · have hv1 : InSpan (R1.take j) (symmDiff (R1.getD j ∅) (R2.getD j ∅)) :=
        h1.subspan_take_rev j _ hv
      have hv2 : InSpan (R2.take j) (symmDiff (R1.getD j ∅) (R2.getD j ∅)) :=
        h2.subspan_take_rev j _ hv
      obtain ⟨i1, hi1, he1⟩ := low_of_inSpan_reduced hv1 (reduced_take hr1 j) hve
      obtain ⟨i2, hi2, he2⟩ := low_of_inSpan_reduced hv2 (reduced_take hr2 j) hve
      have hi1j : i1 < j := by simp at hi1; omega
      have hi2j : i2 < j := by simp at hi2; omega
      rw [getD_take hi1j] at he1
      rw [getD_take hi2j] at he2
      by_contra hneq
      by_cases h1e : R1.getD j ∅ = ∅
      · have hbe : R2.getD j ∅ ≠ ∅ := by
          intro hcontra
          exact hneq (by rw [h1e, hcontra])
        obtain ⟨pb, hpb⟩ := low_ne_none hbe
        have hveq : symmDiff (R1.getD j ∅) (R2.getD j ∅) = R2.getD j ∅ := by
          rw [h1e, symmDiff_empty_left]
        rw [hveq] at he2
        exact hr2 i2 j pb hi2j (by omega) (he2 ▸ hpb) hpb
      · by_cases h2e : R2.getD j ∅ = ∅
        · obtain ⟨pa, hpa⟩ := low_ne_none h1e
          have hveq : symmDiff (R1.getD j ∅) (R2.getD j ∅) = R1.getD j ∅ := by
            rw [h2e, symmDiff_empty_right]
          rw [hveq] at he1
          exact hr1 i1 j pa hi1j (by omega) (he1 ▸ hpa) hpa
        · obtain ⟨pa, hpa⟩ := low_ne_none h1e
          obtain ⟨pb, hpb⟩ := low_ne_none h2e
          have hab : pa ≠ pb := by
            intro hcontra
            subst hcontra
            exact hneq (hpa.trans hpb.symm)
          rcases lt_or_gt_of_ne hab with hlt | hgt
          · have hlow : low (symmDiff (R1.getD j ∅) (R2.getD j ∅)) = some pb := by
              rw [symmDiff_comm]
              exact low_symmDiff_of_lt hpb hpa hlt
            rw [hlow] at he2
            exact hr2 i2 j pb hi2j (by omega) he2.symm hpb
          · have hlow : low (symmDiff (R1.getD j ∅) (R2.getD j ∅)) = some pa :=
              low_symmDiff_of_lt hpa hpb hgt
            rw [hlow] at he1
            exact hr1 i1 j pa hi1j (by omega) he1.symm hpa
  · rw [List.getD_eq_default _ _ (by omega), List.getD_eq_default _ _ (by omega)]

/-- Any reduced leftward-reduction of `M` yields the same pair list as the
standard algorithm. -/
theorem pairsOfList_eq_std {M R : List Col}
    (h : RedOf M R) (hr : Reduced R) :
    pairsOfList R = pairsOfList (stdReduce M) := by
  unfold pairsOfList
  rw [h.1, stdReduce_length]
  apply List.filterMap_congr
  intro j _
  rw [lows_eq_of_redOf h hr (stdReduce_redOf M) (stdReduce_reduced M) j]


/-- Largest dimension tag occurring in the matrix. -/
def maxDim (dims : List ℕ) : ℕ :=
  dims.foldr max 0

/-- Modelled from the spec: the dimension-grouped processing order used by
the twist and spectral-sequence algorithms — all columns of dimension `d`
(in index order) before any column of dimension `d + 1` (spec section 4.3:
"processes by increasing dimension", "reduces progressively
dimension-by-dimension"). -/
def dimOrder (dims : List ℕ) : List ℕ :=
  (List.range (maxDim dims + 1)).flatMap
    (fun d => (List.range dims.length).filter (fun j => dims.getD j 0 = d))

/-- Modelled from the spec: one column step of the spectral-sequence
algorithm — the usual column-reduction loop, processed in dimension order,
emitting a pair on a nonempty final pivot (spec section 4.3). -/
def ssrStep (st : List Col × List (ℕ × ℕ)) (j : ℕ) : List Col × List (ℕ × ℕ) :=
  let c := reduceOne (st.1.take j) (st.1.getD j ∅)
  match low c with
  | none => (st.1.set j c, st.2)
  | some p => (st.1.set j c, st.2 ++ [(p, j)])

/-- Modelled from the spec: the spectral-sequence algorithm — reduce
dimension by dimension; the inter-pass clearing of resolved rows is a memory
optimisation that does not alter columns (spec section 4.3). -/
def ssrFold (dims : List ℕ) (M : List Col) : List Col × List (ℕ × ℕ) :=
  (dimOrder dims).foldl ssrStep (M, [])

/-- Modelled from the spec: one column step of the twist algorithm — the
identical column-reduction loop, but the moment a pair `(p, j)` is
confirmed, column `p` is cleared immediately (spec section 4.3, "Twist"). -/
def twistStep (st : List Col × List (ℕ × ℕ)) (j : ℕ) : List Col × List (ℕ × ℕ) :=
  let c := reduceOne (st.1.take j) (st.1.getD j ∅)
  match low c with
  | none => (st.1.set j c, st.2)
  | some p => ((st.1.set j c).set p ∅, st.2 ++ [(p, j)])

/-- Modelled from the spec: the twist algorithm (spec section 4.3). -/
def twistFold (dims : List ℕ) (M : List Col) : List Col × List (ℕ × ℕ) :=
  (dimOrder dims).foldl twistStep (M, [])

/-- Modelled from the spec: one pass of the row algorithm over row `i`
(spec section 4.3, "Row"): the leftmost column whose pivot is `i` is added
into every later column with an entry in row `i`, clearing the row. -/
def rowPass (st : List Col) (i : ℕ) : List Col :=
  match findPivotIdx st i with
  | none => st
  | some j =>
    let piv := st.getD j ∅
    st.mapIdx (fun k c => if j < k ∧ i ∈ c then symmDiff c piv else c)

/-- Modelled from the spec: process rows `i - 1, i - 2, ..., 0`, highest
row first (spec section 4.3, "Row"). -/
def rowReduceAux : ℕ → List Col → List Col
  | 0, st => st
  | Nat.succ i, st => rowReduceAux i (rowPass st i)

/-- Modelled from the spec: the row algorithm — a row-oriented reduction
processing rows from the bottom up (spec section 4.3). -/
def rowReduce (M : List Col) : List Col :=
  rowReduceAux M.length M

/-- Modelled from the spec: the local phase of the chunk algorithm — each
column is reduced using only earlier columns of its own fixed-size chunk
(spec section 4.3, "Chunk"). -/
def localStep (s : ℕ) (st : List Col) (j : ℕ) : List Col :=
  st.set j (reduceOne ((st.take j).drop (s * (j / s))) (st.getD j ∅))

/-- Modelled from the spec: the chunk-local reduction pass. -/
def localReduce (s : ℕ) (M : List Col) : List Col :=
  (List.range M.length).foldl (localStep s) M

/-- Modelled from the spec: the chunk algorithm — independent chunk-local
reduction followed by the synchronization phase that resolves cross-chunk
dependencies; parallel scheduling affects wall-clock time only (spec
section 4.3). -/
def chunkReduce (s : ℕ) (M : List Col) : List Col :=
  stdReduce (localReduce s M)

/-- The five reduction algorithms of the engine (spec section 4.3); the
chunk algorithm is parameterized by its chunk size. -/
inductive Algorithm where
  | standard : Algorithm
  | twist : Algorithm
  | row : Algorithm
  | chunk : ℕ → Algorithm
  | spectral : Algorithm

/-- The reduced matrix produced by each algorithm. -/
def algReduce : Algorithm → List ℕ → List Col → List Col
  | Algorithm.standard, _, M => stdReduce M
  | Algorithm.twist, dims, M => (twistFold dims M).1
  | Algorithm.row, _, M => rowReduce M
  | Algorithm.chunk s, _, M => chunkReduce s M
  | Algorithm.spectral, dims, M => (ssrFold dims M).1

/-- The persistence-pair list produced by each algorithm, in its emission
order. -/
def algPairsList : Algorithm → List ℕ → List Col → List (ℕ × ℕ)
  | Algorithm.standard, _, M => pairsOfList (stdReduce M)
  | Algorithm.twist, dims, M => (twistFold dims M).2
  | Algorithm.row, _, M => pairsOfList (rowReduce M)
  | Algorithm.chunk s, _, M => pairsOfList (chunkReduce s M)
  | Algorithm.spectral, dims, M => (ssrFold dims M).2

/-- The set of persistence pairs produced by an algorithm. -/
def algPairs (a : Algorithm) (dims : List ℕ) (M : List Col) : Finset (ℕ × ℕ) :=
  (algPairsList a dims M).toFinset


theorem getD_set_self {l : List Col} {j : ℕ} {c : Col} (h : j < l.length) :
    (l.set j c).getD j ∅ = c := by
  rw [List.getD_eq_getElem _ _ (by simpa using h)]
  exact List.getElem_set_self _

theorem getD_set_ne {l : List Col} {i j : ℕ} {c : Col} (h : i ≠ j) :
    (l.set i c).getD j ∅ = l.getD j ∅ := by
  rcases lt_or_ge j l.length with hj | hj
  · rw [List.getD_eq_getElem _ _ (by simpa using hj), List.getD_eq_getElem _ _ hj]
    exact List.getElem_set_ne h _
  · rw [List.getD_eq_default _ _ (by simpa using hj), List.getD_eq_default _ _ hj]

theorem getD_drop {l : List Col} {off i : ℕ} :
    (l.drop off).getD i ∅ = l.getD (off + i) ∅ := by
  rcases lt_or_ge (off + i) l.length with h | h
  · rw [List.getD_eq_getElem _ _ (by simp; omega), List.getD_eq_getElem _ _ h]
    exact List.getElem_drop _
  · rw [List.getD_eq_default _ _ (by simp; omega), List.getD_eq_default _ _ h]

/-- Columns stored in a matrix obeying `RedOf` lie in the span of any prefix
of original columns strictly beyond them. -/
theorem RedOf.getD_inSpan {M st : List Col} (h : RedOf M st) {m j : ℕ} (hmj : m < j) :
    InSpan (M.take j) (st.getD m ∅) := by
  rcases lt_or_ge m M.length with hm | hm
  · have h1 : InSpan (M.take j) (symmDiff (st.getD m ∅) (M.getD m ∅)) :=
      inSpan_take_mono (le_of_lt hmj) (h.2 m hm)
    have h2 : InSpan (M.take j) (M.getD m ∅) := by
      have e : (M.take j).getD m ∅ = M.getD m ∅ := getD_take hmj
      rw [← e]
      exact inSpan_getD (by simp; omega)
    have h3 := InSpan.symmDiff_closed h1 h2
    rwa [symmDiff_assoc, symmDiff_self_empty, symmDiff_empty_right] at h3
  · have hl := h.1
    rw [List.getD_eq_default _ _ (by omega)]
    exact inSpan_empty _

/-- The chunk-local phase performs only leftward column additions. -/
theorem localReduce_redOf (s : ℕ) (M : List Col) : RedOf M (localReduce s M) := by
  unfold localReduce
  refine List.foldlRecOn _ _ _ (RedOf.refl M) ?_
  intro st hst j hj
  unfold localStep
  constructor
  · rw [List.length_set, hst.1]
  · intro k hk
    by_cases hkj : k = j
    · subst hkj
      have hkst : k < st.length := by rw [hst.1]; exact hk
      rw [getD_set_self hkst]
      have hspan := reduceOne_symmDiff_inSpan ((st.take k).drop (s * (k / s))) (st.getD k ∅)
      have hsub : Subspan ((st.take k).drop (s * (k / s))) (M.take k) := by
        apply subspan_of_pointwise
        intro i hi
        rw [getD_drop, getD_take (by simp at hi; omega)]
        exact hst.getD_inSpan (by simp at hi; omega)
      have h1 : InSpan (M.take k)
          (symmDiff (reduceOne ((st.take k).drop (s * (k / s))) (st.getD k ∅)) (st.getD k ∅)) :=
        hsub _ hspan
      have h2 : InSpan (M.take k) (symmDiff (st.getD k ∅) (M.getD k ∅)) := hst.2 k hk
      have h3 := InSpan.symmDiff_closed h1 h2
      rwa [symmDiff_assoc, ← symmDiff_assoc (st.getD k ∅), symmDiff_self_empty,
        symmDiff_empty_left] at h3
    · rw [getD_set_ne (fun e => hkj e.symm)]
      exact hst.2 k hk

/-- The chunk algorithm is a reduction by leftward column additions. -/
theorem chunkReduce_redOf (s : ℕ) (M : List Col) : RedOf M (chunkReduce s M) :=
  (localReduce_redOf s M).trans (stdReduce_redOf _)

/-- The chunk algorithm reaches reduced form. -/
theorem chunkReduce_reduced (s : ℕ) (M : List Col) : Reduced (chunkReduce s M) :=
  stdReduce_reduced _

/-- The chunk algorithm produces exactly the standard pair list. -/
theorem chunkPairs_eq_std (s : ℕ) (M : List Col) :
    pairsOfList (chunkReduce s M) = pairsOfList (stdReduce M) :=
  pairsOfList_eq_std (chunkReduce_redOf s M) (chunkReduce_reduced s M)


/-- Ordering invariant of a boundary matrix (spec section 3): every entry of
a column is strictly smaller than the column's own index. -/
def OrderedCols (M : List Col) : Prop :=
  ∀ j < M.length, ∀ r ∈ M.getD j ∅, r < j

/-- Toggling a column by a pivot column with entries at most `i` does not
affect membership of rows above `i`. -/
theorem mem_symmDiff_high {c piv : Col} {i r : ℕ}
    (hpiv : ∀ x ∈ piv, x ≤ i) (hri : i < r) : r ∈ symmDiff c piv ↔ r ∈ c := by
  rw [Finset.mem_symmDiff]
  have hnp : r ∉ piv := fun hr => absurd (hpiv r hr) (by omega)
  constructor
  · rintro (⟨h1, _⟩ | ⟨h1, _⟩)
    · exact h1
    · exact absurd h1 hnp
  · intro h1
    exact Or.inl ⟨h1, hnp⟩

/-- Toggling a column by a pivot column with entries at most `i` does not
affect whether its pivot equals a row above `i`. -/
theorem low_symmDiff_high_iff {c piv : Col} {i r : ℕ}
    (hpiv : ∀ x ∈ piv, x ≤ i) (hri : i < r) :
    (low (symmDiff c piv) = some r ↔ low c = some r) := by
  have key : ∀ a : Col, low a = some r → low (symmDiff a piv) = some r := by
    intro a ha
    apply low_eq_some_of_mem_of_le
    · exact (mem_symmDiff_high hpiv hri).mpr (low_mem ha)
    · intro x hx
      rcases Finset.mem_symmDiff.mp hx with ⟨h1, _⟩ | ⟨h1, _⟩
      · exact le_of_mem_of_low ha h1
      · exact le_trans (hpiv x h1) (by omega)
  constructor
  · intro h
    have := key (symmDiff c piv) h
    rwa [symmDiff_assoc, symmDiff_self_empty, symmDiff_empty_right] at this
  · exact key c

theorem rowPass_length (st : List Col) (i : ℕ) : (rowPass st i).length = st.length := by
  unfold rowPass
  cases findPivotIdx st i with
  | none => rfl
  | some j => simp

/-- In a row pass, only columns strictly to the right of the found pivot
column change, and they change by adding the pivot column. -/
theorem rowPass_getD {st : List Col} {i j : ℕ} (hj : findPivotIdx st i = some j)
    {k : ℕ} (hk : k < st.length) :
    (rowPass st i).getD k ∅ =
      if j < k ∧ i ∈ st.getD k ∅ then symmDiff (st.getD k ∅) (st.getD j ∅)
      else st.getD k ∅ := by
  unfold rowPass
  rw [hj]
  rw [List.getD_eq_getElem _ _ (by simpa using hk), List.getElem_mapIdx,
    List.getD_eq_getElem _ _ hk]

theorem rowPass_getD_none {st : List Col} {i : ℕ} (hj : findPivotIdx st i = none)
    {k : ℕ} : (rowPass st i).getD k ∅ = st.getD k ∅ := by
  unfold rowPass
  rw [hj]

/-- A row pass performs only leftward column additions. -/
theorem rowPass_redOf {M st : List Col} (h : RedOf M st) (i : ℕ) :
    RedOf M (rowPass st i) := by
  cases hj : findPivotIdx st i with
  | none =>
      refine ⟨?_, fun k hk => ?_⟩
      · rw [rowPass_length, h.1]
      · rw [rowPass_getD_none hj]
        exact h.2 k hk
  | some j =>
      refine ⟨?_, fun k hk => ?_⟩
      · rw [rowPass_length, h.1]
      · have hkst : k < st.length := by rw [h.1]; exact hk
        rw [rowPass_getD hj hkst]
        split
        · next hcond =>
            have hpivspan : InSpan (M.take k) (st.getD j ∅) := h.getD_inSpan hcond.1
            have h1 : InSpan (M.take k) (symmDiff (st.getD k ∅) (M.getD k ∅)) := h.2 k hk
            have h3 := InSpan.symmDiff_closed h1 hpivspan
            have e : symmDiff (symmDiff (st.getD k ∅) (M.getD k ∅)) (st.getD j ∅) =
                symmDiff (symmDiff (st.getD k ∅) (st.getD j ∅)) (M.getD k ∅) := by
              rw [symmDiff_assoc, symmDiff_assoc, symmDiff_comm (M.getD k ∅)]
            rwa [e] at h3
        · exact h.2 k hk

/-- Rows at or above `i` are "cleared": whenever a column's pivot sits in
such a row, no later column has an entry in that row. -/
def RowsCleared (st : List Col) (i : ℕ) : Prop :=
  ∀ r, i ≤ r → ∀ j k, j < k → k < st.length →
    low (st.getD j ∅) = some r → r ∉ st.getD k ∅

theorem rowsCleared_of_ordered {M : List Col} (h : OrderedCols M) :
    RowsCleared M M.length := by
  intro r hr j k hjk hk hlow
  intro hmem
  have hjM : j < M.length := lt_trans hjk hk
  have := h j hjM r (low_mem hlow)
  omega

/-- One row pass extends the cleared region down by one row. -/
theorem rowPass_rowsCleared {st : List Col} {i : ℕ} (h : RowsCleared st (i + 1)) :
    RowsCleared (rowPass st i) i := by
  cases hj : findPivotIdx st i with
  | none =>
      intro r hr j k hjk hk hlow hmem
      rw [rowPass_length] at hk
      rw [rowPass_getD_none hj] at hlow hmem
      rcases eq_or_lt_of_le hr with rfl | hri
      · exact findPivotIdx_eq_none hj j (lt_trans hjk hk) hlow
      · exact h r hri j k hjk hk hlow hmem
  | some j0 =>
      have hjlt : j0 < st.length := (findPivotIdx_isSome hj).1
      have hjlow : low (st.getD j0 ∅) = some i := (findPivotIdx_isSome hj).2
      have hpiv : ∀ x ∈ st.getD j0 ∅, x ≤ i := fun x hx => le_of_mem_of_low hjlow hx
      intro r hr j k hjk hk hlow hmem
      rw [rowPass_length] at hk
      have hjst : j < st.length := lt_trans hjk hk
      rw [rowPass_getD hj hjst] at hlow
      rw [rowPass_getD hj hk] at hmem
      rcases eq_or_lt_of_le hr with rfl | hri
      · have hjeq : j = j0 := by
          rcases lt_trichotomy j j0 with hlt | heq | hgt
          · exfalso
            rcases List.findIdx?_eq_some_iff_getElem.mp hj with ⟨hb, _, hmin⟩
            have hnot := hmin j hlt
            rw [if_neg (fun hc => absurd hc.1 (by omega))] at hlow
            rw [List.getD_eq_getElem _ _ hjst] at hlow
            exact hnot (by simpa using hlow)
          · exact heq
          · exfalso
            by_cases hmemj : i ∈ st.getD j ∅
            · rw [if_pos ⟨hgt, hmemj⟩] at hlow
              have hrmem := low_mem hlow
              rw [Finset.mem_symmDiff] at hrmem
              rcases hrmem with ⟨h1, h2⟩ | ⟨h1, h2⟩
              · exact h2 (low_mem hjlow)
              · exact h2 hmemj
            · rw [if_neg (fun hc => hmemj hc.2)] at hlow
              exact hmemj (low_mem hlow)
        subst hjeq
        by_cases hmemk : i ∈ st.getD k ∅
        · rw [if_pos ⟨hjk, hmemk⟩] at hmem
          rw [Finset.mem_symmDiff] at hmem
          rcases hmem with ⟨h1, h2⟩ | ⟨h1, h2⟩
          · exact h2 (low_mem hjlow)
          · exact h2 hmemk
        · rw [if_neg (fun hc => hmemk hc.2)] at hmem
          exact hmemk hmem
      · have hlow2 : low (st.getD j ∅) = some r := by
          revert hlow
          split
          · exact fun hlow => (low_symmDiff_high_iff hpiv hri).mp hlow
          · exact fun hlow => hlow
        have hmem2 : r ∈ st.getD k ∅ := by
          revert hmem
          split
          · exact fun hmem => (mem_symmDiff_high hpiv hri).mp hmem
          · exact fun hmem => hmem
        exact h r hri j k hjk hk hlow2 hmem2

theorem rowReduceAux_redOf {M st : List Col} (h : RedOf M st) (i : ℕ) :
    RedOf M (rowReduceAux i st) := by
  induction i generalizing st with
  | zero => exact h
  | succ i ih => exact ih (rowPass_redOf h i)

theorem rowReduceAux_rowsCleared {st : List Col} {i : ℕ} (h : RowsCleared st i) :
    RowsCleared (rowReduceAux i st) 0 := by
  induction i generalizing st with
  | zero => exact h
  | succ i ih => exact ih (rowPass_rowsCleared h)

/-- The row algorithm is a reduction by leftward column additions. -/
theorem rowReduce_redOf (M : List Col) : RedOf M (rowReduce M) :=
  rowReduceAux_redOf (RedOf.refl M) M.length

/-- On an ordered matrix the row algorithm clears every pivot row, so in
particular it reaches reduced form. -/
theorem rowReduce_rowsCleared {M : List Col} (h : OrderedCols M) :
    RowsCleared (rowReduce M) 0 :=
  rowReduceAux_rowsCleared (rowsCleared_of_ordered h)

theorem reduced_of_rowsCleared {st : List Col} (h : RowsCleared st 0) : Reduced st := by
  intro i j p hij hj hi hj2
  exact h p (Nat.zero_le p) i j hij hj hi (low_mem hj2)

theorem rowReduce_reduced {M : List Col} (h : OrderedCols M) : Reduced (rowReduce M) :=
  reduced_of_rowsCleared (rowReduce_rowsCleared h)

/-- On ordered input, the row algorithm produces exactly the standard pair
list. -/
theorem rowPairs_eq_std {M : List Col} (h : OrderedCols M) :
    pairsOfList (rowReduce M) = pairsOfList (stdReduce M) :=
  pairsOfList_eq_std (rowReduce_redOf M) (rowReduce_reduced h)


/-- Dimension-compatibility invariant of a boundary matrix (spec section 3,
"Dimension"): every entry of a column is a row whose dimension tag is one
less than the column's own tag. -/
def DimCompatCols (dims : List ℕ) (M : List Col) : Prop :=
  ∀ j < M.length, ∀ r ∈ M.getD j ∅, dims.getD r 0 + 1 = dims.getD j 0

instance (M : List Col) : Decidable (OrderedCols M) :=
  inferInstanceAs (Decidable (∀ j < M.length, ∀ r ∈ M.getD j ∅, r < j))

instance (dims : List ℕ) (M : List Col) : Decidable (DimCompatCols dims M) :=
  inferInstanceAs (Decidable (∀ j < M.length, ∀ r ∈ M.getD j ∅, dims.getD r 0 + 1 = dims.getD j 0))

/-- Processing precedence of the dimension-grouped order: strictly smaller
dimension first, index order within a dimension. -/
def dimLt (dims : List ℕ) (a b : ℕ) : Prop :=
  dims.getD a 0 < dims.getD b 0 ∨ (dims.getD a 0 = dims.getD b 0 ∧ a < b)

theorem le_maxDim {dims : List ℕ} {x : ℕ} (h : x ∈ dims) : x ≤ maxDim dims := by
  unfold maxDim
  induction dims with
  | nil => cases h
  | cons d ds ih =>
      rcases List.mem_cons.mp h with rfl | h2
      · exact le_max_left _ _
      · exact le_trans (ih h2) (le_max_right _ _)

theorem getD_le_maxDim {dims : List ℕ} {j : ℕ} (h : j < dims.length) :
    dims.getD j 0 ≤ maxDim dims := by
  rw [List.getD_eq_getElem _ _ h]
  exact le_maxDim (List.getElem_mem h)

theorem mem_dimOrder {dims : List ℕ} {j : ℕ} :
    j ∈ dimOrder dims ↔ j < dims.length := by
  unfold dimOrder
  rw [List.mem_flatMap]
  constructor
  · rintro ⟨d, _, hj⟩
    exact List.mem_range.mp (List.mem_filter.mp hj).1
  · intro hj
    refine ⟨dims.getD j 0, List.mem_range.mpr (by
      have := getD_le_maxDim hj
      omega), ?_⟩
    rw [List.mem_filter]
    exact ⟨List.mem_range.mpr hj, by simp⟩

theorem nodup_dimOrder (dims : List ℕ) : (dimOrder dims).Nodup := by
  unfold dimOrder
  rw [List.nodup_flatMap]
  constructor
  · intro d _
    exact List.Nodup.filter _ (List.nodup_range _)
  · have hp : List.Pairwise (· < ·) (List.range (maxDim dims + 1)) :=
      List.pairwise_lt_range _
    refine hp.imp ?_
    intro d d' hdd
    intro x hx hx'
    have h1 : dims.getD x 0 = d := of_decide_eq_true (List.mem_filter.mp hx).2
    have h2 : dims.getD x 0 = d' := of_decide_eq_true (List.mem_filter.mp hx').2
    omega

theorem pairwise_dimOrder (dims : List ℕ) :
    List.Pairwise (dimLt dims) (dimOrder dims) := by
  unfold dimOrder
  rw [List.pairwise_flatMap]
  constructor
  · intro d _
    have hp : List.Pairwise (· < ·) ((List.range dims.length).filter
        (fun j => dims.getD j 0 = d)) :=
      List.Pairwise.filter _ (List.pairwise_lt_range _)
    refine List.Pairwise.imp_of_mem ?_ hp
    intro a b ha hb hab
    have h1 : dims.getD a 0 = d := of_decide_eq_true (List.mem_filter.mp ha).2
    have h2 : dims.getD b 0 = d := of_decide_eq_true (List.mem_filter.mp hb).2
    right
    exact ⟨by omega, hab⟩
  · have hp : List.Pairwise (· < ·) (List.range (maxDim dims + 1)) :=
      List.pairwise_lt_range _
    refine hp.imp ?_
    intro d d' hdd x hx y hy
    have h1 : dims.getD x 0 = d := of_decide_eq_true (List.mem_filter.mp hx).2
    have h2 : dims.getD y 0 = d' := of_decide_eq_true (List.mem_filter.mp hy).2
    left
    omega

theorem dimOrder_perm_range (dims : List ℕ) :
    (dimOrder dims).Perm (List.range dims.length) := by
  apply List.perm_of_nodup_nodup_toFinset_eq (nodup_dimOrder dims) (List.nodup_range _)
  ext j
  simp [mem_dimOrder]


theorem inSpan_mem {L : List Col} {v : Col} (h : InSpan L v) {r : ℕ} (hr : r ∈ v) :
    ∃ i < L.length, r ∈ L.getD i ∅ := by
  induction h with
  | nil => cases hr
  | skip c _ ih =>
      obtain ⟨i, hi, hmem⟩ := ih hr
      exact ⟨i + 1, by simpa using hi, by simpa using hmem⟩
  | use c hv ih =>
      rcases Finset.mem_symmDiff.mp hr with ⟨h1, _⟩ | ⟨h1, _⟩
      · exact ⟨0, by simp, by simpa using h1⟩
      · obtain ⟨i, hi, hmem⟩ := ih h1
        exact ⟨i + 1, by simpa using hi, by simpa using hmem⟩

/-- Every entry of a reduced column comes from the working column or from
one of the columns added into it. -/
theorem reduceOne_mem {prev : List Col} {c : Col} {r : ℕ}
    (hr : r ∈ reduceOne prev c) :
    r ∈ c ∨ ∃ i < prev.length, r ∈ prev.getD i ∅ := by
  have hspan := reduceOne_symmDiff_inSpan prev c
  by_cases hc : r ∈ c
  · exact Or.inl hc
  · refine Or.inr ?_
    have : r ∈ symmDiff (reduceOne prev c) c := Finset.mem_symmDiff.mpr (Or.inl ⟨hr, hc⟩)
    exact inSpan_mem hspan this

/-- The reduction loop preserves the dimension profile of the working
column: if every candidate list entry is dimension-compatible and the
working column consists of rows one dimension below `D`, so does the
result. -/
theorem reduceOne_dims {dims : List ℕ} {D : ℕ} {prev : List Col}
    (hprev : ∀ i < prev.length, ∀ r ∈ prev.getD i ∅, dims.getD r 0 + 1 = dims.getD i 0)
    {c : Col} (hc : ∀ r ∈ c, dims.getD r 0 + 1 = D) :
    ∀ r ∈ reduceOne prev c, dims.getD r 0 + 1 = D := by
  generalize hm : colMeasure c = m
  induction m using Nat.strong_induction_on generalizing c with
  | _ m ih =>
    cases hl : low c with
    | none =>
        rw [reduceOne_of_low_none hl]
        exact hc
    | some p =>
        cases hf : findPivotIdx prev p with
        | none =>
            rw [reduceOne_of_none hl hf]
            exact hc
        | some i =>
            rw [reduceOne_step hl hf]
            obtain ⟨hilt, hilow⟩ := findPivotIdx_isSome hf
            have hpc : dims.getD p 0 + 1 = D := hc p (low_mem hl)
            have hpi : dims.getD p 0 + 1 = dims.getD i 0 := hprev i hilt p (low_mem hilow)
            have hiD : dims.getD i 0 = D := by omega
            have hc2 : ∀ r ∈ symmDiff c (prev.getD i ∅), dims.getD r 0 + 1 = D := by
              intro r hrm
              rcases Finset.mem_symmDiff.mp hrm with ⟨h1, _⟩ | ⟨h1, _⟩
              · exact hc r h1
              · rw [← hiD]
                exact hprev i hilt r h1
            have hdec : colMeasure (symmDiff c (prev.getD i ∅)) < colMeasure c :=
              colMeasure_symmDiff_lt hl hilow
            exact ih _ (hm ▸ hdec) hc2 rfl

theorem findPivotIdx_congr {P Q : List Col} (hlen : Q.length = P.length) {p : ℕ}
    (h : ∀ i < P.length, (low (Q.getD i ∅) = some p ↔ low (P.getD i ∅) = some p)) :
    findPivotIdx Q p = findPivotIdx P p := by
  cases hf : findPivotIdx P p with
  | none =>
      unfold findPivotIdx at hf ⊢
      rw [List.findIdx?_eq_none_iff] at hf ⊢
      intro x hx
      obtain ⟨i, hi, rfl⟩ := List.getElem_of_mem hx
      have hiP : i < P.length := by omega
      have hQ : Q.getD i ∅ = Q[i] := List.getD_eq_getElem _ _ hi
      have hPfalse := hf P[i] (List.getElem_mem hiP)
      have hPD : low (P.getD i ∅) ≠ some p := by
        rw [List.getD_eq_getElem _ _ hiP]
        simpa using hPfalse
      have : low (Q.getD i ∅) ≠ some p := fun hc => hPD ((h i hiP).mp hc)
      rw [hQ] at this
      simpa using this
  | some i =>
      unfold findPivotIdx at hf ⊢
      rcases List.findIdx?_eq_some_iff_getElem.mp hf with ⟨hiP, hpi, hmin⟩
      apply List.findIdx?_eq_some_iff_getElem.mpr
      have hiQ : i < Q.length := by omega
      refine ⟨hiQ, ?_, ?_⟩
      · have hPl : low (P.getD i ∅) = some p := by
          rw [List.getD_eq_getElem _ _ hiP]
          simpa using hpi
        have hQl := (h i hiP).mpr hPl
        rw [List.getD_eq_getElem _ _ hiQ] at hQl
        simpa using hQl
      · intro j hji
        have hjP : j < P.length := lt_trans hji hiP
        have hjQ : j < Q.length := by omega
        have hPfalse := hmin j hji
        have hPD : low (P.getD j ∅) ≠ some p := by
          rw [List.getD_eq_getElem _ _ hjP]
          simpa using hPfalse
        have hQD : low (Q.getD j ∅) ≠ some p := fun hc => hPD ((h j hjP).mp hc)
        rw [List.getD_eq_getElem _ _ hjQ] at hQD
        simpa using hQD

/-- Clearing columns whose pivot can never be queried does not change the
reduction of a dimension-homogeneous working column: the twist algorithm's
cleared columns are invisible to later lookups. -/
theorem reduceOne_congr_cleared {dims : List ℕ} {D : ℕ} {P Q : List Col}
    (hlen : Q.length = P.length)
    (hsame : ∀ i < P.length, Q.getD i ∅ = P.getD i ∅ ∨
      (Q.getD i ∅ = ∅ ∧ ∀ q, low (P.getD i ∅) = some q → dims.getD q 0 + 1 ≠ D))
    (hP : ∀ i < P.length, ∀ r ∈ P.getD i ∅, dims.getD r 0 + 1 = dims.getD i 0)
    {c : Col} (hc : ∀ r ∈ c, dims.getD r 0 + 1 = D) :
    reduceOne Q c = reduceOne P c := by
  generalize hm : colMeasure c = m
  induction m using Nat.strong_induction_on generalizing c with
  | _ m ih =>
    cases hl : low c with
    | none => rw [reduceOne_of_low_none hl, reduceOne_of_low_none hl]
    | some p =>
        have hpD : dims.getD p 0 + 1 = D := hc p (low_mem hl)
        have hfind : findPivotIdx Q p = findPivotIdx P p := by
          apply findPivotIdx_congr hlen
          intro i hi
          rcases hsame i hi with heq | ⟨hqe, hnev⟩
          · rw [heq]
          · rw [hqe]
            constructor
            · intro hcontra
              rw [low_empty] at hcontra
              cases hcontra
            · intro hcontra
              exact absurd hpD (hnev p hcontra)
        cases hf : findPivotIdx P p with
        | none =>
            rw [reduceOne_of_none hl (hfind.trans hf), reduceOne_of_none hl hf]
        | some i =>
            obtain ⟨hilt, hilow⟩ := findPivotIdx_isSome hf
            have hival : Q.getD i ∅ = P.getD i ∅ := by
              rcases hsame i hilt with heq | ⟨_, hnev⟩
              · exact heq
              · exact absurd hpD (hnev p hilow)
            rw [reduceOne_step hl (hfind.trans hf), reduceOne_step hl hf, hival]
            have hpi : dims.getD p 0 + 1 = dims.getD i 0 := hP i hilt p (low_mem hilow)
            have hc2 : ∀ r ∈ symmDiff c (P.getD i ∅), dims.getD r 0 + 1 = D := by
              intro r hrm
              rcases Finset.mem_symmDiff.mp hrm with ⟨h1, _⟩ | ⟨h1, _⟩
              · exact hc r h1
              · have := hP i hilt r h1
                omega
            have hdec : colMeasure (symmDiff c (P.getD i ∅)) < colMeasure c :=
              colMeasure_symmDiff_lt hl hilow
            exact ih _ (hm ▸ hdec) hc2 rfl


theorem filterMap_singleton {α β : Type} (f : α → Option β) (a : α) :
    List.filterMap f [a] = (f a).toList := by
  cases h : f a with
  | none => simp [List.filterMap, h]
  | some b => simp [List.filterMap, h]

/-- Invariant of the dimension-ordered sweep after the columns in `pre` have
been processed: the state is a leftward reduction of `M`, unprocessed
columns are untouched, dimension and ordering profiles are preserved,
processed columns have pivots fresh among all earlier columns, and the
emitted pairs are exactly the nonempty pivots of the processed columns. -/
structure SsrState (dims : List ℕ) (M : List Col) (pre : List ℕ)
    (st : List Col) (ps : List (ℕ × ℕ)) : Prop where
  len : st.length = M.length
  redOf : RedOf M st
  untouched : ∀ i, i ∉ pre → st.getD i ∅ = M.getD i ∅
  dimc : ∀ i < st.length, ∀ r ∈ st.getD i ∅, dims.getD r 0 + 1 = dims.getD i 0
  ordc : ∀ i < st.length, ∀ r ∈ st.getD i ∅, r < i
  fresh : ∀ i ∈ pre, ∀ p, low (st.getD i ∅) = some p →
    ∀ k < i, low (st.getD k ∅) ≠ some p
  pairs : ps = pre.filterMap (fun i => (low (st.getD i ∅)).map (fun p => (p, i)))

theorem ssrStep_eq_none {st : List Col} {ps : List (ℕ × ℕ)} {j : ℕ}
    (hlc : low (reduceOne (st.take j) (st.getD j ∅)) = none) :
    ssrStep (st, ps) j = (st.set j (reduceOne (st.take j) (st.getD j ∅)), ps) := by
  simp only [ssrStep, hlc]

theorem ssrStep_eq_some {st : List Col} {ps : List (ℕ × ℕ)} {j p : ℕ}
    (hlc : low (reduceOne (st.take j) (st.getD j ∅)) = some p) :
    ssrStep (st, ps) j =
      (st.set j (reduceOne (st.take j) (st.getD j ∅)), ps ++ [(p, j)]) := by
  simp only [ssrStep, hlc]

/-- Preservation of the sweep invariant by one column step. -/
theorem ssrStep_state {dims : List ℕ} {M : List Col} {pre : List ℕ} {st : List Col}
    {ps : List (ℕ × ℕ)} {j : ℕ}
    (hinv : SsrState dims M pre st ps)
    (hj : j < M.length) (hjpre : j ∉ pre)
    (hbefore : ∀ i ∈ pre, dimLt dims i j)
    (hprelt : ∀ i ∈ pre, i < M.length) :
    SsrState dims M (pre ++ [j]) (ssrStep (st, ps) j).1 (ssrStep (st, ps) j).2 := by
  have hstlen : st.length = M.length := hinv.len
  have hjst : j < st.length := by omega
  have htake : (st.take j).length = j := by simp; omega
  have hprevdim : ∀ i < (st.take j).length, ∀ r ∈ (st.take j).getD i ∅,
      dims.getD r 0 + 1 = dims.getD i 0 := by
    intro i hi r hr
    rw [htake] at hi
    rw [getD_take hi] at hr
    exact hinv.dimc i (by omega) r hr
  have hcdim : ∀ r ∈ reduceOne (st.take j) (st.getD j ∅),
      dims.getD r 0 + 1 = dims.getD j 0 :=
    reduceOne_dims hprevdim (hinv.dimc j hjst)
  have hcord : ∀ r ∈ reduceOne (st.take j) (st.getD j ∅), r < j := by
    intro r hr
    rcases reduceOne_mem hr with hc | ⟨i, hi, hmem⟩
    · exact hinv.ordc j hjst r hc
    · rw [htake] at hi
      rw [getD_take hi] at hmem
      exact lt_trans (hinv.ordc i (by omega) r hmem) hi
  have hcspanM : InSpan (M.take j)
      (symmDiff (reduceOne (st.take j) (st.getD j ∅)) (M.getD j ∅)) := by
    have h1 : InSpan (M.take j)
        (symmDiff (reduceOne (st.take j) (st.getD j ∅)) (st.getD j ∅)) :=
      hinv.redOf.subspan_take j _ (reduceOne_symmDiff_inSpan (st.take j) (st.getD j ∅))
    have h2 : InSpan (M.take j) (symmDiff (st.getD j ∅) (M.getD j ∅)) :=
      hinv.redOf.2 j hj
    have h3 := InSpan.symmDiff_closed h1 h2
    rwa [symmDiff_assoc, ← symmDiff_assoc (st.getD j ∅), symmDiff_self_empty,
      symmDiff_empty_left] at h3
  have hfix : ∀ p, low (reduceOne (st.take j) (st.getD j ∅)) = some p →
      ∀ k < j, low (st.getD k ∅) ≠ some p := by
    intro p hp k hk
    rcases reduceOne_fixpoint (st.take j) (st.getD j ∅) with hnone | ⟨q, hq, hfind⟩
    · rw [hp] at hnone; cases hnone
    · rw [hp] at hq
      cases hq
      have := findPivotIdx_eq_none hfind k (by omega)
      rwa [getD_take hk] at this
  -- the new state components, shared between the two emission branches
  have hlen2 : (st.set j (reduceOne (st.take j) (st.getD j ∅))).length = M.length := by
    simpa using hstlen
  have hred2 : RedOf M (st.set j (reduceOne (st.take j) (st.getD j ∅))) := by
    refine ⟨hlen2, fun k hk => ?_⟩
    by_cases hkj : k = j
    · subst hkj
      rw [getD_set_self hjst]
      exact hcspanM
    · rw [getD_set_ne (fun e => hkj e.symm)]
      exact hinv.redOf.2 k hk
  have hunt2 : ∀ i, i ∉ pre ++ [j] →
      (st.set j (reduceOne (st.take j) (st.getD j ∅))).getD i ∅ = M.getD i ∅ := by
    intro i hi
    have hij : i ≠ j := by
      intro e
      exact hi (by rw [e]; exact List.mem_append_right _ (by simp))
    have hip : i ∉ pre := fun hmem => hi (List.mem_append_left _ hmem)
    rw [getD_set_ne (fun e => hij e.symm)]
    exact hinv.untouched i hip
  have hdim2 : ∀ i < (st.set j (reduceOne (st.take j) (st.getD j ∅))).length,
      ∀ r ∈ (st.set j (reduceOne (st.take j) (st.getD j ∅))).getD i ∅,
      dims.getD r 0 + 1 = dims.getD i 0 := by
    intro i hi r hr
    rw [List.length_set] at hi
    by_cases hij : i = j
    · subst hij
      rw [getD_set_self hjst] at hr
      exact hcdim r hr
    · rw [getD_set_ne (fun e => hij e.symm)] at hr
      exact hinv.dimc i hi r hr
  have hord2 : ∀ i < (st.set j (reduceOne (st.take j) (st.getD j ∅))).length,
      ∀ r ∈ (st.set j (reduceOne (st.take j) (st.getD j ∅))).getD i ∅, r < i := by
    intro i hi r hr
    rw [List.length_set] at hi
    by_cases hij : i = j
    · subst hij
      rw [getD_set_self hjst] at hr
      exact hcord r hr
    · rw [getD_set_ne (fun e => hij e.symm)] at hr
      exact hinv.ordc i hi r hr
  have hfresh2 : ∀ i ∈ pre ++ [j], ∀ p,
      low ((st.set j (reduceOne (st.take j) (st.getD j ∅))).getD i ∅) = some p →
      ∀ k < i, low ((st.set j (reduceOne (st.take j) (st.getD j ∅))).getD k ∅) ≠ some p := by
    intro i hi p hp k hk
    rcases List.mem_append.mp hi with hipre | hij
    · have hij : i ≠ j := fun e => hjpre (e ▸ hipre)
      rw [getD_set_ne (fun e => hij e.symm)] at hp
      by_cases hkj : k = j
      · rw [hkj, getD_set_self hjst]
        intro hlc
        have hpdim : dims.getD p 0 + 1 = dims.getD j 0 := hcdim p (low_mem hlc)
        have hpdim2 : dims.getD p 0 + 1 = dims.getD i 0 :=
          hinv.dimc i (by have := hprelt i hipre; omega) p (low_mem hp)
        rcases hbefore i hipre with hd | ⟨hd, hd2⟩
        · omega
        · omega
      · rw [getD_set_ne (fun e => hkj e.symm)]
        exact hinv.fresh i hipre p hp k hk
    · have hij : i = j := by simpa using hij
      subst hij
      rw [getD_set_self hjst] at hp
      have hkj : k ≠ i := by omega
      rw [getD_set_ne (fun e => hkj e.symm)]
      exact hfix p hp k hk
  cases hlc : low (reduceOne (st.take j) (st.getD j ∅)) with
  | none =>
      rw [ssrStep_eq_none hlc]
      show SsrState dims M (pre ++ [j]) (st.set j (reduceOne (st.take j) (st.getD j ∅))) ps
      refine ⟨hlen2, hred2, hunt2, hdim2, hord2, hfresh2, ?_⟩
      rw [List.filterMap_append]
      have e1 : List.filterMap
          (fun i => (low ((st.set j (reduceOne (st.take j) (st.getD j ∅))).getD i ∅)).map
            (fun p => (p, i))) [j] = [] := by
        rw [filterMap_singleton, getD_set_self hjst, hlc]
        rfl
      rw [e1, List.append_nil]
      rw [hinv.pairs]
      apply List.filterMap_congr
      intro i hipre
      have hij : i ≠ j := fun e => hjpre (e ▸ hipre)
      rw [getD_set_ne (fun e => hij e.symm)]
  | some p =>
      rw [ssrStep_eq_some hlc]
      show SsrState dims M (pre ++ [j]) (st.set j (reduceOne (st.take j) (st.getD j ∅)))
        (ps ++ [(p, j)])
      refine ⟨hlen2, hred2, hunt2, hdim2, hord2, hfresh2, ?_⟩
      rw [List.filterMap_append]
      have e1 : List.filterMap
          (fun i => (low ((st.set j (reduceOne (st.take j) (st.getD j ∅))).getD i ∅)).map
            (fun p => (p, i))) [j] = [(p, j)] := by
        rw [filterMap_singleton, getD_set_self hjst, hlc]
        rfl
      rw [e1]
      rw [hinv.pairs]
      congr 1
      apply List.filterMap_congr
      intro i hipre
      have hij : i ≠ j := fun e => hjpre (e ▸ hipre)
      rw [getD_set_ne (fun e => hij e.symm)]


/-- The sweep invariant propagates along any suffix of the processing
order. -/
theorem ssr_loop {dims : List ℕ} {M : List Col} (hdlen : dims.length = M.length) :
    ∀ suf pre st ps, dimOrder dims = pre ++ suf →
    SsrState dims M pre st ps →
    SsrState dims M (pre ++ suf)
      (suf.foldl ssrStep (st, ps)).1 (suf.foldl ssrStep (st, ps)).2 := by
  intro suf
  induction suf with
  | nil =>
      intro pre st ps _ hinv
      simpa using hinv
  | cons j suf ih =>
      intro pre st ps hsplit hinv
      have hjmem : j ∈ dimOrder dims := by
        rw [hsplit]
        exact List.mem_append_right _ (by simp)
      have hjn : j < M.length := by
        have := mem_dimOrder.mp hjmem
        omega
      have hnodup := nodup_dimOrder dims
      rw [hsplit] at hnodup
      have hjpre : j ∉ pre := by
        rcases List.nodup_append.mp hnodup with ⟨_, _, hdisj⟩
        intro hc
        exact hdisj hc (show j ∈ j :: suf by simp)
      have hpw := pairwise_dimOrder dims
      rw [hsplit] at hpw
      have hbefore : ∀ i ∈ pre, dimLt dims i j := by
        rcases List.pairwise_append.mp hpw with ⟨_, _, hcross⟩
        intro i hi
        exact hcross i hi j (by simp)
      have hprelt : ∀ i ∈ pre, i < M.length := by
        intro i hi
        have : i ∈ dimOrder dims := by
          rw [hsplit]
          exact List.mem_append_left _ hi
        have := mem_dimOrder.mp this
        omega
      have hstep := ssrStep_state hinv hjn hjpre hbefore hprelt
      have hsplit2 : dimOrder dims = (pre ++ [j]) ++ suf := by
        rw [hsplit, List.append_assoc]
        rfl
      have := ih (pre ++ [j]) (ssrStep (st, ps) j).1 (ssrStep (st, ps) j).2 hsplit2 hstep
      rw [List.foldl_cons]
      rw [List.append_assoc] at this
      simpa using this

/-- The spectral-sequence sweep establishes its invariant over the whole
processing order. -/
theorem ssrFold_state {dims : List ℕ} {M : List Col}
    (hdlen : dims.length = M.length)
    (hord : OrderedCols M) (hdim : DimCompatCols dims M) :
    SsrState dims M (dimOrder dims) (ssrFold dims M).1 (ssrFold dims M).2 := by
  have hbase : SsrState dims M [] M [] :=
    ⟨rfl, RedOf.refl M, fun _ _ => rfl, hdim, hord, by simp, rfl⟩
  have := ssr_loop hdlen (dimOrder dims) [] M [] (by simp) hbase
  simpa [ssrFold] using this

theorem ssr_redOf {dims : List ℕ} {M : List Col}
    (hdlen : dims.length = M.length)
    (hord : OrderedCols M) (hdim : DimCompatCols dims M) :
    RedOf M (ssrFold dims M).1 :=
  (ssrFold_state hdlen hord hdim).redOf

theorem ssr_reduced {dims : List ℕ} {M : List Col}
    (hdlen : dims.length = M.length)
    (hord : OrderedCols M) (hdim : DimCompatCols dims M) :
    Reduced (ssrFold dims M).1 := by
  have hst := ssrFold_state hdlen hord hdim
  intro i j p hij hj hi hjlow
  have hjn : j < M.length := by
    have := hst.len
    omega
  have hjmem : j ∈ dimOrder dims := mem_dimOrder.mpr (by omega)
  exact hst.fresh j hjmem p hjlow i hij hi

/-- The spectral-sequence pair list is the processed-order listing of the
pivots of its reduced matrix. -/
theorem ssr_pairs_char {dims : List ℕ} {M : List Col}
    (hdlen : dims.length = M.length)
    (hord : OrderedCols M) (hdim : DimCompatCols dims M) :
    (ssrFold dims M).2 = (dimOrder dims).filterMap
      (fun i => (low ((ssrFold dims M).1.getD i ∅)).map (fun p => (p, i))) :=
  (ssrFold_state hdlen hord hdim).pairs

/-- The spectral-sequence algorithm produces the standard pair set. -/
theorem ssrPairs_toFinset_eq_std {dims : List ℕ} {M : List Col}
    (hdlen : dims.length = M.length)
    (hord : OrderedCols M) (hdim : DimCompatCols dims M) :
    ((ssrFold dims M).2).toFinset = (pairsOfList (stdReduce M)).toFinset := by
  rw [ssr_pairs_char hdlen hord hdim]
  have hperm : ((dimOrder dims).filterMap
      (fun i => (low ((ssrFold dims M).1.getD i ∅)).map (fun p => (p, i)))).Perm
      ((List.range dims.length).filterMap
      (fun i => (low ((ssrFold dims M).1.getD i ∅)).map (fun p => (p, i)))) :=
    List.Perm.filterMap _ (dimOrder_perm_range dims)
  rw [List.toFinset_eq_of_perm _ _ hperm]
  have hlen : (ssrFold dims M).1.length = M.length := (ssrFold_state hdlen hord hdim).len
  have e : (List.range dims.length).filterMap
      (fun i => (low ((ssrFold dims M).1.getD i ∅)).map (fun p => (p, i))) =
      pairsOfList (ssrFold dims M).1 := by
    unfold pairsOfList
    rw [hlen, hdlen]
  rw [e, pairsOfList_eq_std (ssr_redOf hdlen hord hdim) (ssr_reduced hdlen hord hdim)]


/-- The birth indices cleared so far by the twist algorithm. -/
def clearedOf (ps : List (ℕ × ℕ)) : List ℕ :=
  ps.map Prod.fst

/-- The twist state is the spectral-sequence state with the cleared birth
columns zeroed out. -/
def TwistRel (S T : List Col) (ps : List (ℕ × ℕ)) : Prop :=
  T.length = S.length ∧
  ∀ i, T.getD i ∅ = if i ∈ clearedOf ps then ∅ else S.getD i ∅

theorem twistStep_eq_none {st : List Col} {ps : List (ℕ × ℕ)} {j : ℕ}
    (hlc : low (reduceOne (st.take j) (st.getD j ∅)) = none) :
    twistStep (st, ps) j = (st.set j (reduceOne (st.take j) (st.getD j ∅)), ps) := by
  simp only [twistStep, hlc]

theorem twistStep_eq_some {st : List Col} {ps : List (ℕ × ℕ)} {j p : ℕ}
    (hlc : low (reduceOne (st.take j) (st.getD j ∅)) = some p) :
    twistStep (st, ps) j =
      ((st.set j (reduceOne (st.take j) (st.getD j ∅))).set p ∅, ps ++ [(p, j)]) := by
  simp only [twistStep, hlc]

/-- Characterisation of the pairs emitted so far by the sweep. -/
theorem mem_pairs_of_ssrState {dims : List ℕ} {M : List Col} {pre : List ℕ}
    {S : List Col} {ps : List (ℕ × ℕ)} (hinv : SsrState dims M pre S ps)
    {b d : ℕ} (h : (b, d) ∈ ps) : d ∈ pre ∧ low (S.getD d ∅) = some b := by
  rw [hinv.pairs] at h
  rcases List.mem_filterMap.mp h with ⟨i, hi, hfi⟩
  rcases Option.map_eq_some'.mp hfi with ⟨q, hq, he⟩
  cases he
  exact ⟨hi, hq⟩

/-- One parallel step of the twist/spectral-sequence bisimulation: the two
algorithms emit the same pair and the twist state stays the spectral state
with cleared births zeroed. -/
theorem twist_ssr_step {dims : List ℕ} {M : List Col} {pre : List ℕ}
    {S T : List Col} {ps : List (ℕ × ℕ)} {j : ℕ}
    (hinv : SsrState dims M pre S ps) (hrel : TwistRel S T ps)
    (hj : j < M.length) (hjpre : j ∉ pre)
    (hbefore : ∀ i ∈ pre, dimLt dims i j)
    (hprelt : ∀ i ∈ pre, i < M.length) :
    (twistStep (T, ps) j).2 = (ssrStep (S, ps) j).2 ∧
    TwistRel (ssrStep (S, ps) j).1 (twistStep (T, ps) j).1 (ssrStep (S, ps) j).2 := by
  have hstlen : S.length = M.length := hinv.len
  have hTlen : T.length = S.length := hrel.1
  have hjS : j < S.length := by omega
  have hjclear : j ∉ clearedOf ps := by
    intro hc
    rcases List.mem_map.mp hc with ⟨⟨b, d⟩, hmem, he⟩
    rw [show b = j from he] at hmem
    obtain ⟨hd, hlow⟩ := mem_pairs_of_ssrState hinv hmem
    have hjmem := low_mem hlow
    have hdn := hprelt d hd
    have h1 : dims.getD j 0 + 1 = dims.getD d 0 := hinv.dimc d (by omega) j hjmem
    rcases hbefore d hd with h2 | ⟨h2, _⟩ <;> omega
  have hTj : T.getD j ∅ = S.getD j ∅ := by
    rw [hrel.2 j, if_neg hjclear]
  have hnever : ∀ b ∈ clearedOf ps, ∀ q, low (S.getD b ∅) = some q →
      dims.getD q 0 + 1 ≠ dims.getD j 0 := by
    intro b hb q hq
    rcases List.mem_map.mp hb with ⟨⟨b', d⟩, hmem, he⟩
    rw [show b' = b from he] at hmem
    obtain ⟨hd, hlow⟩ := mem_pairs_of_ssrState hinv hmem
    have hbmem := low_mem hlow
    have hdn := hprelt d hd
    have h1 : dims.getD b 0 + 1 = dims.getD d 0 := hinv.dimc d (by omega) b hbmem
    have hbn : b < d := hinv.ordc d (by omega) b hbmem
    have h2 : dims.getD q 0 + 1 = dims.getD b 0 := hinv.dimc b (by omega) q (low_mem hq)
    have h3 : dims.getD d 0 ≤ dims.getD j 0 := by
      rcases hbefore d hd with hx | ⟨hx, _⟩ <;> omega
    omega
  have htakeS : (S.take j).length = j := by simp; omega
  have htakelen : (T.take j).length = (S.take j).length := by simp [hTlen]
  have hcT : reduceOne (T.take j) (T.getD j ∅) = reduceOne (S.take j) (S.getD j ∅) := by
    rw [hTj]
    refine @reduceOne_congr_cleared dims (dims.getD j 0) _ _ htakelen ?_ ?_ _ ?_
    · intro i hi
      rw [htakeS] at hi
      rw [getD_take hi, getD_take hi, hrel.2 i]
      by_cases hic : i ∈ clearedOf ps
      · refine Or.inr ⟨by rw [if_pos hic], ?_⟩
        intro q hq
        exact hnever i hic q hq
      · exact Or.inl (by rw [if_neg hic])
    · intro i hi r hr
      rw [htakeS] at hi
      rw [getD_take hi] at hr
      exact hinv.dimc i (by omega) r hr
    · exact hinv.dimc j hjS
  have hpj : ∀ p, low (reduceOne (S.take j) (S.getD j ∅)) = some p → p < j := by
    intro p hp
    have hmem := low_mem hp
    rcases reduceOne_mem hmem with hc | ⟨i, hi, hmemi⟩
    · exact hinv.ordc j hjS p hc
    · rw [htakeS] at hi
      rw [getD_take hi] at hmemi
      exact lt_trans (hinv.ordc i (by omega) p hmemi) hi
  cases hlcS : low (reduceOne (S.take j) (S.getD j ∅)) with
  | none =>
      have hlcT : low (reduceOne (T.take j) (T.getD j ∅)) = none := by
        rw [hcT]; exact hlcS
      rw [twistStep_eq_none hlcT, ssrStep_eq_none hlcS]
      refine ⟨rfl, ⟨by simp [hTlen], ?_⟩⟩
      intro i
      by_cases hij : i = j
      · subst hij
        rw [getD_set_self (by omega : i < T.length), getD_set_self hjS, if_neg hjclear,
          hcT]
      · rw [getD_set_ne (fun e => hij e.symm), getD_set_ne (fun e => hij e.symm)]
        exact hrel.2 i
  | some p =>
      have hlcT : low (reduceOne (T.take j) (T.getD j ∅)) = some p := by
        rw [hcT]; exact hlcS
      have hpjlt : p < j := hpj p hlcS
      rw [twistStep_eq_some hlcT, ssrStep_eq_some hlcS]
      refine ⟨rfl, ⟨by simp [hTlen], ?_⟩⟩
      intro i
      have hclr : clearedOf (ps ++ [(p, j)]) = clearedOf ps ++ [p] := by
        simp [clearedOf]
      by_cases hip : i = p
      · subst hip
        rw [getD_set_self (by simp; omega : i < (T.set j (reduceOne (T.take j) (T.getD j ∅))).length)]
        rw [hclr, if_pos (List.mem_append_right _ (by simp))]
      · rw [getD_set_ne (fun e => hip e.symm)]
        by_cases hij : i = j
        · subst hij
          rw [getD_set_self (by omega : i < T.length), getD_set_self hjS]
          rw [hclr]
          have : i ∉ clearedOf ps ++ [p] := by
            intro hc
            rcases List.mem_append.mp hc with hc1 | hc2
            · exact hjclear hc1
            · simp at hc2; omega
          rw [if_neg this, hcT]
        · rw [getD_set_ne (fun e => hij e.symm), getD_set_ne (fun e => hij e.symm)]
          rw [hclr]
          have e2 : (i ∈ clearedOf ps ++ [p]) ↔ (i ∈ clearedOf ps) := by
            constructor
            · intro hc
              rcases List.mem_append.mp hc with hc1 | hc2
              · exact hc1
              · simp at hc2; omega
            · exact fun hc => List.mem_append_left _ hc
          rcases Classical.em (i ∈ clearedOf ps) with hic | hic
          · rw [if_pos (e2.mpr hic)]
            have := hrel.2 i
            rwa [if_pos hic] at this
          · rw [if_neg (fun hc => hic (e2.mp hc))]
            have := hrel.2 i
            rwa [if_neg hic] at this

/-- The bisimulation propagates along any suffix of the processing order. -/
theorem twist_loop {dims : List ℕ} {M : List Col} (hdlen : dims.length = M.length) :
    ∀ suf pre S T ps, dimOrder dims = pre ++ suf →
    SsrState dims M pre S ps → TwistRel S T ps →
    (suf.foldl twistStep (T, ps)).2 = (suf.foldl ssrStep (S, ps)).2 ∧
    TwistRel (suf.foldl ssrStep (S, ps)).1 (suf.foldl twistStep (T, ps)).1
      (suf.foldl ssrStep (S, ps)).2 := by
  intro suf
  induction suf with
  | nil =>
      intro pre S T ps _ _ hrel
      exact ⟨rfl, hrel⟩
  | cons j suf ih =>
      intro pre S T ps hsplit hinv hrel
      have hjmem : j ∈ dimOrder dims := by
        rw [hsplit]
        exact List.mem_append_right _ (by simp)
      have hjn : j < M.length := by
        have := mem_dimOrder.mp hjmem
        omega
      have hnodup := nodup_dimOrder dims
      rw [hsplit] at hnodup
      have hjpre : j ∉ pre := by
        rcases List.nodup_append.mp hnodup with ⟨_, _, hdisj⟩
        intro hc
        exact hdisj hc (show j ∈ j :: suf by simp)
      have hpw := pairwise_dimOrder dims
      rw [hsplit] at hpw
      have hbefore : ∀ i ∈ pre, dimLt dims i j := by
        rcases List.pairwise_append.mp hpw with ⟨_, _, hcross⟩
        intro i hi
        exact hcross i hi j (by simp)
      have hprelt : ∀ i ∈ pre, i < M.length := by
        intro i hi
        have hmem2 : i ∈ dimOrder dims := by
          rw [hsplit]
          exact List.mem_append_left _ hi
        have := mem_dimOrder.mp hmem2
        omega
      obtain ⟨hps, hrel2⟩ := twist_ssr_step hinv hrel hjn hjpre hbefore hprelt
      have hsstep := ssrStep_state hinv hjn hjpre hbefore hprelt
      have hsplit2 : dimOrder dims = (pre ++ [j]) ++ suf := by
        rw [hsplit, List.append_assoc]
        rfl
      have e : twistStep (T, ps) j = ((twistStep (T, ps) j).1, (ssrStep (S, ps) j).2) := by
        rw [← hps]
      rw [List.foldl_cons, List.foldl_cons, e]
      exact ih (pre ++ [j]) (ssrStep (S, ps) j).1 (twistStep (T, ps) j).1
        (ssrStep (S, ps) j).2 hsplit2 hsstep hrel2

/-- The twist algorithm emits exactly the same pair list as the
spectral-sequence sweep. -/
theorem twistFold_pairs_eq {dims : List ℕ} {M : List Col}
    (hdlen : dims.length = M.length)
    (hord : OrderedCols M) (hdim : DimCompatCols dims M) :
    (twistFold dims M).2 = (ssrFold dims M).2 := by
  have hbase : SsrState dims M [] M [] :=
    ⟨rfl, RedOf.refl M, fun _ _ => rfl, hdim, hord, by simp, rfl⟩
  have hrel : TwistRel M M [] := ⟨rfl, fun i => by simp [clearedOf]⟩
  exact (twist_loop hdlen (dimOrder dims) [] M M [] (by simp) hbase hrel).1

/-- The twist final matrix is the spectral-sequence final matrix with the
cleared birth columns zeroed. -/
theorem twistFold_matrix_rel {dims : List ℕ} {M : List Col}
    (hdlen : dims.length = M.length)
    (hord : OrderedCols M) (hdim : DimCompatCols dims M) :
    TwistRel (ssrFold dims M).1 (twistFold dims M).1 (ssrFold dims M).2 := by
  have hbase : SsrState dims M [] M [] :=
    ⟨rfl, RedOf.refl M, fun _ _ => rfl, hdim, hord, by simp, rfl⟩
  have hrel : TwistRel M M [] := ⟨rfl, fun i => by simp [clearedOf]⟩
  exact (twist_loop hdlen (dimOrder dims) [] M M [] (by simp) hbase hrel).2

/-- The twist algorithm produces the standard pair set. -/
theorem twistPairs_toFinset_eq_std {dims : List ℕ} {M : List Col}
    (hdlen : dims.length = M.length)
    (hord : OrderedCols M) (hdim : DimCompatCols dims M) :
    ((twistFold dims M).2).toFinset = (pairsOfList (stdReduce M)).toFinset := by
  rw [twistFold_pairs_eq hdlen hord hdim]
  exact ssrPairs_toFinset_eq_std hdlen hord hdim


/-- Cross-algorithm agreement at the pair-set level, the engine's central
correctness property (spec section 8). -/
theorem algPairs_eq_standard {dims : List ℕ} {M : List Col}
    (hdlen : dims.length = M.length) (hord : OrderedCols M)
    (hdim : DimCompatCols dims M) (a : Algorithm) :
    algPairs a dims M = algPairs Algorithm.standard dims M := by
  cases a with
  | standard => rfl
  | twist =>
      show ((twistFold dims M).2).toFinset = (pairsOfList (stdReduce M)).toFinset
      exact twistPairs_toFinset_eq_std hdlen hord hdim
  | row =>
      show (pairsOfList (rowReduce M)).toFinset = (pairsOfList (stdReduce M)).toFinset
      rw [rowPairs_eq_std hord]
  | chunk s =>
      show (pairsOfList (chunkReduce s M)).toFinset = (pairsOfList (stdReduce M)).toFinset
      rw [chunkPairs_eq_std s M]
  | spectral =>
      show ((ssrFold dims M).2).toFinset = (pairsOfList (stdReduce M)).toFinset
      exact ssrPairs_toFinset_eq_std hdlen hord hdim

/-- The triangle example of the README and spec section 8: boundary matrix
of a single filled triangle, 7 cells. -/
def triangleDims : List ℕ := [0, 0, 1, 0, 1, 1, 2]

/-- The columns of the triangle example. -/
def triangleCols : List Col := [∅, ∅, {0, 1}, ∅, {1, 3}, {0, 3}, {2, 4, 5}]


theorem findPivotIdx_eq_none_of {P : List Col} {p : ℕ}
    (h : ∀ i < P.length, low (P.getD i ∅) ≠ some p) : findPivotIdx P p = none := by
  unfold findPivotIdx
  rw [List.findIdx?_eq_none_iff]
  intro x hx
  obtain ⟨i, hi, rfl⟩ := List.getElem_of_mem hx
  have := h i hi
  rw [List.getD_eq_getElem _ _ hi] at this
  simpa using this

/-- Reducing a column of an already reduced matrix against its own prefix
is a no-op. -/
theorem reduceOne_of_reduced_at {R : List Col} (h : Reduced R) (j : ℕ) :
    reduceOne (R.take j) (R.getD j ∅) = R.getD j ∅ := by
  cases hl : low (R.getD j ∅) with
  | none => exact reduceOne_of_low_none hl
  | some p =>
      have hjR : j < R.length := by
        by_contra hc
        rw [List.getD_eq_default _ _ (by omega)] at hl
        rw [low_empty] at hl
        cases hl
      refine reduceOne_of_none hl (findPivotIdx_eq_none_of ?_)
      intro i hi
      have hij : i < j := by simp at hi; omega
      rw [getD_take hij]
      intro hc
      exact h i j p hij hjR hc hl

theorem set_getD_self {l : List Col} {j : ℕ} : l.set j (l.getD j ∅) = l := by
  rcases lt_or_ge j l.length with hj | hj
  · apply List.ext_getElem
    · simp
    · intro i h1 h2
      by_cases hij : j = i
      · subst hij
        rw [List.getElem_set_self, List.getD_eq_getElem _ _ hj]
      · exact List.getElem_set_ne hij _
  · rw [List.set_eq_of_length_le (by omega)]

/-- The standard algorithm is idempotent on reduced matrices. -/
theorem stdReduce_of_reduced {R : List Col} (h : Reduced R) : stdReduce R = R := by
  induction R using List.reverseRecOn with
  | nil => rfl
  | append_singleton R c ih =>
      have hR : Reduced R := by
        have := reduced_take h R.length
        rwa [List.take_left] at this
      have e : c = (R ++ [c]).getD R.length ∅ := by
        rw [List.getD_eq_getElem _ _ (by simp)]
        rw [List.getElem_append_right le_rfl]
        simp
      have hx : reduceOne R c = c := by
        cases hl : low c with
        | none => exact reduceOne_of_low_none hl
        | some p =>
            refine reduceOne_of_none hl (findPivotIdx_eq_none_of ?_)
            intro i hi hc
            refine h i R.length p hi (by simp) ?_ ?_
            · rw [List.getD_eq_getElem _ _ (by simp; omega),
                List.getElem_append_left (by omega)]
              rw [List.getD_eq_getElem _ _ hi] at hc
              exact hc
            · rw [← e]
              exact hl
      rw [stdReduce_append_single, ih hR, hx]

/-- The chunk-local phase is a no-op on reduced matrices. -/
theorem localReduce_of_reduced {C : List Col} (h : Reduced C) (s : ℕ) :
    localReduce s C = C := by
  unfold localReduce
  refine List.foldlRecOn (motive := fun st => st = C) _ _ _ rfl ?_
  intro st hst j hj
  rw [hst]
  unfold localStep
  have e : reduceOne ((C.take j).drop (s * (j / s))) (C.getD j ∅) = C.getD j ∅ := by
    cases hl : low (C.getD j ∅) with
    | none => exact reduceOne_of_low_none hl
    | some p =>
        have hjC : j < C.length := by
          by_contra hc
          rw [List.getD_eq_default _ _ (by omega)] at hl
          rw [low_empty] at hl
          cases hl
        refine reduceOne_of_none hl (findPivotIdx_eq_none_of ?_)
        intro i hi
        rw [getD_drop]
        have hlt : s * (j / s) + i < j := by
          simp at hi
          omega
        rw [getD_take hlt]
        intro hc
        exact h _ j p hlt hjC hc hl
  rw [e, set_getD_self]

/-- The chunk algorithm is idempotent on its own output. -/
theorem chunkReduce_of_reduced {C : List Col} (h : Reduced C) (s : ℕ) :
    chunkReduce s C = C := by
  unfold chunkReduce
  rw [localReduce_of_reduced h s, stdReduce_of_reduced h]

theorem mapIdx_id_of {l : List Col} {f : ℕ → Col → Col}
    (h : ∀ k, ∀ hk : k < l.length, f k (l[k]) = l[k]) : l.mapIdx f = l := by
  apply List.ext_getElem
  · simp
  · intro i h1 h2
    rw [List.getElem_mapIdx]
    exact h i h2

/-- Once every pivot row is cleared, further row passes are no-ops. -/
theorem rowPass_of_cleared {W : List Col} (h : RowsCleared W 0) (i : ℕ) :
    rowPass W i = W := by
  unfold rowPass
  cases hj : findPivotIdx W i with
  | none => rfl
  | some j0 =>
      have hjlt : j0 < W.length := (findPivotIdx_isSome hj).1
      have hjlow : low (W.getD j0 ∅) = some i := (findPivotIdx_isSome hj).2
      apply mapIdx_id_of
      intro k hk
      have : ¬(j0 < k ∧ i ∈ W[k]) := by
        rintro ⟨h1, h2⟩
        refine h i (Nat.zero_le i) j0 k h1 hk hjlow ?_
        rw [List.getD_eq_getElem _ _ hk]
        exact h2
      rw [if_neg this]

theorem rowReduceAux_of_cleared {W : List Col} (h : RowsCleared W 0) (k : ℕ) :
    rowReduceAux k W = W := by
  induction k with
  | zero => rfl
  | succ k ih =>
      show rowReduceAux k (rowPass W k) = W
      rw [rowPass_of_cleared h k]
      exact ih

/-- The row algorithm is idempotent on ordered input. -/
theorem rowReduce_of_rowReduce {M : List Col} (h : OrderedCols M) :
    rowReduce (rowReduce M) = rowReduce M := by
  unfold rowReduce
  exact rowReduceAux_of_cleared (rowReduce_rowsCleared h) _

/-- The spectral-sequence sweep is a no-op on a reduced matrix, appending
exactly the matrix's pivots as pairs. -/
theorem ssr_foldl_of_reduced {W : List Col} (h : Reduced W) :
    ∀ (o : List ℕ) (ps : List (ℕ × ℕ)),
    o.foldl ssrStep (W, ps) =
      (W, ps ++ o.filterMap (fun j => (low (W.getD j ∅)).map (fun p => (p, j)))) := by
  intro o
  induction o with
  | nil => intro ps; simp
  | cons j o ih =>
      intro ps
      rw [List.foldl_cons]
      have hred := reduceOne_of_reduced_at h j
      cases hl : low (W.getD j ∅) with
      | none =>
          rw [ssrStep_eq_none (by rw [hred]; exact hl)]
          rw [hred, set_getD_self, ih]
          congr 1
          rw [List.filterMap_cons_none (by simp only [hl]; rfl)]
      | some p =>
          rw [ssrStep_eq_some (by rw [hred]; exact hl)]
          rw [hred, set_getD_self, ih]
          congr 1
          rw [List.filterMap_cons_some (by simp only [hl]; rfl)]
          simp

/-- The twist sweep is a no-op on a reduced matrix whose pivot rows carry
empty columns; the emitted pairs are the matrix's pivots. -/
theorem twist_foldl_of_reduced {W : List Col} (h : Reduced W)
    (hz : ∀ j p, low (W.getD j ∅) = some p → W.getD p ∅ = ∅) :
    ∀ (o : List ℕ) (ps : List (ℕ × ℕ)),
    o.foldl twistStep (W, ps) =
      (W, ps ++ o.filterMap (fun j => (low (W.getD j ∅)).map (fun p => (p, j)))) := by
  intro o
  induction o with
  | nil => intro ps; simp
  | cons j o ih =>
      intro ps
      rw [List.foldl_cons]
      have hred := reduceOne_of_reduced_at h j
      cases hl : low (W.getD j ∅) with
      | none =>
          rw [twistStep_eq_none (by rw [hred]; exact hl)]
          rw [hred, set_getD_self, ih]
          congr 1
          rw [List.filterMap_cons_none (by simp only [hl]; rfl)]
      | some p =>
          rw [twistStep_eq_some (by rw [hred]; exact hl)]
          rw [hred, set_getD_self]
          have hset : W.set p ∅ = W := by
            conv_lhs => rw [show (∅ : Col) = W.getD p ∅ from (hz j p hl).symm]
            exact set_getD_self
          rw [hset, ih]
          congr 1
          rw [List.filterMap_cons_some (by simp only [hl]; rfl)]
          simp


instance : Std.Commutative (α := Col) symmDiff := ⟨symmDiff_comm⟩

instance : Std.Associative (α := Col) symmDiff := ⟨symmDiff_assoc⟩

/-- The GF(2) sum of the columns of `M` selected by the index set `u` —
applying the matrix to a vector. -/
def xorCols (M : List Col) (u : Finset ℕ) : Col :=
  u.fold symmDiff ∅ (fun r => M.getD r ∅)

/-- The characteristic vector of a column over GF(2). -/
def toVec (c : Col) : ℕ → ZMod 2 :=
  fun x => if x ∈ c then 1 else 0

theorem toVec_injective {a b : Col} (h : toVec a = toVec b) : a = b := by
  ext x
  have hx := congrFun h x
  unfold toVec at hx
  by_cases hxa : x ∈ a <;> by_cases hxb : x ∈ b <;> simp [hxa, hxb] at hx ⊢

theorem toVec_symmDiff (a b : Col) : toVec (symmDiff a b) = toVec a + toVec b := by
  funext x
  unfold toVec
  simp only [Pi.add_apply]
  rcases Classical.em (x ∈ a) with hxa | hxa <;> rcases Classical.em (x ∈ b) with hxb | hxb
  · rw [if_neg (by rw [Finset.mem_symmDiff]; tauto), if_pos hxa, if_pos hxb]
    decide
  · rw [if_pos (by rw [Finset.mem_symmDiff]; tauto), if_pos hxa, if_neg hxb]
    decide
  · rw [if_pos (by rw [Finset.mem_symmDiff]; tauto), if_neg hxa, if_pos hxb]
    decide
  · rw [if_neg (by rw [Finset.mem_symmDiff]; tauto), if_neg hxa, if_neg hxb]
    decide

theorem toVec_xorCols (M : List Col) (u : Finset ℕ) :
    toVec (xorCols M u) = fun x => ∑ r ∈ u, toVec (M.getD r ∅) x := by
  induction u using Finset.induction with
  | empty =>
      funext x
      simp [xorCols, toVec]
  | insert hnew ih =>
      next r u =>
        have e : xorCols M (insert r u) = symmDiff (M.getD r ∅) (xorCols M u) := by
          unfold xorCols
          rw [Finset.fold_insert hnew]
        rw [e, toVec_symmDiff, ih]
        funext x
        rw [Finset.sum_insert hnew]
        rfl

theorem xorCols_symmDiff (M : List Col) (a b : Col) :
    xorCols M (symmDiff a b) = symmDiff (xorCols M a) (xorCols M b) := by
  apply toVec_injective
  rw [toVec_symmDiff, toVec_xorCols, toVec_xorCols, toVec_xorCols]
  funext x
  simp only [Pi.add_apply]
  have hdisj : Disjoint (symmDiff a b) (a ∩ b) := by
    rw [Finset.disjoint_left]
    intro r hr hr2
    rw [Finset.mem_symmDiff] at hr
    rw [Finset.mem_inter] at hr2
    tauto
  have hcover : symmDiff a b ∪ a ∩ b = a ∪ b := symmDiff_sup_inf a b
  have h1 : ∑ r ∈ a ∪ b, toVec (M.getD r ∅) x =
      ∑ r ∈ symmDiff a b, toVec (M.getD r ∅) x + ∑ r ∈ a ∩ b, toVec (M.getD r ∅) x := by
    rw [← Finset.sum_union hdisj, hcover]
  have h2 : ∑ r ∈ a ∪ b, toVec (M.getD r ∅) x + ∑ r ∈ a ∩ b, toVec (M.getD r ∅) x =
      ∑ r ∈ a, toVec (M.getD r ∅) x + ∑ r ∈ b, toVec (M.getD r ∅) x :=
    Finset.sum_union_inter
  have hchar : ∀ y : ZMod 2, y + y = 0 := by decide
  calc ∑ r ∈ symmDiff a b, toVec (M.getD r ∅) x
      = ∑ r ∈ symmDiff a b, toVec (M.getD r ∅) x +
        (∑ r ∈ a ∩ b, toVec (M.getD r ∅) x + ∑ r ∈ a ∩ b, toVec (M.getD r ∅) x) := by
        rw [hchar, add_zero]
    _ = (∑ r ∈ symmDiff a b, toVec (M.getD r ∅) x + ∑ r ∈ a ∩ b, toVec (M.getD r ∅) x) +
        ∑ r ∈ a ∩ b, toVec (M.getD r ∅) x := by ring
    _ = ∑ r ∈ a ∪ b, toVec (M.getD r ∅) x + ∑ r ∈ a ∩ b, toVec (M.getD r ∅) x := by
        rw [h1]
    _ = ∑ r ∈ a, toVec (M.getD r ∅) x + ∑ r ∈ b, toVec (M.getD r ∅) x := h2

theorem xorCols_empty (M : List Col) : xorCols M ∅ = ∅ := rfl

/-- `∂ ∘ ∂ = 0`: the GF(2) sum of the boundary columns selected by any
column of the matrix vanishes.  This holds for the boundary matrix of any
cell complex. -/
def BoundarySquaresZero (M : List Col) : Prop :=
  ∀ j < M.length, xorCols M (M.getD j ∅) = ∅

instance (M : List Col) : Decidable (BoundarySquaresZero M) :=
  inferInstanceAs (Decidable (∀ j < M.length, xorCols M (M.getD j ∅) = ∅))

theorem xorCols_eq_empty_of_inSpan {M L : List Col} {v : Col}
    (hL : ∀ c ∈ L, xorCols M c = ∅) (hv : InSpan L v) : xorCols M v = ∅ := by
  induction hv with
  | nil => exact xorCols_empty M
  | skip c hv0 ih => exact ih (fun c2 hc2 => hL c2 (List.mem_cons_of_mem c hc2))
  | use c hv0 ih =>
      rw [xorCols_symmDiff, hL c (List.mem_cons_self c _),
        ih (fun c2 hc2 => hL c2 (List.mem_cons_of_mem c hc2)), symmDiff_self_empty]

/-- On a matrix with `∂ ∘ ∂ = 0`, every pivot row of a reduced
leftward-reduction carries an empty reduced column. -/
theorem pivot_row_col_empty {M R : List Col} (hred : RedOf M R) (hr : Reduced R)
    (hdd : BoundarySquaresZero M) (hordM : OrderedCols M)
    {b d : ℕ} (hlow : low (R.getD d ∅) = some b) : R.getD b ∅ = ∅ := by
  have hdn : d < M.length := by
    have hl := hred.1
    by_contra hc
    rw [List.getD_eq_default _ _ (by omega), low_empty] at hlow
    cases hlow
  -- the reduced column is a combination of original columns up to `d`
  have hRd : InSpan (M.take (d + 1)) (R.getD d ∅) := by
    have h1 : InSpan (M.take (d + 1)) (symmDiff (R.getD d ∅) (M.getD d ∅)) :=
      inSpan_take_mono (by omega) (hred.2 d hdn)
    have h2 : InSpan (M.take (d + 1)) (M.getD d ∅) := by
      have e : (M.take (d + 1)).getD d ∅ = M.getD d ∅ := getD_take (by omega)
      rw [← e]
      exact inSpan_getD (by simp; omega)
    have h3 := InSpan.symmDiff_closed h1 h2
    rwa [symmDiff_assoc, symmDiff_self_empty, symmDiff_empty_right] at h3
  -- so the matrix applied to it vanishes
  have hz : xorCols M (R.getD d ∅) = ∅ := by
    refine xorCols_eq_empty_of_inSpan ?_ hRd
    intro c hc
    obtain ⟨i, hi, rfl⟩ := List.getElem_of_mem hc
    have hiM : i < M.length := by
      have := List.length_take_le (d + 1) M
      omega
    have e : (M.take (d + 1))[i] = M.getD i ∅ := by
      rw [List.getElem_take, ← List.getD_eq_getElem M ∅ hiM]
    rw [e]
    exact hdd i hiM
  -- extract the column at the pivot row
  have hbmem : b ∈ R.getD d ∅ := low_mem hlow
  have hsplit : R.getD d ∅ = insert b ((R.getD d ∅).erase b) := by
    rw [Finset.insert_erase hbmem]
  have hxb : symmDiff (M.getD b ∅) (xorCols M ((R.getD d ∅).erase b)) = ∅ := by
    have e : xorCols M (insert b ((R.getD d ∅).erase b)) =
        symmDiff (M.getD b ∅) (xorCols M ((R.getD d ∅).erase b)) := by
      unfold xorCols
      rw [Finset.fold_insert (Finset.not_mem_erase b _)]
    rw [← e, ← hsplit]
    exact hz
  have hMb : M.getD b ∅ = xorCols M ((R.getD d ∅).erase b) :=
    symmDiff_eq_empty_iff.mp hxb
  -- all remaining entries are strictly below the pivot row
  have hMbspan : InSpan (M.take b) (M.getD b ∅) := by
    rw [hMb]
    have : ∀ u : Finset ℕ, (∀ r ∈ u, r < b) → InSpan (M.take b) (xorCols M u) := by
      intro u
      induction u using Finset.induction with
      | empty => intro _; exact inSpan_empty _
      | insert hnew ih =>
          next r u =>
            intro hru
            have e : xorCols M (insert r u) = symmDiff (M.getD r ∅) (xorCols M u) := by
              unfold xorCols
              rw [Finset.fold_insert hnew]
            rw [e]
            refine InSpan.symmDiff_closed ?_ (ih (fun x hx => hru x (Finset.mem_insert_of_mem hx)))
            have hrb : r < b := hru r (Finset.mem_insert_self r u)
            rcases lt_or_ge r M.length with hrM | hrM
            · have e2 : (M.take b).getD r ∅ = M.getD r ∅ := getD_take hrb
              rw [← e2]
              exact inSpan_getD (by simp; omega)
            · rw [List.getD_eq_default _ _ hrM]
              exact inSpan_empty _
    refine this _ ?_
    intro r hr
    have hrmem := Finset.mem_of_mem_erase hr
    have hrne := Finset.ne_of_mem_erase hr
    have := le_of_mem_of_low hlow hrmem
    omega
  -- hence the column at `b` reduces to the empty column
  by_contra hne
  have hbn : b < M.length := by
    have := hordM d hdn
    have hl := hred.1
    -- b is an entry of the reduced column; entries stay below the column index
    have hRdmem : InSpan (M.take (d + 1)) (R.getD d ∅) := hRd
    have := inSpan_mem hRdmem hbmem
    obtain ⟨i, hi, hmem⟩ := this
    have hiM : i < M.length := by
      have := List.length_take_le (d + 1) M
      simp at hi
      omega
    have : b < i := by
      have e : (M.take (d + 1)).getD i ∅ = M.getD i ∅ := getD_take (by simp at hi; omega)
      rw [e] at hmem
      exact hordM i hiM b hmem
    omega
  have hRb : InSpan (R.take b) (R.getD b ∅) := by
    have h1 : InSpan (M.take b) (symmDiff (R.getD b ∅) (M.getD b ∅)) := hred.2 b hbn
    have h3 := InSpan.symmDiff_closed h1 hMbspan
    rw [symmDiff_assoc, symmDiff_self_empty, symmDiff_empty_right] at h3
    exact hred.subspan_take_rev b _ h3
  obtain ⟨i, hi, he⟩ := low_of_inSpan_reduced hRb (reduced_take hr b) hne
  have hib : i < b := by simp at hi; omega
  rw [getD_take hib] at he
  obtain ⟨q, hq⟩ := low_ne_none hne
  rw [hq] at he
  exact hr i b q hib (by have := hred.1; omega) he.symm hq


theorem list_eq_of_getD {l1 l2 : List Col} (hlen : l1.length = l2.length)
    (h : ∀ i, l1.getD i ∅ = l2.getD i ∅) : l1 = l2 := by
  apply List.ext_getElem hlen
  intro i h1 h2
  have := h i
  rwa [List.getD_eq_getElem _ _ h1, List.getD_eq_getElem _ _ h2] at this

/-- With `∂ ∘ ∂ = 0` the twist algorithm's clearing is vacuous: every
cleared birth column is already empty, so the twist and spectral-sequence
final matrices coincide. -/
theorem twistFold_fst_eq_ssrFold_fst {dims : List ℕ} {M : List Col}
    (hdlen : dims.length = M.length) (hord : OrderedCols M)
    (hdim : DimCompatCols dims M) (hdd : BoundarySquaresZero M) :
    (twistFold dims M).1 = (ssrFold dims M).1 := by
  have hrel := twistFold_matrix_rel hdlen hord hdim
  have hstate := ssrFold_state hdlen hord hdim
  apply list_eq_of_getD hrel.1
  intro i
  rw [hrel.2 i]
  by_cases hc : i ∈ clearedOf (ssrFold dims M).2
  · rw [if_pos hc]
    rcases List.mem_map.mp hc with ⟨⟨b, d⟩, hmem, he⟩
    rw [show b = i from he] at hmem
    obtain ⟨_, hlow⟩ := mem_pairs_of_ssrState hstate hmem
    exact (pivot_row_col_empty (ssr_redOf hdlen hord hdim) (ssr_reduced hdlen hord hdim)
      hdd hord hlow).symm
  · rw [if_neg hc]

/-- Idempotence of every algorithm on matrices with `∂ ∘ ∂ = 0`: re-running
an algorithm on its own output changes nothing and reproduces the pairs. -/
theorem algReduce_idem {dims : List ℕ} {M : List Col}
    (hdlen : dims.length = M.length) (hord : OrderedCols M)
    (hdim : DimCompatCols dims M) (hdd : BoundarySquaresZero M) (a : Algorithm) :
    algReduce a dims (algReduce a dims M) = algReduce a dims M ∧
    algPairsList a dims (algReduce a dims M) = algPairsList a dims M := by
  cases a with
  | standard =>
      have he : stdReduce (stdReduce M) = stdReduce M :=
        stdReduce_of_reduced (stdReduce_reduced M)
      exact ⟨he, by show pairsOfList (stdReduce (stdReduce M)) = _; rw [he]; rfl⟩
  | row =>
      have he : rowReduce (rowReduce M) = rowReduce M := rowReduce_of_rowReduce hord
      exact ⟨he, by show pairsOfList (rowReduce (rowReduce M)) = _; rw [he]; rfl⟩
  | chunk s =>
      have he : chunkReduce s (chunkReduce s M) = chunkReduce s M :=
        chunkReduce_of_reduced (chunkReduce_reduced s M) s
      exact ⟨he, by show pairsOfList (chunkReduce s (chunkReduce s M)) = _; rw [he]; rfl⟩
  | spectral =>
      have hrun2 := ssr_foldl_of_reduced (ssr_reduced hdlen hord hdim) (dimOrder dims) []
      have hchar := ssr_pairs_char hdlen hord hdim
      constructor
      · show ((dimOrder dims).foldl ssrStep ((ssrFold dims M).1, [])).1 = (ssrFold dims M).1
        rw [hrun2]
      · show ((dimOrder dims).foldl ssrStep ((ssrFold dims M).1, [])).2 = (ssrFold dims M).2
        rw [hrun2]
        show [] ++ _ = _
        rw [List.nil_append, hchar]
  | twist =>
      have hTS := twistFold_fst_eq_ssrFold_fst hdlen hord hdim hdd
      have hz : ∀ j p, low ((ssrFold dims M).1.getD j ∅) = some p →
          (ssrFold dims M).1.getD p ∅ = ∅ := by
        intro j p hlow
        exact pivot_row_col_empty (ssr_redOf hdlen hord hdim)
          (ssr_reduced hdlen hord hdim) hdd hord hlow
      have hrun2 := twist_foldl_of_reduced (ssr_reduced hdlen hord hdim) hz (dimOrder dims) []
      have hchar := ssr_pairs_char hdlen hord hdim
      constructor
      · show ((dimOrder dims).foldl twistStep ((twistFold dims M).1, [])).1 =
          (twistFold dims M).1
        rw [hTS, hrun2]
      · show ((dimOrder dims).foldl twistStep ((twistFold dims M).1, [])).2 =
          (twistFold dims M).2
        rw [hTS, hrun2]
        show [] ++ _ = _
        rw [List.nil_append, twistFold_pairs_eq hdlen hord hdim, hchar]


/-- Ascending, duplicate-free entry lists: the canonical form of a column's
contents at the `get`/`set` interface (spec section 4.1: "caller guarantees
ascending, deduplicated input"). -/
def AscList (xs : List ℕ) : Prop :=
  List.Chain' (· < ·) xs

instance (xs : List ℕ) : Decidable (AscList xs) :=
  inferInstanceAs (Decidable (List.Chain' (· < ·) xs))

theorem AscList.sorted_le {xs : List ℕ} (h : AscList xs) : List.Sorted (· ≤ ·) xs := by
  unfold AscList at h
  rw [List.chain'_iff_pairwise] at h
  exact h.imp le_of_lt

theorem AscList.nodup {xs : List ℕ} (h : AscList xs) : xs.Nodup := by
  unfold AscList at h
  rw [List.chain'_iff_pairwise] at h
  exact h.nodup

theorem sort_toFinset_of_asc {xs : List ℕ} (h : AscList xs) :
    xs.toFinset.sort (· ≤ ·) = xs := by
  refine List.eq_of_perm_of_sorted ?_ (Finset.sort_sorted _ _) h.sorted_le
  exact (Finset.sort_perm_toList _ _).trans (List.toFinset_toList h.nodup)

/-- A column-storage strategy (spec section 4.1): a storage type together
with the `set`/`get` contract — loading a canonical ascending entry list
and reading it back is the identity. -/
structure ColumnRep where
  T : Type
  setCol : List ℕ → T
  getCol : T → List ℕ
  emptyCol : T
  get_set : ∀ xs, AscList xs → getCol (setCol xs) = xs

/-- Modelled from the spec: `vector_vector` — each column a sorted dense
array of row indices (spec section 4.1; the representation headers are not
in the provided source). -/
def vector_vector : ColumnRep :=
  ⟨List ℕ, id, id, [], fun _ _ => rfl⟩

/-- Modelled from the spec: `vector_list` — each column a sorted list of
row indices. -/
def vector_list : ColumnRep :=
  ⟨List ℕ, id, id, [], fun _ _ => rfl⟩

/-- Modelled from the spec: `vector_set` — each column a search tree of row
indices; reading sorts the stored set. -/
def vector_set : ColumnRep :=
  ⟨Finset ℕ, fun xs => xs.toFinset, fun s => s.sort (· ≤ ·), ∅,
    fun _ h => sort_toFinset_of_asc h⟩

/-- Modelled from the spec: `bit_tree_pivot_column` — a bit-set with fast
maximum queries; extensionally a set of row indices. -/
def bit_tree_pivot_column : ColumnRep :=
  ⟨Finset ℕ, fun xs => xs.toFinset, fun s => s.sort (· ≤ ·), ∅,
    fun _ h => sort_toFinset_of_asc h⟩

/-- Modelled from the spec: `vector_heap` — a heapified array with lazy
duplicate handling; entries appearing an even number of times cancel over
GF(2), and reading returns the surviving entries in ascending order. -/
def vector_heap : ColumnRep :=
  ⟨List ℕ, id,
    fun l => (l.toFinset.filter (fun x => ¬ 2 ∣ l.count x)).sort (· ≤ ·), [],
    by
      intro xs h
      have hcount : ∀ x ∈ xs, xs.count x = 1 := fun x hx => List.count_eq_one_of_mem h.nodup hx
      have e : xs.toFinset.filter (fun x => ¬ 2 ∣ xs.count x) = xs.toFinset := by
        apply Finset.filter_true_of_mem
        intro x hx
        rw [List.mem_toFinset] at hx
        rw [hcount x hx]
        omega
      show (xs.toFinset.filter (fun x => ¬ 2 ∣ xs.count x)).sort (· ≤ ·) = xs
      rw [e, sort_toFinset_of_asc h]⟩

/-- Modelled from the spec: `sparse_pivot_column` — stored as
`vector_vector`; the transient set-based pivot column exists only while a
reduction manipulates the column. -/
def sparse_pivot_column : ColumnRep :=
  ⟨List ℕ, id, id, [], fun _ _ => rfl⟩

/-- Modelled from the spec: `heap_pivot_column` — stored as
`vector_vector` with a transient priority-queue pivot column. -/
def heap_pivot_column : ColumnRep :=
  ⟨List ℕ, id, id, [], fun _ _ => rfl⟩

/-- Modelled from the spec: `full_pivot_column` — stored as
`vector_vector` with a transient bit-vector pivot column. -/
def full_pivot_column : ColumnRep :=
  ⟨List ℕ, id, id, [], fun _ _ => rfl⟩

/-- Modelled from the spec: a boundary matrix generic over the column
storage strategy (spec section 4.2): an ordered sequence of stored columns
with per-column dimension tags. -/
structure BoundaryMatrix (R : ColumnRep) where
  dims : List ℤ
  cols : List R.T

namespace BoundaryMatrix

/-- Modelled from the spec: `get_num_cols()` (spec section 4.2). -/
def get_num_cols {R : ColumnRep} (m : BoundaryMatrix R) : ℕ :=
  m.cols.length

/-- Modelled from the spec: `get_dim(j)` (spec section 4.2). -/
def get_dim {R : ColumnRep} (m : BoundaryMatrix R) (j : ℕ) : ℤ :=
  m.dims.getD j 0

/-- Modelled from the spec: `set_dim(j, d)` (spec section 4.2). -/
def set_dim {R : ColumnRep} (m : BoundaryMatrix R) (j : ℕ) (d : ℤ) : BoundaryMatrix R :=
  ⟨m.dims.set j d, m.cols⟩

/-- Modelled from the spec: `set_num_cols(n)` (spec section 4.2) — resize
the column and dimension sequences to `n` entries. -/
def set_num_cols {R : ColumnRep} (m : BoundaryMatrix R) (n : ℕ) : BoundaryMatrix R :=
  ⟨m.dims.take n ++ List.replicate (n - m.dims.length) 0,
   m.cols.take n ++ List.replicate (n - m.cols.length) R.emptyCol⟩

/-- Modelled from the spec: `get_col(j)` (spec section 4.2), through the
representation's `get`. -/
def get_col {R : ColumnRep} (m : BoundaryMatrix R) (j : ℕ) : List ℕ :=
  R.getCol (m.cols.getD j R.emptyCol)

/-- Modelled from the spec: `set_col(j, entries)` (spec section 4.2),
through the representation's `set`. -/
def set_col {R : ColumnRep} (m : BoundaryMatrix R) (j : ℕ) (xs : List ℕ) :
    BoundaryMatrix R :=
  ⟨m.dims, m.cols.set j (R.setCol xs)⟩

/-- The `set_dims` helper added by the Python binding, translated from
`src/python/_phat.cpp` lines 129-136: resize to the dimension list's
length, then set each dimension in order. -/
def set_dims {R : ColumnRep} (m : BoundaryMatrix R) (ds : List ℤ) : BoundaryMatrix R :=
  (List.range ds.length).foldl (fun acc i => acc.set_dim i (ds.getD i 0))
    (m.set_num_cols ds.length)

/-- Modelled from the spec: matrix equality (spec section 4.2) — same
column count, same dimensions, same entries, compared through the common
`get` contract so that the internal representation is irrelevant. -/
def matEq {R1 R2 : ColumnRep} (m1 : BoundaryMatrix R1) (m2 : BoundaryMatrix R2) : Bool :=
  (m1.get_num_cols == m2.get_num_cols) &&
  (List.range m1.get_num_cols).all
    (fun j => (m1.get_dim j == m2.get_dim j) && (m1.get_col j == m2.get_col j))

/-- Modelled from the spec: representation conversion (spec section 4.1:
"a value copy through the common get/set contract"), as performed by the
converting constructor bound in `src/python/_phat.cpp` lines 76-84. -/
def convert {R1 : ColumnRep} (R2 : ColumnRep) (m : BoundaryMatrix R1) :
    BoundaryMatrix R2 :=
  ⟨m.dims, m.cols.map (fun c => R2.setCol (R1.getCol c))⟩

/-- Well-formedness: dimensions and columns in step, every stored column
written through `set` from a canonical ascending entry list. -/
def WF {R : ColumnRep} (m : BoundaryMatrix R) : Prop :=
  m.dims.length = m.cols.length ∧
  ∀ c ∈ m.cols, ∃ xs, AscList xs ∧ c = R.setCol xs

end BoundaryMatrix


theorem getD_set_self' {α : Type} {l : List α} {j : ℕ} {a d : α} (h : j < l.length) :
    (l.set j a).getD j d = a := by
  rw [List.getD_eq_getElem _ _ (by simpa using h)]
  exact List.getElem_set_self _

theorem getD_set_ne' {α : Type} {l : List α} {i j : ℕ} {a d : α} (h : i ≠ j) :
    (l.set i a).getD j d = l.getD j d := by
  rcases lt_or_ge j l.length with hj | hj
  · rw [List.getD_eq_getElem _ _ (by simpa using hj), List.getD_eq_getElem _ _ hj]
    exact List.getElem_set_ne h _
  · rw [List.getD_eq_default _ _ (by simpa using hj), List.getD_eq_default _ _ hj]

theorem list_eq_of_getD' {α : Type} {d : α} {l1 l2 : List α} (hlen : l1.length = l2.length)
    (h : ∀ i < l1.length, l1.getD i d = l2.getD i d) : l1 = l2 := by
  apply List.ext_getElem hlen
  intro i h1 h2
  have := h i h1
  rwa [List.getD_eq_getElem _ _ h1, List.getD_eq_getElem _ _ h2] at this

namespace BoundaryMatrix

/-- The equality operator holds exactly on matrices with the same column
count, the same dimension tags and the same entries in every column, read
through the representation-independent `get` contract. -/
theorem matEq_iff {R1 R2 : ColumnRep} (m1 : BoundaryMatrix R1) (m2 : BoundaryMatrix R2) :
    matEq m1 m2 = true ↔
      (m1.get_num_cols = m2.get_num_cols ∧
       ∀ j < m1.get_num_cols, m1.get_dim j = m2.get_dim j ∧ m1.get_col j = m2.get_col j) := by
  unfold matEq
  rw [Bool.and_eq_true, beq_iff_eq, List.all_eq_true]
  constructor
  · rintro ⟨h1, h2⟩
    refine ⟨h1, fun j hj => ?_⟩
    have := h2 j (List.mem_range.mpr hj)
    rw [Bool.and_eq_true, beq_iff_eq, beq_iff_eq] at this
    exact this
  · rintro ⟨h1, h2⟩
    refine ⟨h1, fun j hj => ?_⟩
    rw [Bool.and_eq_true, beq_iff_eq, beq_iff_eq]
    exact h2 j (List.mem_range.mp hj)

theorem convert_get_num_cols {R1 R2 : ColumnRep} (m : BoundaryMatrix R1) :
    (m.convert R2).get_num_cols = m.get_num_cols := by
  unfold convert get_num_cols
  simp

theorem convert_get_dim {R1 R2 : ColumnRep} (m : BoundaryMatrix R1) (j : ℕ) :
    (m.convert R2).get_dim j = m.get_dim j := rfl

theorem convert_get_col {R1 R2 : ColumnRep} {m : BoundaryMatrix R1} (h : m.WF)
    {j : ℕ} (hj : j < m.get_num_cols) :
    (m.convert R2).get_col j = m.get_col j := by
  unfold convert get_col
  have hjc : j < m.cols.length := hj
  rw [List.getD_eq_getElem _ _ (by simpa using hjc), List.getElem_map,
    List.getD_eq_getElem _ _ hjc]
  obtain ⟨xs, hxs, he⟩ := h.2 (m.cols[j]) (List.getElem_mem hjc)
  rw [he, R1.get_set xs hxs, R2.get_set xs hxs]

theorem convert_WF {R1 R2 : ColumnRep} {m : BoundaryMatrix R1} (h : m.WF) :
    (m.convert R2).WF := by
  constructor
  · unfold convert
    simpa using h.1
  · intro c hc
    unfold convert at hc
    simp only at hc
    rcases List.mem_map.mp hc with ⟨c0, hc0, rfl⟩
    obtain ⟨xs, hxs, he⟩ := h.2 c0 hc0
    exact ⟨R1.getCol c0, by rw [he, R1.get_set xs hxs]; exact hxs, rfl⟩

theorem get_col_asc {R : ColumnRep} {m : BoundaryMatrix R} (h : m.WF)
    {j : ℕ} (hj : j < m.get_num_cols) : AscList (m.get_col j) := by
  unfold get_col
  have hjc : j < m.cols.length := hj
  rw [List.getD_eq_getElem _ _ hjc]
  obtain ⟨xs, hxs, he⟩ := h.2 (m.cols[j]) (List.getElem_mem hjc)
  rw [he, R.get_set xs hxs]
  exact hxs

/-- Double conversion through any two representations compares equal to the
original matrix. -/
theorem convert_convert_matEq {R0 : ColumnRep} (R1 R2 : ColumnRep)
    {m : BoundaryMatrix R0} (h : m.WF) :
    matEq ((m.convert R1).convert R2) m = true := by
  rw [matEq_iff]
  have hn1 : ((m.convert R1).convert R2).get_num_cols = m.get_num_cols := by
    rw [convert_get_num_cols, convert_get_num_cols]
  refine ⟨hn1, fun j hj => ?_⟩
  have hj0 : j < m.get_num_cols := by omega
  refine ⟨rfl, ?_⟩
  rw [convert_get_col (convert_WF h) (by rw [convert_get_num_cols]; exact hj0)]
  rw [convert_get_col h hj0]

theorem set_num_cols_dims_length {R : ColumnRep} (m : BoundaryMatrix R) (n : ℕ) :
    (m.set_num_cols n).dims.length = n := by
  unfold set_num_cols
  simp
  omega

theorem set_num_cols_cols_length {R : ColumnRep} (m : BoundaryMatrix R) (n : ℕ) :
    (m.set_num_cols n).cols.length = n := by
  unfold set_num_cols
  simp
  omega

theorem foldl_set_dim_cols {R : ColumnRep} (l : List ℕ) (f : ℕ → ℤ)
    (acc : BoundaryMatrix R) :
    (l.foldl (fun a i => a.set_dim i (f i)) acc).cols = acc.cols := by
  induction l generalizing acc with
  | nil => rfl
  | cons x l ih => exact ih _

theorem foldl_set_dim_dims_length {R : ColumnRep} (l : List ℕ) (f : ℕ → ℤ)
    (acc : BoundaryMatrix R) :
    (l.foldl (fun a i => a.set_dim i (f i)) acc).dims.length = acc.dims.length := by
  induction l generalizing acc with
  | nil => rfl
  | cons x l ih =>
      rw [List.foldl_cons, ih]
      unfold set_dim
      simp

theorem range_foldl_set_dim_getD {R : ColumnRep} (ds : List ℤ)
    (acc : BoundaryMatrix R) (hlen : acc.dims.length = ds.length) :
    ∀ n ≤ ds.length, ∀ i,
    ((List.range n).foldl (fun a i => a.set_dim i (ds.getD i 0)) acc).dims.getD i 0 =
      if i < n then ds.getD i 0 else acc.dims.getD i 0 := by
  intro n
  induction n with
  | zero =>
      intro _ i
      rw [if_neg (by omega)]
      rfl
  | succ n ih =>
      intro hn i
      rw [List.range_succ, List.foldl_append, List.foldl_cons, List.foldl_nil]
      have e : (((List.range n).foldl (fun a i => a.set_dim i (ds.getD i 0)) acc).set_dim n
          (ds.getD n 0)).dims =
          ((List.range n).foldl (fun a i => a.set_dim i (ds.getD i 0)) acc).dims.set n
          (ds.getD n 0) := rfl
      rw [e]
      by_cases hin : i = n
      · subst hin
        rw [getD_set_self' (by rw [foldl_set_dim_dims_length, hlen]; omega)]
        rw [if_pos (by omega)]
      · rw [getD_set_ne' (fun e => hin e.symm), ih (by omega) i]
        by_cases hi2 : i < n
        · rw [if_pos hi2, if_pos (by omega)]
        · rw [if_neg hi2, if_neg (by omega)]

/-- After `set_dims m ds` the matrix has exactly `ds.length` columns and
carries the dimensions of `ds`. -/
theorem set_dims_spec {R : ColumnRep} (m : BoundaryMatrix R) (ds : List ℤ) :
    (m.set_dims ds).get_num_cols = ds.length ∧
    ∀ i < ds.length, (m.set_dims ds).get_dim i = ds.getD i 0 := by
  constructor
  · unfold set_dims get_num_cols
    rw [foldl_set_dim_cols]
    exact set_num_cols_cols_length m ds.length
  · intro i hi
    unfold set_dims get_dim
    rw [range_foldl_set_dim_getD ds _ (set_num_cols_dims_length m ds.length) ds.length
      le_rfl i]
    rw [if_pos hi]

end BoundaryMatrix


namespace BoundaryMatrix

/-- Modelled from the spec: `compute_persistence_pairs` as bound in
`src/python/_phat.cpp` lines 59-64 — run the requested reduction on the
matrix (viewed through the column interface) and collect the emitted
pairs. -/
def compute_persistence_pairs {R : ColumnRep} (a : Algorithm) (m : BoundaryMatrix R) :
    List (ℕ × ℕ) :=
  algPairsList a (m.dims.map Int.toNat) (m.cols.map (fun c => (R.getCol c).toFinset))

/-- Computation is representation-independent: equal matrices (possibly
stored under different representations) yield identical pair lists. -/
theorem compute_eq_of_matEq {R1 R2 : ColumnRep} (a : Algorithm)
    {m1 : BoundaryMatrix R1} {m2 : BoundaryMatrix R2}
    (h1 : m1.WF) (h2 : m2.WF) (heq : matEq m1 m2 = true) :
    compute_persistence_pairs a m1 = compute_persistence_pairs a m2 := by
  obtain ⟨hn, hp⟩ := (matEq_iff m1 m2).mp heq
  have hdims : m1.dims = m2.dims := by
    apply @list_eq_of_getD' ℤ (0 : ℤ) m1.dims m2.dims
    · rw [h1.1, h2.1]
      exact hn
    · intro i hi
      have hlt : i < m1.get_num_cols := by
        have := h1.1
        unfold BoundaryMatrix.get_num_cols
        omega
      exact (hp i hlt).1
  have hcols : m1.cols.map (fun c => (R1.getCol c).toFinset) =
      m2.cols.map (fun c => (R2.getCol c).toFinset) := by
    apply List.ext_getElem (by simpa using hn)
    intro i hh1 hh2
    rw [List.getElem_map, List.getElem_map]
    have hi1 : i < m1.cols.length := by simpa using hh1
    have hi2 : i < m2.cols.length := by simpa using hh2
    have := (hp i hi1).2
    unfold get_col at this
    rw [List.getD_eq_getElem _ _ hi1, List.getD_eq_getElem _ _ hi2] at this
    rw [this]
  unfold compute_persistence_pairs
  rw [hdims, hcols]

end BoundaryMatrix

/-- The number of stored pairs, `persistence_pairs::get_num_pairs`
(modelled from the spec: the header is not in the provided source; it
returns the signed size of the underlying vector). -/
def get_num_pairs (p : List (ℤ × ℤ)) : ℤ :=
  p.length

/-- `fix_index`, translated from `src/python/_phat.cpp` lines 202-215:
negative indices are shifted by the pair count, and any index still outside
`[0, pairs)` raises a Python `IndexError` (modelled as `Except.error`). -/
def fix_index (p : List (ℤ × ℤ)) (index : ℤ) : Except Unit ℤ :=
  if (if index < 0 then get_num_pairs p + index else index) < 0 ∨
      (if index < 0 then get_num_pairs p + index else index) ≥ get_num_pairs p
  then Except.error ()
  else Except.ok (if index < 0 then get_num_pairs p + index else index)

/-- The `__getitem__` lambda of `src/python/_phat.cpp` lines 247-250:
bounds-check and translate through `fix_index`, then read the pair. -/
def phat_getitem (p : List (ℤ × ℤ)) (index : ℤ) : Except Unit (ℤ × ℤ) :=
  (fix_index p index).map (fun k => p.getD k.toNat (0, 0))

/-- The `__setitem__` lambda of `src/python/_phat.cpp` lines 239-243:
bounds-check and translate through `fix_index`, then store the pair. -/
def phat_setitem (p : List (ℤ × ℤ)) (index : ℤ) (pair : ℤ × ℤ) :
    Except Unit (List (ℤ × ℤ)) :=
  (fix_index p index).map (fun k => p.set k.toNat pair)

/-- The `__getitem__` lambda of `src/python/phatpy.cpp` lines 181-187: the
index parameter is declared `size_t`, so a negative Python index arrives as
a huge unsigned value and always fails the bounds check. -/
def phatpy_getitem (p : List (ℤ × ℤ)) (index : ℤ) : Except Unit (ℤ × ℤ) :=
  if (if index < 0 then 2 ^ 64 + index else index) ≥ get_num_pairs p
  then Except.error ()
  else Except.ok (p.getD (if index < 0 then 2 ^ 64 + index else index).toNat (0, 0))

/-- The `__setitem__` lambda of `src/python/phatpy.cpp` lines 173-180: only
`index >= get_num_pairs()` raises; otherwise the (possibly negative) index
is handed to `set_pair` unchanged.  The model returns the arguments passed
across the call boundary. -/
def phatpy_setitem_call (p : List (ℤ × ℤ)) (index : ℤ) (pair : ℤ × ℤ) :
    Except Unit (ℤ × (ℤ × ℤ)) :=
  if index ≥ get_num_pairs p then Except.error () else Except.ok (index, pair)


/-- Complete behaviour of `fix_index`: indices in `[-pairs, pairs)` are
translated (negatives count from the end), all others raise. -/
theorem fix_index_spec (p : List (ℤ × ℤ)) (i : ℤ) :
    fix_index p i =
      if -(p.length : ℤ) ≤ i ∧ i < (p.length : ℤ) then
        Except.ok (if i < 0 then (p.length : ℤ) + i else i)
      else Except.error () := by
  unfold fix_index get_num_pairs
  by_cases h0 : i < 0
  · simp only [if_pos h0]
    by_cases h1 : -(p.length : ℤ) ≤ i ∧ i < (p.length : ℤ)
    · obtain ⟨h1a, h1b⟩ := h1
      rw [if_neg (by omega), if_pos ⟨h1a, h1b⟩]
    · rw [if_pos (by omega), if_neg h1]
  · simp only [if_neg h0]
    by_cases h1 : -(p.length : ℤ) ≤ i ∧ i < (p.length : ℤ)
    · obtain ⟨h1a, h1b⟩ := h1
      rw [if_neg (by omega), if_pos ⟨h1a, h1b⟩]
    · rw [if_pos (by omega), if_neg h1]


theorem phat_getitem_spec (p : List (ℤ × ℤ)) (i : ℤ) :
    phat_getitem p i =
      if -(p.length : ℤ) ≤ i ∧ i < (p.length : ℤ) then
        Except.ok (p.getD (if i < 0 then (p.length : ℤ) + i else i).toNat (0, 0))
      else Except.error () := by
  unfold phat_getitem
  rw [fix_index_spec]
  by_cases hb : -(p.length : ℤ) ≤ i ∧ i < (p.length : ℤ)
  · rw [if_pos hb, if_pos hb]
    rfl
  · rw [if_neg hb, if_neg hb]
    rfl

theorem phat_setitem_spec (p : List (ℤ × ℤ)) (i : ℤ) (pr : ℤ × ℤ) :
    phat_setitem p i pr =
      if -(p.length : ℤ) ≤ i ∧ i < (p.length : ℤ) then
        Except.ok (p.set (if i < 0 then (p.length : ℤ) + i else i).toNat pr)
      else Except.error () := by
  unfold phat_setitem
  rw [fix_index_spec]
  by_cases hb : -(p.length : ℤ) ≤ i ∧ i < (p.length : ℤ)
  · rw [if_pos hb, if_pos hb]
    rfl
  · rw [if_neg hb, if_neg hb]
    rfl

/-!  Dualization (spec section 5): anti-transpose and dual dimensions.  -/

/-- Modelled from the spec: the anti-transpose of an `n`-column matrix —
entry `(i, j)` of the anti-transpose is entry `(n-1-j, n-1-i)` of the
original matrix. -/
def antiTranspose (M : List Col) : List Col :=
  (List.range M.length).map (fun j =>
    (Finset.range M.length).filter
      (fun i => M.length - 1 - j ∈ M.getD (M.length - 1 - i) ∅))

theorem antiTranspose_length (M : List Col) :
    (antiTranspose M).length = M.length := by
  simp [antiTranspose]

theorem antiTranspose_getD {M : List Col} {j : ℕ} (hj : j < M.length) :
    (antiTranspose M).getD j ∅ =
      (Finset.range M.length).filter
        (fun i => M.length - 1 - j ∈ M.getD (M.length - 1 - i) ∅) := by
  unfold antiTranspose
  rw [List.getD_eq_getElem _ _ (by simpa using hj)]
  simp

theorem mem_antiTranspose {M : List Col} {i j : ℕ} (hj : j < M.length) :
    i ∈ (antiTranspose M).getD j ∅ ↔
      i < M.length ∧ M.length - 1 - j ∈ M.getD (M.length - 1 - i) ∅ := by
  rw [antiTranspose_getD hj]
  simp [Finset.mem_filter, Finset.mem_range]

theorem antiTranspose_ordered {M : List Col} (hord : OrderedCols M) :
    OrderedCols (antiTranspose M) := by
  intro j hj r hr
  rw [antiTranspose_length] at hj
  rw [mem_antiTranspose hj] at hr
  obtain ⟨hrn, hmem⟩ := hr
  have hcol : M.length - 1 - r < M.length := by omega
  have := hord (M.length - 1 - r) hcol _ hmem
  omega

/-- Modelled from the spec: the dual dimension tags — cell `i` of the dual
matrix carries dimension `d - dims[n-1-i]` where `d` is the top dimension
of the complex. -/
def dualDims (dims : List ℕ) : List ℕ :=
  (List.range dims.length).map
    (fun j => maxDim dims - dims.getD (dims.length - 1 - j) 0)

theorem dualDims_length (dims : List ℕ) : (dualDims dims).length = dims.length := by
  simp [dualDims]

theorem dualDims_getD {dims : List ℕ} {j : ℕ} (hj : j < dims.length) :
    (dualDims dims).getD j 0 = maxDim dims - dims.getD (dims.length - 1 - j) 0 := by
  unfold dualDims
  rw [List.getD_eq_getElem _ _ (by simpa using hj)]
  simp

theorem antiTranspose_dimCompat {dims : List ℕ} {M : List Col}
    (hdlen : dims.length = M.length) (hdim : DimCompatCols dims M) :
    DimCompatCols (dualDims dims) (antiTranspose M) := by
  intro j hj r hr
  rw [antiTranspose_length] at hj
  rw [mem_antiTranspose hj] at hr
  obtain ⟨hrn, hmem⟩ := hr
  have hcol : M.length - 1 - r < M.length := by omega
  have hd := hdim (M.length - 1 - r) hcol _ hmem
  have hmax : dims.getD (M.length - 1 - r) 0 ≤ maxDim dims :=
    getD_le_maxDim (by omega)
  rw [dualDims_getD (by omega), dualDims_getD (by omega), hdlen]
  omega

theorem redOf_entries_lt {M R : List Col} (hord : OrderedCols M) (hredOf : RedOf M R) :
    ∀ j, ∀ x ∈ R.getD j ∅, x < j := by
  intro j x hx
  rcases lt_or_ge j M.length with hj | hj
  · have hv := hredOf.2 j hj
    by_cases hm : x ∈ M.getD j ∅
    · exact hord j hj x hm
    · have hxd : x ∈ symmDiff (R.getD j ∅) (M.getD j ∅) :=
        Finset.mem_symmDiff.mpr (Or.inl ⟨hx, hm⟩)
      obtain ⟨i, hi, hmem⟩ := inSpan_mem hv hxd
      have hil : i < j := by simp at hi; omega
      rw [getD_take hil] at hmem
      have := hord i (by omega) x hmem
      omega
  · rw [List.getD_eq_default _ _ (by rw [hredOf.1]; omega)] at hx
    exact absurd hx (Finset.not_mem_empty x)

theorem mem_pairsOfList {R : List Col} {q : ℕ × ℕ} :
    q ∈ pairsOfList R ↔ q.2 < R.length ∧ low (R.getD q.2 ∅) = some q.1 := by
  unfold pairsOfList
  rw [List.mem_filterMap]
  constructor
  · rintro ⟨j, hj, hq⟩
    rw [List.mem_range] at hj
    rcases he : low (R.getD j ∅) with _ | p
    · rw [he] at hq
      exact absurd hq (by simp)
    · rw [he] at hq
      rw [Option.map_some'] at hq
      cases hq
      exact ⟨hj, he⟩
  · rintro ⟨hj, he⟩
    exact ⟨q.2, List.mem_range.mpr hj, by rw [he]; rfl⟩

/-!  Rank-based pivot characterization: truncated column spans.  -/

/-- Truncation of a column's GF(2) characteristic vector to rows at least
`r`. -/
def truncFun (r : ℕ) (c : Col) : ℕ → ZMod 2 :=
  fun i => if r ≤ i then toVec c i else 0

theorem truncFun_symmDiff (r : ℕ) (a b : Col) :
    truncFun r (symmDiff a b) = truncFun r a + truncFun r b := by
  funext i
  simp only [truncFun, Pi.add_apply]
  by_cases h : r ≤ i
  · rw [if_pos h, if_pos h, if_pos h]
    exact congrFun (toVec_symmDiff a b) i
  · rw [if_neg h, if_neg h, if_neg h, add_zero]

theorem truncFun_eq_zero {r : ℕ} {c : Col} (h : ∀ x ∈ c, x < r) :
    truncFun r c = 0 := by
  funext i
  simp only [truncFun, Pi.zero_apply]
  by_cases hr : r ≤ i
  · rw [if_pos hr]
    show toVec c i = 0
    unfold toVec
    rw [if_neg (fun hmem => absurd (h i hmem) (by omega))]
  · rw [if_neg hr]

/-- GF(2) span of the first `c` columns of `L`, each restricted to rows at
least `r`. -/
def truncSpan (r c : ℕ) (L : List Col) : Submodule (ZMod 2) (ℕ → ZMod 2) :=
  Submodule.span (ZMod 2) ((fun j => truncFun r (L.getD j ∅)) '' Set.Iio c)

theorem truncFun_inSpan_mem {L : List Col} {v : Col} (h : InSpan L v) (r : ℕ) :
    truncFun r v ∈ Submodule.span (ZMod 2)
      ((fun j => truncFun r (L.getD j ∅)) '' Set.Iio L.length) := by
  induction h with
  | nil =>
      rw [truncFun_eq_zero (fun x hx => absurd hx (Finset.not_mem_empty x))]
      exact Submodule.zero_mem _
  | skip c _ ih =>
      rename_i L0 v0
      refine Submodule.span_mono ?_ ih
      rintro w ⟨k, hk, rfl⟩
      refine ⟨k + 1, ?_, by simp⟩
      simp only [Set.mem_Iio] at hk ⊢
      simpa using Nat.succ_lt_succ hk
  | use c _ ih =>
      rename_i L0 v0
      rw [truncFun_symmDiff]
      refine Submodule.add_mem _ ?_ ?_
      · exact Submodule.subset_span ⟨0, by simp, by simp⟩
      · refine Submodule.span_mono ?_ ih
        rintro w ⟨k, hk, rfl⟩
        refine ⟨k + 1, ?_, by simp⟩
        simp only [Set.mem_Iio] at hk ⊢
        simpa using Nat.succ_lt_succ hk

theorem truncSpan_take_le {M : List Col} (r : ℕ) {j c : ℕ} (hjc : j ≤ c) :
    Submodule.span (ZMod 2)
      ((fun k => truncFun r ((M.take j).getD k ∅)) '' Set.Iio (M.take j).length) ≤
      truncSpan r c M := by
  apply Submodule.span_mono
  rintro w ⟨k, hk, rfl⟩
  have hkj : k < j := by
    simp only [Set.mem_Iio, List.length_take] at hk
    omega
  refine ⟨k, by simp only [Set.mem_Iio]; omega, ?_⟩
  show truncFun r (M.getD k ∅) = truncFun r ((M.take j).getD k ∅)
  rw [getD_take hkj]

/-- Reduction by leftward column additions leaves every truncated prefix
span unchanged. -/
theorem truncSpan_redOf_eq {M R : List Col} (hredOf : RedOf M R) {r c : ℕ}
    (hc : c ≤ M.length) : truncSpan r c M = truncSpan r c R := by
  have hself : ∀ y : ZMod 2, y + y = 0 := by decide
  have key : ∀ j < c,
      truncFun r (symmDiff (R.getD j ∅) (M.getD j ∅)) ∈ truncSpan r c M ∧
      truncFun r (symmDiff (R.getD j ∅) (M.getD j ∅)) ∈ truncSpan r c R := by
    intro j hj
    have hv := hredOf.2 j (by omega)
    constructor
    · exact truncSpan_take_le r (le_of_lt hj) (truncFun_inSpan_mem hv r)
    · have hv2 : InSpan (R.take j) (symmDiff (R.getD j ∅) (M.getD j ∅)) :=
        hredOf.subspan_take_rev j _ hv
      exact truncSpan_take_le r (le_of_lt hj) (truncFun_inSpan_mem hv2 r)
  have hMj : ∀ j, truncFun r (M.getD j ∅) =
      truncFun r (R.getD j ∅) +
        truncFun r (symmDiff (R.getD j ∅) (M.getD j ∅)) := by
    intro j
    rw [truncFun_symmDiff, ← add_assoc]
    funext x
    simp only [Pi.add_apply]
    rw [hself, zero_add]
  have hRj : ∀ j, truncFun r (R.getD j ∅) =
      truncFun r (M.getD j ∅) +
        truncFun r (symmDiff (R.getD j ∅) (M.getD j ∅)) := by
    intro j
    rw [truncFun_symmDiff,
      add_comm (truncFun r (R.getD j ∅)) (truncFun r (M.getD j ∅)), ← add_assoc]
    funext x
    simp only [Pi.add_apply]
    rw [hself, zero_add]
  apply le_antisymm
  · unfold truncSpan
    rw [Submodule.span_le]
    rintro w ⟨j, hj, rfl⟩
    rw [Set.mem_Iio] at hj
    show truncFun r (M.getD j ∅) ∈ truncSpan r c R
    rw [hMj j]
    exact Submodule.add_mem _
      (Submodule.subset_span ⟨j, Set.mem_Iio.mpr hj, rfl⟩) (key j hj).2
  · unfold truncSpan
    rw [Submodule.span_le]
    rintro w ⟨j, hj, rfl⟩
    rw [Set.mem_Iio] at hj
    show truncFun r (R.getD j ∅) ∈ truncSpan r c M
    rw [hRj j]
    exact Submodule.add_mem _
      (Submodule.subset_span ⟨j, Set.mem_Iio.mpr hj, rfl⟩) (key j hj).1

/-- Columns among the first `c` of `R` whose pivot row is at least `r`. -/
def lowSet (R : List Col) (r c : ℕ) : Finset ℕ :=
  (Finset.range c).filter (fun j => ∃ x ∈ R.getD j ∅, r ≤ x)

theorem mem_lowSet {R : List Col} {r c j : ℕ} :
    j ∈ lowSet R r c ↔ j < c ∧ ∃ x ∈ R.getD j ∅, r ≤ x := by
  simp [lowSet, Finset.mem_filter, Finset.mem_range]

theorem lowSet_low {R : List Col} {r c j : ℕ} (h : j ∈ lowSet R r c) :
    ∃ l, low (R.getD j ∅) = some l ∧ r ≤ l := by
  obtain ⟨-, x, hx, hrx⟩ := mem_lowSet.mp h
  have hne : R.getD j ∅ ≠ ∅ := by
    intro he
    rw [he] at hx
    exact absurd hx (Finset.not_mem_empty x)
  obtain ⟨l, hl⟩ := low_ne_none hne
  exact ⟨l, hl, le_trans hrx (le_of_mem_of_low hl hx)⟩

theorem lowSet_lt_length {R : List Col} {r c j : ℕ} (h : j ∈ lowSet R r c) :
    j < R.length := by
  obtain ⟨-, x, hx, -⟩ := mem_lowSet.mp h
  by_contra hge
  rw [List.getD_eq_default _ _ (by omega)] at hx
  exact absurd hx (Finset.not_mem_empty x)

/-- The pivot row of a column, defaulting to `0` for empty columns. -/
def lowVal (R : List Col) (j : ℕ) : ℕ :=
  (low (R.getD j ∅)).getD 0

theorem lowVal_spec {R : List Col} {r c j : ℕ} (h : j ∈ lowSet R r c) :
    low (R.getD j ∅) = some (lowVal R j) ∧ r ≤ lowVal R j := by
  obtain ⟨l, hl, hrl⟩ := lowSet_low h
  unfold lowVal
  rw [hl]
  exact ⟨rfl, hrl⟩

/-- In a reduced matrix the truncated columns with surviving pivots admit
no nontrivial vanishing GF(2) combination: the maximal participating pivot
row always survives the sum. -/
theorem trunc_sum_zero {R : List Col} (hred : Reduced R) {r c : ℕ} :
    ∀ (k : ℕ) (s : Finset ℕ), s.card ≤ k → s ⊆ lowSet R r c →
      ∀ g : ℕ → ZMod 2, ∑ j ∈ s, g j • truncFun r (R.getD j ∅) = 0 →
      ∀ j ∈ s, g j = 0 := by
  intro k
  induction k with
  | zero =>
      intro s hcard hsub g hsum j hj
      have he : s = ∅ := Finset.card_eq_zero.mp (Nat.le_zero.mp hcard)
      rw [he] at hj
      exact absurd hj (Finset.not_mem_empty j)
  | succ k ih =>
      intro s hcard hsub g hsum j hj
      obtain ⟨j0, hj0s, hmax⟩ := Finset.exists_max_image s (lowVal R) ⟨j, hj⟩
      have hj0S := hsub hj0s
      obtain ⟨hlow0, hr0⟩ := lowVal_spec hj0S
      have happ := congrFun hsum (lowVal R j0)
      rw [Finset.sum_apply, Pi.zero_apply] at happ
      have hsingle : ∀ b ∈ s, b ≠ j0 →
          (g b • truncFun r (R.getD b ∅)) (lowVal R j0) = 0 := by
        intro b hb hbne
        have hbS := hsub hb
        obtain ⟨hlowb, hrb⟩ := lowVal_spec hbS
        have hnotmem : lowVal R j0 ∉ R.getD b ∅ := by
          intro hmem
          have h1 : lowVal R j0 ≤ lowVal R b := le_of_mem_of_low hlowb hmem
          have h2 : lowVal R b ≤ lowVal R j0 := hmax b hb
          have heq : lowVal R b = lowVal R j0 := le_antisymm h2 h1
          rcases lt_or_gt_of_ne hbne with hlt | hgt
          · exact (hred b j0 (lowVal R j0) hlt (lowSet_lt_length hj0S)
              (by rw [hlowb, heq])) hlow0
          · exact (hred j0 b (lowVal R j0) hgt (lowSet_lt_length hbS) hlow0)
              (by rw [hlowb, heq])
        rw [Pi.smul_apply, smul_eq_mul]
        have hzero : truncFun r (R.getD b ∅) (lowVal R j0) = 0 := by
          unfold truncFun
          rw [if_pos hr0]
          unfold toVec
          rw [if_neg hnotmem]
        rw [hzero, mul_zero]
      rw [Finset.sum_eq_single j0 hsingle (fun hns => absurd hj0s hns)] at happ
      have hone : truncFun r (R.getD j0 ∅) (lowVal R j0) = 1 := by
        unfold truncFun
        rw [if_pos hr0]
        unfold toVec
        rw [if_pos (low_mem hlow0)]
      rw [Pi.smul_apply, smul_eq_mul, hone, mul_one] at happ
      have hsum2 : ∑ b ∈ s.erase j0, g b • truncFun r (R.getD b ∅) = 0 := by
        have hins := Finset.add_sum_erase s
          (fun b => g b • truncFun r (R.getD b ∅)) hj0s
        simp only at hins
        rw [happ, zero_smul, zero_add] at hins
        rw [hins]
        exact hsum
      have hcard2 : (s.erase j0).card ≤ k := by
        have := Finset.card_erase_of_mem hj0s
        omega
      have hzero := ih (s.erase j0) hcard2
        (fun b hb => hsub (Finset.mem_of_mem_erase hb)) g hsum2
      by_cases hjj : j = j0
      · rw [hjj]
        exact happ
      · exact hzero j (Finset.mem_erase.mpr ⟨hjj, hj⟩)

/-- The truncated prefix span of a reduced matrix has dimension equal to
the number of pivots at or below row `r`. -/
theorem truncSpan_finrank {R : List Col} (hred : Reduced R) (r c : ℕ) :
    Module.finrank (ZMod 2) (truncSpan r c R) = (lowSet R r c).card := by
  have hspan : truncSpan r c R = Submodule.span (ZMod 2)
      (Set.range (fun j : ↥(lowSet R r c) => truncFun r (R.getD (j : ℕ) ∅))) := by
    have him : Set.range (fun j : ↥(lowSet R r c) => truncFun r (R.getD (j : ℕ) ∅)) =
        (fun j => truncFun r (R.getD j ∅)) '' ↑(lowSet R r c) := by
      ext w
      constructor
      · rintro ⟨⟨j, hj⟩, rfl⟩
        exact ⟨j, hj, rfl⟩
      · rintro ⟨j, hj, rfl⟩
        exact ⟨⟨j, hj⟩, rfl⟩
    rw [him]
    apply le_antisymm
    · unfold truncSpan
      rw [Submodule.span_le]
      rintro w ⟨j, hj, rfl⟩
      rw [Set.mem_Iio] at hj
      by_cases hmem : j ∈ lowSet R r c
      · exact Submodule.subset_span ⟨j, hmem, rfl⟩
      · show truncFun r (R.getD j ∅) ∈ Submodule.span (ZMod 2)
          ((fun j => truncFun r (R.getD j ∅)) '' ↑(lowSet R r c))
        have hall : ∀ x ∈ R.getD j ∅, x < r := by
          intro x hx
          by_contra hge
          exact hmem (mem_lowSet.mpr ⟨hj, x, hx, by omega⟩)
        rw [truncFun_eq_zero hall]
        exact Submodule.zero_mem _
    · rw [Submodule.span_le]
      rintro w ⟨j, hj, rfl⟩
      exact Submodule.subset_span ⟨j, Set.mem_Iio.mpr (mem_lowSet.mp hj).1, rfl⟩
  have hli : LinearIndependent (ZMod 2)
      (fun j : ↥(lowSet R r c) => truncFun r (R.getD (j : ℕ) ∅)) := by
    rw [linearIndependent_iff']
    intro s g hsum i hi
    classical
    let g2 : ℕ → ZMod 2 := fun m =>
      if h : m ∈ lowSet R r c then g ⟨m, h⟩ else 0
    have hg2 : ∀ i0 : ↥(lowSet R r c), g2 (i0 : ℕ) = g i0 := fun i0 => dif_pos i0.2
    have hinj : ∀ x ∈ s, ∀ y ∈ s, (x : ℕ) = (y : ℕ) → x = y :=
      fun x _ y _ h => Subtype.ext h
    have hsum2 : ∑ m ∈ s.image (fun x : ↥(lowSet R r c) => (x : ℕ)),
        g2 m • truncFun r (R.getD m ∅) = 0 := by
      rw [Finset.sum_image hinj]
      calc ∑ x ∈ s, g2 (x : ℕ) • truncFun r (R.getD (x : ℕ) ∅)
          = ∑ x ∈ s, g x • truncFun r (R.getD (x : ℕ) ∅) := by
            apply Finset.sum_congr rfl
            intro x _
            rw [hg2]
        _ = 0 := hsum
    have hsub : s.image (fun x : ↥(lowSet R r c) => (x : ℕ)) ⊆ lowSet R r c := by
      intro m hm
      obtain ⟨x, -, rfl⟩ := Finset.mem_image.mp hm
      exact x.2
    have hz := trunc_sum_zero hred (s.image (fun x : ↥(lowSet R r c) => (x : ℕ))).card
      (s.image (fun x : ↥(lowSet R r c) => (x : ℕ))) le_rfl hsub g2 hsum2
      (i : ℕ) (Finset.mem_image_of_mem _ hi)
    rw [hg2] at hz
    exact hz
  rw [hspan, finrank_span_eq_card hli, Fintype.card_coe]

/-- Restriction of a GF(2) vector to a window of `m` rows starting at
row `r`, as a linear map. -/
def sliceLM (r m : ℕ) : (ℕ → ZMod 2) →ₗ[ZMod 2] (Fin m → ZMod 2) where
  toFun v := fun i => v (r + (i : ℕ))
  map_add' := fun _ _ => rfl
  map_smul' := fun _ _ => rfl

/-- The lower-left corner submatrix of `M`: rows at least `r` (as
offsets), columns below `c`, over GF(2). -/
def blkMat (M : List Col) (r c : ℕ) : Matrix (Fin (M.length - r)) (Fin c) (ZMod 2) :=
  fun i j => toVec (M.getD (j : ℕ) ∅) (r + (i : ℕ))

/-- The rank of the lower-left corner submatrix. -/
noncomputable def rkBlk (M : List Col) (r c : ℕ) : ℕ :=
  (blkMat M r c).rank

/-- Vectors supported on the row window `[r, n)`. -/
def zeroOutside (r n : ℕ) : Submodule (ZMod 2) (ℕ → ZMod 2) where
  carrier := {v | ∀ x, x < r ∨ n ≤ x → v x = 0}
  add_mem' := by
    intro a b ha hb x hx
    show a x + b x = 0
    rw [ha x hx, hb x hx, add_zero]
  zero_mem' := by
    intro x hx
    rfl
  smul_mem' := by
    intro t v hv x hx
    show t • v x = 0
    rw [hv x hx, smul_zero]

theorem truncSpan_le_zeroOutside {M : List Col} (hord : OrderedCols M) {r c : ℕ}
    (hc : c ≤ M.length) : truncSpan r c M ≤ zeroOutside r M.length := by
  unfold truncSpan
  rw [Submodule.span_le]
  rintro w ⟨j, hj, rfl⟩
  rw [Set.mem_Iio] at hj
  show ∀ x, x < r ∨ M.length ≤ x → truncFun r (M.getD j ∅) x = 0
  intro x hx
  unfold truncFun
  rcases hx with hlt | hge
  · rw [if_neg (by omega)]
  · by_cases hrx : r ≤ x
    · rw [if_pos hrx]
      show toVec (M.getD j ∅) x = 0
      unfold toVec
      rw [if_neg]
      intro hmem
      have := hord j (by omega) x hmem
      omega
    · rw [if_neg hrx]

/-- Slicing a window-supported subspace into the window preserves its
dimension. -/
theorem finrank_sliceLM {r n : ℕ} (p : Submodule (ZMod 2) (ℕ → ZMod 2))
    (hp : p ≤ zeroOutside r n) :
    Module.finrank (ZMod 2) (Submodule.map (sliceLM r (n - r)) p) =
      Module.finrank (ZMod 2) p := by
  have hinj : Function.Injective ((sliceLM r (n - r)).comp p.subtype) := by
    intro v u h
    apply Subtype.ext
    funext x
    rcases lt_or_ge x r with hlt | hge1
    · rw [hp v.2 x (Or.inl hlt), hp u.2 x (Or.inl hlt)]
    · rcases lt_or_ge x n with hlt2 | hge2
      · have hx : x - r < n - r := by omega
        have hxx : r + (x - r) = x := by omega
        have h2 := congrFun h ⟨x - r, hx⟩
        show (v : ℕ → ZMod 2) x = (u : ℕ → ZMod 2) x
        rw [← hxx]
        exact h2
      · rw [hp v.2 x (Or.inr hge2), hp u.2 x (Or.inr hge2)]
  have h1 := LinearMap.finrank_range_of_inj hinj
  rw [LinearMap.range_comp, Submodule.range_subtype] at h1
  exact h1

/-- The corner rank equals the dimension of the truncated column span. -/
theorem rkBlk_eq_finrank {M : List Col} (hord : OrderedCols M) {r c : ℕ}
    (hc : c ≤ M.length) :
    rkBlk M r c = Module.finrank (ZMod 2) (truncSpan r c M) := by
  unfold rkBlk
  rw [Matrix.rank_eq_finrank_span_cols]
  have hcol : ∀ j : Fin c, (blkMat M r c).transpose j =
      sliceLM r (M.length - r) (truncFun r (M.getD (j : ℕ) ∅)) := by
    intro j
    funext i
    show blkMat M r c i j = truncFun r (M.getD (j : ℕ) ∅) (r + (i : ℕ))
    unfold blkMat truncFun
    rw [if_pos (Nat.le_add_right r (i : ℕ))]
  have him : Set.range (blkMat M r c).transpose =
      sliceLM r (M.length - r) '' ((fun j => truncFun r (M.getD j ∅)) '' Set.Iio c) := by
    ext w
    constructor
    · rintro ⟨j, rfl⟩
      exact ⟨truncFun r (M.getD (j : ℕ) ∅), ⟨(j : ℕ), j.isLt, rfl⟩, (hcol j).symm⟩
    · rintro ⟨v, ⟨j, hj, rfl⟩, rfl⟩
      exact ⟨⟨j, hj⟩, hcol ⟨j, hj⟩⟩
  rw [him, ← Submodule.map_span]
  exact finrank_sliceLM (truncSpan r c M) (truncSpan_le_zeroOutside hord hc)

/-- The corner rank counts the pivots of the standard reduction lying in
the corner. -/
theorem rkBlk_eq_card {M : List Col} (hord : OrderedCols M) {r c : ℕ}
    (hc : c ≤ M.length) :
    rkBlk M r c = (lowSet (stdReduce M) r c).card := by
  rw [rkBlk_eq_finrank hord hc, truncSpan_redOf_eq (stdReduce_redOf M) hc,
    truncSpan_finrank (stdReduce_reduced M)]

theorem lowSet_card_succ (R : List Col) (r c : ℕ) :
    (lowSet R r (c + 1)).card =
      (lowSet R r c).card + (if ∃ x ∈ R.getD c ∅, r ≤ x then 1 else 0) := by
  unfold lowSet
  rw [Finset.range_succ, Finset.filter_insert]
  by_cases h : ∃ x ∈ R.getD c ∅, r ≤ x
  · rw [if_pos h, if_pos h, Finset.card_insert_of_not_mem, Nat.add_comm]
    intro hmem
    have := Finset.mem_range.mp (Finset.mem_filter.mp hmem).1
    omega
  · rw [if_neg h, if_neg h, add_zero]

/-- The pivot of a reduced column is determined by the four adjacent corner
ranks of the input matrix. -/
theorem low_iff_rkBlk {M : List Col} (hord : OrderedCols M) {r c : ℕ}
    (hc : c < M.length) :
    low ((stdReduce M).getD c ∅) = some r ↔
      rkBlk M r (c + 1) + rkBlk M (r + 1) c =
        rkBlk M (r + 1) (c + 1) + rkBlk M r c + 1 := by
  have e1 : rkBlk M r (c + 1) = (lowSet (stdReduce M) r (c + 1)).card :=
    rkBlk_eq_card hord (by omega)
  have e2 : rkBlk M (r + 1) c = (lowSet (stdReduce M) (r + 1) c).card :=
    rkBlk_eq_card hord (by omega)
  have e3 : rkBlk M (r + 1) (c + 1) = (lowSet (stdReduce M) (r + 1) (c + 1)).card :=
    rkBlk_eq_card hord (by omega)
  have e4 : rkBlk M r c = (lowSet (stdReduce M) r c).card :=
    rkBlk_eq_card hord (by omega)
  rw [e1, e2, e3, e4, lowSet_card_succ, lowSet_card_succ]
  by_cases h1 : ∃ x ∈ (stdReduce M).getD c ∅, r ≤ x
  · by_cases h2 : ∃ x ∈ (stdReduce M).getD c ∅, r + 1 ≤ x
    · rw [if_pos h1, if_pos h2]
      constructor
      · intro hl
        obtain ⟨x, hx, hrx⟩ := h2
        have := le_of_mem_of_low hl hx
        omega
      · intro he
        exfalso
        omega
    · rw [if_pos h1, if_neg h2]
      constructor
      · intro _
        omega
      · intro _
        obtain ⟨x, hx, hrx⟩ := h1
        have hne : (stdReduce M).getD c ∅ ≠ ∅ := by
          intro hcon
          rw [hcon] at hx
          exact absurd hx (Finset.not_mem_empty x)
        obtain ⟨l, hl⟩ := low_ne_none hne
        have hrl : r ≤ l := le_trans hrx (le_of_mem_of_low hl hx)
        have hlr : l < r + 1 := by
          by_contra hge
          exact h2 ⟨l, low_mem hl, by omega⟩
        have hle : l = r := by omega
        rw [← hle]
        exact hl
  · by_cases h2 : ∃ x ∈ (stdReduce M).getD c ∅, r + 1 ≤ x
    · exfalso
      obtain ⟨x, hx, hrx⟩ := h2
      exact h1 ⟨x, hx, by omega⟩
    · rw [if_neg h1, if_neg h2]
      constructor
      · intro hl
        exact absurd ⟨r, low_mem hl, le_refl r⟩ h1
      · intro he
        exfalso
        omega

/-- Rank is invariant under relabeling rows and columns along bijections. -/
theorem rank_reindex_gen {k l m n : Type} [Fintype l] [Fintype n]
    (e₁ : k ≃ m) (e₂ : l ≃ n) (A : Matrix k l (ZMod 2)) :
    (Matrix.reindex e₁ e₂ A).rank = A.rank := by
  rw [Matrix.rank, Matrix.rank, Matrix.mulVecLin_reindex, LinearMap.range_comp,
    LinearMap.range_comp, LinearEquiv.range, Submodule.map_top,
    LinearEquiv.finrank_map_eq]

/-- The corner ranks of the anti-transpose are the reflected corner ranks
of the original matrix: the dual corner is the transpose of a primal
corner read backwards. -/
theorem rkBlk_antiTranspose {M : List Col} {r c : ℕ} (hr : r ≤ M.length)
    (hc : c ≤ M.length) :
    rkBlk (antiTranspose M) r c = rkBlk M (M.length - c) (M.length - r) := by
  have hlenA := antiTranspose_length M
  have h1 : (antiTranspose M).length - r = M.length - r := by rw [hlenA]
  have h2 : c = M.length - (M.length - c) := by omega
  let e₁ : Fin ((antiTranspose M).length - r) ≃ Fin (M.length - r) :=
    (finCongr h1).trans Fin.revPerm
  let e₂ : Fin c ≃ Fin (M.length - (M.length - c)) :=
    Fin.revPerm.trans (finCongr h2)
  have he₁ : ∀ i0 : Fin ((antiTranspose M).length - r),
      ((e₁ i0 : Fin (M.length - r)) : ℕ) = M.length - r - ((i0 : ℕ) + 1) := by
    intro i0
    show ((Fin.revPerm ((finCongr h1) i0)) : ℕ) = M.length - r - ((i0 : ℕ) + 1)
    rw [Fin.revPerm_apply, Fin.val_rev, finCongr_apply, Fin.coe_cast]
  have he₂ : ∀ j0 : Fin c,
      ((e₂ j0 : Fin (M.length - (M.length - c))) : ℕ) = c - ((j0 : ℕ) + 1) := by
    intro j0
    show (((finCongr h2) (Fin.revPerm j0)) : ℕ) = c - ((j0 : ℕ) + 1)
    rw [finCongr_apply, Fin.coe_cast, Fin.revPerm_apply, Fin.val_rev]
  have hmat : blkMat (antiTranspose M) r c =
      Matrix.reindex e₁.symm e₂.symm
        ((blkMat M (M.length - c) (M.length - r)).transpose) := by
    ext i j
    rw [Matrix.reindex_apply, Matrix.submatrix_apply, Matrix.transpose_apply,
      Equiv.symm_symm, Equiv.symm_symm]
    show toVec ((antiTranspose M).getD ((j : ℕ)) ∅) (r + (i : ℕ)) =
      toVec (M.getD ((e₁ i : Fin (M.length - r)) : ℕ) ∅)
        ((M.length - c) + ((e₂ j : Fin (M.length - (M.length - c))) : ℕ))
    rw [he₁ i, he₂ j]
    have hi : (i : ℕ) < M.length - r := by
      have h0 := i.isLt
      omega
    have hj : (j : ℕ) < c := j.isLt
    have hmem : ((r + (i : ℕ)) ∈ (antiTranspose M).getD (j : ℕ) ∅) ↔
        (M.length - c + (c - ((j : ℕ) + 1)) ∈
          M.getD (M.length - r - ((i : ℕ) + 1)) ∅) := by
      rw [mem_antiTranspose (by omega)]
      have ea : M.length - 1 - (j : ℕ) = M.length - c + (c - ((j : ℕ) + 1)) := by
        omega
      have eb : M.length - 1 - (r + (i : ℕ)) = M.length - r - ((i : ℕ) + 1) := by
        omega
      rw [ea, eb]
      constructor
      · exact fun h => h.2
      · exact fun h => ⟨by omega, h⟩
    unfold toVec
    by_cases hm : (r + (i : ℕ)) ∈ (antiTranspose M).getD (j : ℕ) ∅
    · rw [if_pos hm, if_pos (hmem.mp hm)]
    · rw [if_neg hm, if_neg (fun hx => hm (hmem.mpr hx))]
  unfold rkBlk
  rw [hmat, rank_reindex_gen, Matrix.rank_transpose]

/-- Pivot duality: the standard reduction of the anti-transpose pairs row
`n-1-c` with column `n-1-r` exactly when the standard reduction of the
original pairs row `r` with column `c`. -/
theorem low_duality {M : List Col} (hord : OrderedCols M) {r c : ℕ}
    (hr : r < M.length) (hc : c < M.length) :
    low ((stdReduce (antiTranspose M)).getD (M.length - 1 - r) ∅) =
        some (M.length - 1 - c) ↔
      low ((stdReduce M).getD c ∅) = some r := by
  have hordA := antiTranspose_ordered hord
  have hcA : M.length - 1 - r < (antiTranspose M).length := by
    rw [antiTranspose_length]
    omega
  rw [low_iff_rkBlk hordA hcA, low_iff_rkBlk hord hc]
  have a1 : rkBlk (antiTranspose M) (M.length - 1 - c) (M.length - 1 - r + 1) =
      rkBlk M r (c + 1) := by
    have h1 : M.length - (M.length - 1 - r + 1) = r := by omega
    have h2 : M.length - (M.length - 1 - c) = c + 1 := by omega
    rw [rkBlk_antiTranspose (by omega) (by omega), h1, h2]
  have a2 : rkBlk (antiTranspose M) (M.length - 1 - c + 1) (M.length - 1 - r) =
      rkBlk M (r + 1) c := by
    have h1 : M.length - (M.length - 1 - r) = r + 1 := by omega
    have h2 : M.length - (M.length - 1 - c + 1) = c := by omega
    rw [rkBlk_antiTranspose (by omega) (by omega), h1, h2]
  have a3 : rkBlk (antiTranspose M) (M.length - 1 - c + 1) (M.length - 1 - r + 1) =
      rkBlk M r c := by
    have h1 : M.length - (M.length - 1 - r + 1) = r := by omega
    have h2 : M.length - (M.length - 1 - c + 1) = c := by omega
    rw [rkBlk_antiTranspose (by omega) (by omega), h1, h2]
  have a4 : rkBlk (antiTranspose M) (M.length - 1 - c) (M.length - 1 - r) =
      rkBlk M (r + 1) (c + 1) := by
    have h1 : M.length - (M.length - 1 - r) = r + 1 := by omega
    have h2 : M.length - (M.length - 1 - c) = c + 1 := by omega
    rw [rkBlk_antiTranspose (by omega) (by omega), h1, h2]
  rw [a1, a2, a3, a4]
  constructor
  · intro h0
    omega
  · intro h0
    omega

/-- Modelled from the spec: remapping of a dualized pair — index reversal
`i ↦ n-1-i` with birth and death roles swapped. -/
def dualizePair (n : ℕ) (q : ℕ × ℕ) : ℕ × ℕ :=
  (n - 1 - q.2, n - 1 - q.1)

/-- Duality of the standard reduction at the pair-set level. -/
theorem std_pairs_duality {M : List Col} (hord : OrderedCols M) :
    (pairsOfList (stdReduce (antiTranspose M))).toFinset.image
        (dualizePair M.length) =
      (pairsOfList (stdReduce M)).toFinset := by
  have hordA := antiTranspose_ordered hord
  ext q
  rw [Finset.mem_image]
  constructor
  · rintro ⟨q0, hq0, rfl⟩
    rw [List.mem_toFinset, mem_pairsOfList] at hq0
    obtain ⟨hlt, hlow⟩ := hq0
    rw [stdReduce_length, antiTranspose_length] at hlt
    have hpj : q0.1 < q0.2 :=
      redOf_entries_lt hordA (stdReduce_redOf (antiTranspose M)) q0.2 q0.1
        (low_mem hlow)
    have hrn : M.length - 1 - q0.2 < M.length := by omega
    have hcn : M.length - 1 - q0.1 < M.length := by omega
    have e1 : M.length - 1 - (M.length - 1 - q0.2) = q0.2 := by omega
    have e2 : M.length - 1 - (M.length - 1 - q0.1) = q0.1 := by omega
    have hd := low_duality hord hrn hcn
    rw [e1, e2] at hd
    rw [List.mem_toFinset, mem_pairsOfList]
    constructor
    · rw [stdReduce_length]
      show M.length - 1 - q0.1 < M.length
      omega
    · exact hd.mp hlow
  · intro hq
    rw [List.mem_toFinset, mem_pairsOfList] at hq
    obtain ⟨hlt, hlow⟩ := hq
    rw [stdReduce_length] at hlt
    have hq1 : q.1 < q.2 :=
      redOf_entries_lt hord (stdReduce_redOf M) q.2 q.1 (low_mem hlow)
    refine ⟨(M.length - 1 - q.2, M.length - 1 - q.1), ?_, ?_⟩
    · rw [List.mem_toFinset, mem_pairsOfList]
      constructor
      · rw [stdReduce_length, antiTranspose_length]
        show M.length - 1 - q.1 < M.length
        omega
      · exact (low_duality hord (show q.1 < M.length by omega) hlt).mpr hlow
    · show (M.length - 1 - (M.length - 1 - q.1),
        M.length - 1 - (M.length - 1 - q.2)) = q
      have e3 : M.length - 1 - (M.length - 1 - q.1) = q.1 := by omega
      have e4 : M.length - 1 - (M.length - 1 - q.2) = q.2 := by omega
      rw [e3, e4]

/-!  The claims, settled.  -/

/-- C1: For every ordered boundary matrix (the ordering and dimension-tag
invariants of spec section 3) and each of the five reduction algorithms
(standard, twist, row, chunk for every chunk size, spectral sequence),
reducing produces the same set of persistence pairs as the standard
algorithm. -/
theorem C1_cross_algorithm_agreement (a : Algorithm) (dims : List ℕ) (M : List Col)
    (hdlen : dims.length = M.length) (hord : OrderedCols M)
    (hdim : DimCompatCols dims M) :
    algPairs a dims M = algPairs Algorithm.standard dims M :=
  algPairs_eq_standard hdlen hord hdim a

theorem C1_cross_algorithm_agreement_witness :
    (triangleDims.length = triangleCols.length ∧ OrderedCols triangleCols ∧
      DimCompatCols triangleDims triangleCols) ∧
    algPairs Algorithm.twist triangleDims triangleCols =
      algPairs Algorithm.standard triangleDims triangleCols :=
  ⟨⟨by decide, by decide, by decide⟩,
    C1_cross_algorithm_agreement Algorithm.twist triangleDims triangleCols
      (by decide) (by decide) (by decide)⟩

/-- C2 (counterexample): on the triangle matrix of spec section 8 the
standard algorithm does not produce the claimed pairs (0,2), (1,4), (3,5);
in particular a pair with death index 6 is produced. -/
theorem C2_triangle_pairs_counterexample :
    algPairs Algorithm.standard triangleDims triangleCols ≠
      ({((0 : ℕ), (2 : ℕ)), (1, 4), (3, 5)} : Finset (ℕ × ℕ)) ∧
    (5, 6) ∈ algPairs Algorithm.standard triangleDims triangleCols := by
  constructor
  · decide
  · decide

/-- C2 (amended): on the triangle matrix, every one of the five algorithms
yields exactly the pairs (1,2), (3,4), (5,6); column 6 is the death of the
pair (5,6), and column 0 is the only essential column. -/
theorem C2_triangle_pairs_amended :
    algPairs Algorithm.standard triangleDims triangleCols =
      ({((1 : ℕ), (2 : ℕ)), (3, 4), (5, 6)} : Finset (ℕ × ℕ)) ∧
    algPairs Algorithm.twist triangleDims triangleCols =
      ({((1 : ℕ), (2 : ℕ)), (3, 4), (5, 6)} : Finset (ℕ × ℕ)) ∧
    algPairs Algorithm.row triangleDims triangleCols =
      ({((1 : ℕ), (2 : ℕ)), (3, 4), (5, 6)} : Finset (ℕ × ℕ)) ∧
    algPairs Algorithm.spectral triangleDims triangleCols =
      ({((1 : ℕ), (2 : ℕ)), (3, 4), (5, 6)} : Finset (ℕ × ℕ)) ∧
    (∀ s : ℕ, algPairs (Algorithm.chunk s) triangleDims triangleCols =
      ({((1 : ℕ), (2 : ℕ)), (3, 4), (5, 6)} : Finset (ℕ × ℕ))) := by
  refine ⟨by decide, by decide, by decide, by decide, ?_⟩
  intro s
  show (pairsOfList (chunkReduce s triangleCols)).toFinset = _
  rw [chunkPairs_eq_std]
  decide

/-- C3: for every ordered boundary matrix and every algorithm, reducing the
anti-transpose and mapping each pair back through index reversal with
birth/death roles swapped gives exactly the pairs of the non-dualized
computation. -/
theorem C3_dualization (a : Algorithm) (dims : List ℕ) (M : List Col)
    (hdlen : dims.length = M.length) (hord : OrderedCols M)
    (hdim : DimCompatCols dims M) :
    (algPairs a (dualDims dims) (antiTranspose M)).image (dualizePair M.length) =
      algPairs a dims M := by
  have hdlen2 : (dualDims dims).length = (antiTranspose M).length := by
    rw [dualDims_length, antiTranspose_length, hdlen]
  have hord2 := antiTranspose_ordered hord
  have hdim2 := antiTranspose_dimCompat hdlen hdim
  rw [algPairs_eq_standard hdlen2 hord2 hdim2 a, algPairs_eq_standard hdlen hord hdim a]
  show ((pairsOfList (stdReduce (antiTranspose M))).toFinset).image
      (dualizePair M.length) = (pairsOfList (stdReduce M)).toFinset
  exact std_pairs_duality hord

theorem C3_dualization_witness :
    (triangleDims.length = triangleCols.length ∧ OrderedCols triangleCols ∧
      DimCompatCols triangleDims triangleCols) ∧
    (algPairs Algorithm.twist (dualDims triangleDims)
        (antiTranspose triangleCols)).image (dualizePair triangleCols.length) =
      algPairs Algorithm.twist triangleDims triangleCols :=
  ⟨⟨by decide, by decide, by decide⟩,
    C3_dualization Algorithm.twist triangleDims triangleCols
      (by decide) (by decide) (by decide)⟩

/-- C4: the boundary-matrix equality operator returns true exactly when the
two matrices have the same number of columns, the same per-column dimension
tags and the same entries in every column, all read through the common
`get` contract, so the internal representations of the two operands are
irrelevant and no error is possible. -/
theorem C4_matrix_equality_iff {R1 R2 : ColumnRep}
    (m1 : BoundaryMatrix R1) (m2 : BoundaryMatrix R2) :
    BoundaryMatrix.matEq m1 m2 = true ↔
      (m1.get_num_cols = m2.get_num_cols ∧
       ∀ j < m1.get_num_cols, m1.get_dim j = m2.get_dim j ∧
         m1.get_col j = m2.get_col j) :=
  BoundaryMatrix.matEq_iff m1 m2

/-- C5: converting a well-formed boundary matrix to any representation and
the result to any further representation yields a matrix equal to the
original under matrix equality. -/
theorem C5_representation_roundtrip {R0 : ColumnRep} (R1 R2 : ColumnRep)
    (m : BoundaryMatrix R0) (h : m.WF) :
    BoundaryMatrix.matEq ((m.convert R1).convert R2) m = true :=
  BoundaryMatrix.convert_convert_matEq R1 R2 h

/-- A small well-formed `vector_vector` matrix used as witness input. -/
def wMat5 : BoundaryMatrix vector_vector :=
  ⟨[0, 0, 1], [[], [], [0, 1]]⟩

theorem C5_representation_roundtrip_witness :
    wMat5.WF ∧
    BoundaryMatrix.matEq ((wMat5.convert vector_set).convert vector_heap) wMat5 = true := by
  have h : wMat5.WF := by
    refine ⟨rfl, ?_⟩
    intro c hc
    simp only [wMat5, List.mem_cons, List.not_mem_nil, or_false] at hc
    rcases hc with rfl | rfl | rfl
    · exact ⟨[], by simp [AscList], rfl⟩
    · exact ⟨[], by simp [AscList], rfl⟩
    · exact ⟨[0, 1], by simp [AscList], rfl⟩
  exact ⟨h, C5_representation_roundtrip vector_set vector_heap wMat5 h⟩

/-- C6 (counterexample): on an ordered, dimension-compatible matrix that is
not a boundary matrix of a complex (`∂ ∘ ∂ ≠ 0`), re-running the twist
algorithm on its own already-reduced output loses a pair: the claim fails
as stated. -/
theorem C6_twist_not_idempotent_counterexample :
    OrderedCols [∅, {0}, {1}] ∧
    DimCompatCols [0, 1, 2] [∅, {0}, {1}] ∧
    ([0, 1, 2] : List ℕ).length = ([∅, {0}, {1}] : List Col).length ∧
    algReduce Algorithm.twist [0, 1, 2]
        (algReduce Algorithm.twist [0, 1, 2] [∅, {0}, {1}]) =
      algReduce Algorithm.twist [0, 1, 2] [∅, {0}, {1}] ∧
    algPairs Algorithm.twist [0, 1, 2]
        (algReduce Algorithm.twist [0, 1, 2] [∅, {0}, {1}]) ≠
      algPairs Algorithm.twist [0, 1, 2] [∅, {0}, {1}] := by
  refine ⟨by decide, by decide, by decide, by decide, by decide⟩

/-- C6 (amended): on every ordered, dimension-compatible boundary matrix
with `∂ ∘ ∂ = 0` (true of the boundary matrix of any cell complex), every
algorithm is idempotent: re-running it on its own reduced output leaves the
matrix unchanged and emits the identical pair list. -/
theorem C6_idempotence_amended (a : Algorithm) (dims : List ℕ) (M : List Col)
    (hdlen : dims.length = M.length) (hord : OrderedCols M)
    (hdim : DimCompatCols dims M) (hdd : BoundarySquaresZero M) :
    algReduce a dims (algReduce a dims M) = algReduce a dims M ∧
    algPairsList a dims (algReduce a dims M) = algPairsList a dims M :=
  algReduce_idem hdlen hord hdim hdd a

theorem C6_idempotence_amended_witness :
    (triangleDims.length = triangleCols.length ∧ OrderedCols triangleCols ∧
      DimCompatCols triangleDims triangleCols ∧ BoundarySquaresZero triangleCols) ∧
    (algReduce Algorithm.twist triangleDims
        (algReduce Algorithm.twist triangleDims triangleCols) =
      algReduce Algorithm.twist triangleDims triangleCols ∧
    algPairsList Algorithm.twist triangleDims
        (algReduce Algorithm.twist triangleDims triangleCols) =
      algPairsList Algorithm.twist triangleDims triangleCols) :=
  ⟨⟨by decide, by decide, by decide, by decide⟩,
    C6_idempotence_amended Algorithm.twist triangleDims triangleCols
      (by decide) (by decide) (by decide) (by decide)⟩

/-- C7 (counterexample): in the `phatpy.cpp` binding, `__getitem__` takes
its index as an unsigned `size_t`, so index -1 on a 3-pair collection
raises instead of resolving to the last pair: the claim fails as stated
for that binding. -/
theorem C7_negative_index_counterexample :
    phatpy_getitem [((1 : ℤ), (2 : ℤ)), (3, 4), (5, 6)] (-1) = Except.error () ∧
    phatpy_getitem [((1 : ℤ), (2 : ℤ)), (3, 4), (5, 6)] (-1) ≠ Except.ok (5, 6) := by
  refine ⟨rfl, ?_⟩
  intro h
  rw [show phatpy_getitem [((1 : ℤ), (2 : ℤ)), (3, 4), (5, 6)] (-1) =
    Except.error () from rfl] at h
  exact Except.noConfusion h

/-- C7 (amended): in the `_phat.cpp` binding, element access and
set-at-index succeed exactly when `-n ≤ i < n`, a negative index resolves
to position `n + i` and index -1 to the last pair; in the `phatpy.cpp`
binding, `__getitem__` converts the index to `size_t`, so every negative
index fails. -/
theorem C7_index_bounds_amended (p : List (ℤ × ℤ)) (h : 0 < p.length) :
    (∀ i : ℤ, (∃ v, phat_getitem p i = Except.ok v) ↔
      (-(p.length : ℤ) ≤ i ∧ i < (p.length : ℤ))) ∧
    (∀ (i : ℤ) (pr : ℤ × ℤ), (∃ q, phat_setitem p i pr = Except.ok q) ↔
      (-(p.length : ℤ) ≤ i ∧ i < (p.length : ℤ))) ∧
    (∀ i : ℤ, -(p.length : ℤ) ≤ i → i < 0 →
      phat_getitem p i = Except.ok (p.getD ((p.length : ℤ) + i).toNat (0, 0))) ∧
    phat_getitem p (-1) = Except.ok (p.getD (p.length - 1) (0, 0)) ∧
    (∀ i : ℤ, -(2 : ℤ) ^ 63 ≤ i → i < 0 → (p.length : ℤ) ≤ 2 ^ 63 →
      phatpy_getitem p i = Except.error ()) := by
  refine ⟨?_, ?_, ?_, ?_, ?_⟩
  · intro i
    rw [phat_getitem_spec]
    by_cases hb : -(p.length : ℤ) ≤ i ∧ i < (p.length : ℤ)
    · rw [if_pos hb]
      exact ⟨fun _ => hb, fun _ => ⟨_, rfl⟩⟩
    · rw [if_neg hb]
      exact ⟨fun ⟨v, hv⟩ => absurd hv (by simp), fun hc => absurd hc hb⟩
  · intro i pr
    rw [phat_setitem_spec]
    by_cases hb : -(p.length : ℤ) ≤ i ∧ i < (p.length : ℤ)
    · rw [if_pos hb]
      exact ⟨fun _ => hb, fun _ => ⟨_, rfl⟩⟩
    · rw [if_neg hb]
      exact ⟨fun ⟨v, hv⟩ => absurd hv (by simp), fun hc => absurd hc hb⟩
  · intro i h1 h2
    rw [phat_getitem_spec, if_pos ⟨h1, by omega⟩, if_pos h2]
  · rw [phat_getitem_spec, if_pos ⟨by omega, by omega⟩, if_pos (by omega)]
    have e : ((p.length : ℤ) + -1).toNat = p.length - 1 := by omega
    rw [e]
  · intro i h1 h2 h3
    have e63 : (2 : ℤ) ^ 63 = 9223372036854775808 := by norm_num
    have e64 : (2 : ℤ) ^ 64 = 18446744073709551616 := by norm_num
    rw [e63] at h1 h3
    unfold phatpy_getitem get_num_pairs
    rw [if_pos h2, e64, if_pos (by omega)]

theorem C7_index_bounds_amended_witness :
    0 < ([((1 : ℤ), (2 : ℤ)), (3, 4), (5, 6)]).length ∧
    phat_getitem [((1 : ℤ), (2 : ℤ)), (3, 4), (5, 6)] (-1) =
      Except.ok ([((1 : ℤ), (2 : ℤ)), (3, 4), (5, 6)].getD
        ([((1 : ℤ), (2 : ℤ)), (3, 4), (5, 6)].length - 1) (0, 0)) :=
  ⟨by decide,
    (C7_index_bounds_amended [((1 : ℤ), (2 : ℤ)), (3, 4), (5, 6)] (by decide)).2.2.2.1⟩

/-- C8: after `set_dims m dims` the matrix has exactly `dims.length`
columns and `get_dim i` returns `dims[i]` for every valid `i`. -/
theorem C8_set_dims_spec {R : ColumnRep} (m : BoundaryMatrix R) (ds : List ℤ) :
    (m.set_dims ds).get_num_cols = ds.length ∧
    ∀ i < ds.length, (m.set_dims ds).get_dim i = ds.getD i 0 :=
  BoundaryMatrix.set_dims_spec m ds

/-- An empty matrix used as witness input. -/
def wMat8 : BoundaryMatrix vector_vector :=
  ⟨[], []⟩

theorem C8_set_dims_spec_witness :
    (wMat8.set_dims [0, 0, 1]).get_num_cols = 3 ∧
    (wMat8.set_dims [0, 0, 1]).get_dim 2 = 1 :=
  ⟨(C8_set_dims_spec wMat8 [0, 0, 1]).1,
    ((C8_set_dims_spec wMat8 [0, 0, 1]).2 2 (by decide)).trans (by decide)⟩

/-- C9: the `phatpy.cpp` `__setitem__` binding raises an index error
exactly when the index is at least the pair count; every other index —
including every negative one — is forwarded to `set_pair` unchanged, with
no bounds check and no translation from the end. -/
theorem C9_phatpy_setitem_forwards (p : List (ℤ × ℤ)) (pr : ℤ × ℤ) :
    (∀ i : ℤ, (p.length : ℤ) ≤ i → phatpy_setitem_call p i pr = Except.error ()) ∧
    (∀ i : ℤ, i < (p.length : ℤ) → phatpy_setitem_call p i pr = Except.ok (i, pr)) := by
  constructor
  · intro i hi
    unfold phatpy_setitem_call get_num_pairs
    rw [if_pos (by omega)]
  · intro i hi
    unfold phatpy_setitem_call get_num_pairs
    rw [if_neg (by omega)]

theorem C9_phatpy_setitem_forwards_witness :
    (-4 : ℤ) < (([((1 : ℤ), (2 : ℤ)), (3, 4), (5, 6)]).length : ℤ) ∧
    phatpy_setitem_call [((1 : ℤ), (2 : ℤ)), (3, 4), (5, 6)] (-4) (7, 8) =
      Except.ok (-4, (7, 8)) :=
  ⟨by decide,
    (C9_phatpy_setitem_forwards [((1 : ℤ), (2 : ℤ)), (3, 4), (5, 6)] (7, 8)).2
      (-4) (by decide)⟩

/-- C10: for every algorithm and any two well-formed boundary matrices that
compare equal — whatever their storage representations — computing
persistence pairs yields identical pair collections. -/
theorem C10_representation_independence {R1 R2 : ColumnRep} (a : Algorithm)
    (m1 : BoundaryMatrix R1) (m2 : BoundaryMatrix R2)
    (h1 : m1.WF) (h2 : m2.WF) (heq : BoundaryMatrix.matEq m1 m2 = true) :
    m1.compute_persistence_pairs a = m2.compute_persistence_pairs a :=
  BoundaryMatrix.compute_eq_of_matEq a h1 h2 heq

/-- The triangle matrix stored in the `vector_vector` representation. -/
def wMat10a : BoundaryMatrix vector_vector :=
  ⟨[0, 0, 1, 0, 1, 1, 2], [[], [], [0, 1], [], [1, 3], [0, 3], [2, 4, 5]]⟩

/-- The triangle matrix stored in the `vector_list` representation. -/
def wMat10b : BoundaryMatrix vector_list :=
  ⟨[0, 0, 1, 0, 1, 1, 2], [[], [], [0, 1], [], [1, 3], [0, 3], [2, 4, 5]]⟩

theorem C10_representation_independence_witness :
    (wMat10a.WF ∧ wMat10b.WF ∧ BoundaryMatrix.matEq wMat10a wMat10b = true) ∧
    wMat10a.compute_persistence_pairs Algorithm.twist =
      wMat10b.compute_persistence_pairs Algorithm.twist := by
  have h1 : wMat10a.WF := by
    refine ⟨rfl, ?_⟩
    intro c hc
    simp only [wMat10a, List.mem_cons, List.not_mem_nil, or_false] at hc
    rcases hc with rfl | rfl | rfl | rfl | rfl | rfl | rfl
    · exact ⟨[], by simp [AscList], rfl⟩
    · exact ⟨[], by simp [AscList], rfl⟩
    · exact ⟨[0, 1], by simp [AscList], rfl⟩
    · exact ⟨[], by simp [AscList], rfl⟩
    · exact ⟨[1, 3], by simp [AscList], rfl⟩
    · exact ⟨[0, 3], by simp [AscList], rfl⟩
    · exact ⟨[2, 4, 5], by simp [AscList], rfl⟩
  have h2 : wMat10b.WF := by
    refine ⟨rfl, ?_⟩
    intro c hc
    simp only [wMat10b, List.mem_cons, List.not_mem_nil, or_false] at hc
    rcases hc with rfl | rfl | rfl | rfl | rfl | rfl | rfl
    · exact ⟨[], by simp [AscList], rfl⟩
    · exact ⟨[], by simp [AscList], rfl⟩
    · exact ⟨[0, 1], by simp [AscList], rfl⟩
    · exact ⟨[], by simp [AscList], rfl⟩
    · exact ⟨[1, 3], by simp [AscList], rfl⟩
    · exact ⟨[0, 3], by simp [AscList], rfl⟩
    · exact ⟨[2, 4, 5], by simp [AscList], rfl⟩
  have heq : BoundaryMatrix.matEq wMat10a wMat10b = true := by decide
  exact ⟨⟨h1, h2, heq⟩, C10_representation_independence Algorithm.twist wMat10a wMat10b h1 h2 heq⟩

end Phat
